import Mathlib

/-!
Verification development for the flash-ai document-to-flashcard extraction
pipeline.  The definitions below are a shallow embedding of the Python code in
`app/services/chunker.py` (class `AgenticChunker`) and
`app/services/flashcard.py` (`process_text_file_to_flashcards`), together with
the pieces of the Python standard library the code leans on (UTF-8
encoding/decoding, `hashlib.md5` hex digests, `json.loads`, the specific
regular expressions used, `str.strip`/`str.lower`, and `repr` of
tuples/lists of strings).  Machine integers are modelled as `Nat` with
explicit reduction modulo 2^32 / 2^64 where the algorithms require it;
Python exceptions are modelled with `Except`; the generative model is an
explicit function parameter from prompt strings to outcomes.
All definitions are executable (fuel-based where the recursion is not
structural) so that concrete witnesses evaluate by `decide` / `rfl`.
-/

/-! ### Python string primitives (ASCII fragment)

`str.strip()`, `str.lower()` and the `\s` regex class are modelled on the
ASCII whitespace set `{space, \t, \n, \r, \v, \f}`; the pipeline only ever
builds keys and compares text, so the ASCII fragment is the relevant one. -/

def isPySpace (c : Char) : Bool :=
  c = ' ' || c = '\t' || c = '\n' || c = '\x0d' || c = '\x0b' || c = '\x0c'

def pyStripList (cs : List Char) : List Char :=
  ((cs.dropWhile isPySpace).reverse.dropWhile isPySpace).reverse

def pyStrip (s : String) : String :=
  String.mk (pyStripList s.data)

def pyLower (s : String) : String :=
  String.mk (s.data.map Char.toLower)

/-- Python `len` on `str` counts code points. -/
def pyLen (s : String) : Nat := s.data.length

/-- In-place list update, `xs[i] = v`. -/
def setIdx {α : Type} : List α → Nat → α → List α
  | [], _, _ => []
  | _ :: xs, 0, v => v :: xs
  | x :: xs, n + 1, v => x :: setIdx xs n v

/-! ### UTF-8 encoding and strict decoding

`bytes.decode("utf-8")` (strict mode) and `str.encode()` as used by
`file_content.decode("utf-8")` and `hashlib.md5(text.encode())`. -/

def utf8EncodeChar (c : Char) : List Nat :=
  let n := c.toNat
  if n < 0x80 then [n]
  else if n < 0x800 then [0xC0 + n / 64, 0x80 + n % 64]
  else if n < 0x10000 then
    [0xE0 + n / 4096, 0x80 + (n / 64) % 64, 0x80 + n % 64]
  else
    [0xF0 + n / 262144, 0x80 + (n / 4096) % 64, 0x80 + (n / 64) % 64,
      0x80 + n % 64]

def utf8Encode (s : String) : List Nat :=
  s.data.flatMap utf8EncodeChar

def isCont (b : Nat) : Bool := 0x80 ≤ b && b ≤ 0xBF

/-- Strict UTF-8 decoder returning the decoded code points, or `none` on the
inputs Python's strict `bytes.decode("utf-8")` rejects (bad start bytes,
truncated sequences, overlong forms, surrogates, values above U+10FFFF). -/
def utf8DecodeList : List Nat → Option (List Char)
  | [] => some []
  | b :: rest =>
    if b < 0x80 then
      (utf8DecodeList rest).map (fun cs => Char.ofNat b :: cs)
    else if 0xC2 ≤ b && b ≤ 0xDF then
      match rest with
      | b1 :: rest1 =>
        if isCont b1 then
          (utf8DecodeList rest1).map
            (fun cs => Char.ofNat ((b - 0xC0) * 64 + (b1 - 0x80)) :: cs)
        else none
      | _ => none
    else if 0xE0 ≤ b && b ≤ 0xEF then
      match rest with
      | b1 :: b2 :: rest2 =>
        let lo1 : Nat := if b = 0xE0 then 0xA0 else 0x80
        let hi1 : Nat := if b = 0xED then 0x9F else 0xBF
        if lo1 ≤ b1 && b1 ≤ hi1 && isCont b2 then
          (utf8DecodeList rest2).map (fun cs =>
            Char.ofNat ((b - 0xE0) * 4096 + (b1 - 0x80) * 64 + (b2 - 0x80)) :: cs)
        else none
      | _ => none
    else if 0xF0 ≤ b && b ≤ 0xF4 then
      match rest with
      | b1 :: b2 :: b3 :: rest3 =>
        let lo1 : Nat := if b = 0xF0 then 0x90 else 0x80
        let hi1 : Nat := if b = 0xF4 then 0x8F else 0xBF
        if lo1 ≤ b1 && b1 ≤ hi1 && isCont b2 && isCont b3 then
          (utf8DecodeList rest3).map (fun cs =>
            Char.ofNat ((b - 0xF0) * 262144 + (b1 - 0x80) * 4096 +
              (b2 - 0x80) * 64 + (b3 - 0x80)) :: cs)
        else none
      | _ => none
    else none

def utf8Decode (bs : List Nat) : Option String :=
  (utf8DecodeList bs).map String.mk

/-! ### MD5 (`hashlib.md5(...).hexdigest()`)

Straight RFC 1321 implementation over `Nat` with explicit `% 2^32`. -/

def m32 : Nat := 4294967296

def add32 (a b : Nat) : Nat := (a + b) % m32

def not32 (x : Nat) : Nat := m32 - 1 - x % m32

def rotl32 (x s : Nat) : Nat :=
  ((x % m32) * 2 ^ s) % m32 + (x % m32) / 2 ^ (32 - s)

def md5K : List Nat :=
  [0xd76aa478, 0xe8c7b756, 0x242070db, 0xc1bdceee,
   0xf57c0faf, 0x4787c62a, 0xa8304613, 0xfd469501,
   0x698098d8, 0x8b44f7af, 0xffff5bb1, 0x895cd7be,
   0x6b901122, 0xfd987193, 0xa679438e, 0x49b40821,
   0xf61e2562, 0xc040b340, 0x265e5a51, 0xe9b6c7aa,
   0xd62f105d, 0x02441453, 0xd8a1e681, 0xe7d3fbc8,
   0x21e1cde6, 0xc33707d6, 0xf4d50d87, 0x455a14ed,
   0xa9e3e905, 0xfcefa3f8, 0x676f02d9, 0x8d2a4c8a,
   0xfffa3942, 0x8771f681, 0x6d9d6122, 0xfde5380c,
   0xa4beea44, 0x4bdecfa9, 0xf6bb4b60, 0xbebfbc70,
   0x289b7ec6, 0xeaa127fa, 0xd4ef3085, 0x04881d05,
   0xd9d4d039, 0xe6db99e5, 0x1fa27cf8, 0xc4ac5665,
   0xf4292244, 0x432aff97, 0xab9423a7, 0xfc93a039,
   0x655b59c3, 0x8f0ccc92, 0xffeff47d, 0x85845dd1,
   0x6fa87e4f, 0xfe2ce6e0, 0xa3014314, 0x4e0811a1,
   0xf7537e82, 0xbd3af235, 0x2ad7d2bb, 0xeb86d391]

def md5S : List Nat :=
  [7, 12, 17, 22, 7, 12, 17, 22, 7, 12, 17, 22, 7, 12, 17, 22,
   5, 9, 14, 20, 5, 9, 14, 20, 5, 9, 14, 20, 5, 9, 14, 20,
   4, 11, 16, 23, 4, 11, 16, 23, 4, 11, 16, 23, 4, 11, 16, 23,
   6, 10, 15, 21, 6, 10, 15, 21, 6, 10, 15, 21, 6, 10, 15, 21]

def md5F (i b c d : Nat) : Nat :=
  if i < 16 then Nat.lor (Nat.land b c) (Nat.land (not32 b) d)
  else if i < 32 then Nat.lor (Nat.land d b) (Nat.land (not32 d) c)
  else if i < 48 then Nat.xor (Nat.xor b c) d
  else Nat.xor c (Nat.lor b (not32 d))

def md5G (i : Nat) : Nat :=
  if i < 16 then i
  else if i < 32 then (5 * i + 1) % 16
  else if i < 48 then (3 * i + 5) % 16
  else (7 * i) % 16

/-- One block round step fold: state is `(a, b, c, d)`. -/
def md5Step (m : List Nat) (st : Nat × Nat × Nat × Nat) (i : Nat) :
    Nat × Nat × Nat × Nat :=
  let (a, b, c, d) := st
  let f := add32 (add32 (add32 (md5F i b c d) a) (md5K.getD i 0))
    (m.getD (md5G i) 0)
  (d, add32 b (rotl32 f (md5S.getD i 0)), b, c)

def leWord (bs : List Nat) : Nat :=
  bs.getD 0 0 + bs.getD 1 0 * 256 + bs.getD 2 0 * 65536 + bs.getD 3 0 * 16777216

def chunksAux (n : Nat) : Nat → List α → List (List α)
  | _, [] => []
  | 0, _ => []
  | fuel + 1, x :: xs => ((x :: xs).take n) :: chunksAux n fuel ((x :: xs).drop n)

/-- Slice a list into consecutive pieces of `n` elements (Python
`l[i : i + n]` loops); total for `n > 0` because the fuel is the length. -/
def chunksOf (n : Nat) (l : List α) : List (List α) :=
  chunksAux n l.length l

def md5Block (st : Nat × Nat × Nat × Nat) (block : List Nat) :
    Nat × Nat × Nat × Nat :=
  let m := (chunksOf 4 block).map leWord
  let (a0, b0, c0, d0) := st
  let (a, b, c, d) := (List.range 64).foldl (md5Step m) (a0, b0, c0, d0)
  (add32 a0 a, add32 b0 b, add32 c0 c, add32 d0 d)

def md5Pad (msg : List Nat) : List Nat :=
  let len := msg.length
  let padLen := (55 + 64 - len % 64) % 64 + 1
  let bitLen := (len * 8) % (2 ^ 64)
  msg ++ (0x80 :: List.replicate (padLen - 1) 0) ++
    (List.range 8).map (fun i => bitLen / 256 ^ i % 256)

def hexDigit (n : Nat) : Char :=
  if n < 10 then Char.ofNat (48 + n) else Char.ofNat (87 + n)

def byteHex (b : Nat) : List Char := [hexDigit (b / 16), hexDigit (b % 16)]

def wordLEBytes (w : Nat) : List Nat :=
  [w % 256, w / 256 % 256, w / 65536 % 256, w / 16777216 % 256]

/-- `hashlib.md5(bs).hexdigest()`. -/
def md5Hex (bs : List Nat) : String :=
  let blocks := chunksOf 64 (md5Pad bs)
  let (a, b, c, d) :=
    blocks.foldl md5Block (0x67452301, 0xefcdab89, 0x98badcfe, 0x10325476)
  String.mk (([a, b, c, d].flatMap wordLEBytes).flatMap byteHex)

/-! ### JSON values (`json.loads` result model)

Numbers keep their exact decimal value `m * 10 ^ e` (`jint` for integer
literals, `jnum` otherwise); `json.loads` additionally accepts the
constants `NaN`, `Infinity` and `-Infinity`.  Lone UTF-16 surrogate
escapes (accepted by CPython) are not representable in `Char` and are
rejected here; no behaviour below depends on them. -/

mutual

inductive Json where
  | jnull
  | jbool (b : Bool)
  | jint (n : Int)
  | jnum (m : Int) (e : Int)
  | jnan
  | jinf (neg : Bool)
  | jstr (s : String)
  | jarr (elems : JsonList)
  | jobj (entries : JsonObj)

inductive JsonList where
  | nil
  | cons (hd : Json) (tl : JsonList)

inductive JsonObj where
  | nil
  | cons (key : String) (val : Json) (tl : JsonObj)

end

def JsonList.toList : JsonList → List Json
  | .nil => []
  | .cons x tl => x :: tl.toList

def JsonList.ofList : List Json → JsonList
  | [] => .nil
  | x :: xs => .cons x (JsonList.ofList xs)

def JsonObj.toEntries : JsonObj → List (String × Json)
  | .nil => []
  | .cons k v tl => (k, v) :: tl.toEntries

def JsonObj.ofEntries : List (String × Json) → JsonObj
  | [] => .nil
  | (k, v) :: es => .cons k v (JsonObj.ofEntries es)

def JsonObj.lengthO : JsonObj → Nat
  | .nil => 0
  | .cons _ _ tl => tl.lengthO + 1

/-- First value stored under `k`, if any. -/
def JsonObj.findO : JsonObj → String → Option Json
  | .nil, _ => none
  | .cons k v tl, key => if k = key then some v else tl.findO key

def JsonObj.hasKey (o : JsonObj) (key : String) : Bool :=
  (o.findO key).isSome

inductive Tok where
  | lbrace | rbrace | lbrack | rbrack | colon | comma
  | tstr (s : String)
  | tint (n : Int)
  | tnum (m : Int) (e : Int)
  | ttrue | tfalse | tnull | tnan
  | tinf (neg : Bool)
  deriving DecidableEq

/-- JSON inter-token whitespace (`' '`, `'\t'`, `'\n'`, `'\r'` only). -/
def isJsonSpace (c : Char) : Bool :=
  c = ' ' || c = '\t' || c = '\n' || c = '\x0d'

def hexVal (c : Char) : Option Nat :=
  if '0' ≤ c && c ≤ '9' then some (c.toNat - 48)
  else if 'a' ≤ c && c ≤ 'f' then some (c.toNat - 87)
  else if 'A' ≤ c && c ≤ 'F' then some (c.toNat - 55)
  else none

def hex4 (a b c d : Char) : Option Nat := do
  let x ← hexVal a
  let y ← hexVal b
  let z ← hexVal c
  let w ← hexVal d
  pure (x * 4096 + y * 256 + z * 16 + w)

def escChar (c : Char) : Option Char :=
  if c = '"' then some '"'
  else if c = '\\' then some '\\'
  else if c = '/' then some '/'
  else if c = 'b' then some '\x08'
  else if c = 'f' then some '\x0c'
  else if c = 'n' then some '\n'
  else if c = 'r' then some '\x0d'
  else if c = 't' then some '\t'
  else none

/-- The tail of a UTF-16 surrogate pair: `\uXXXX` with a low surrogate,
following a high surrogate `n`. -/
def lexSurrogateTail (n : Nat) : List Char → Option (Char × List Char)
  | b :: u :: g1 :: g2 :: g3 :: g4 :: rest8 =>
    if b = '\\' && u = 'u' then
      match hex4 g1 g2 g3 g4 with
      | none => none
      | some n2 =>
        if 0xDC00 ≤ n2 && n2 ≤ 0xDFFF then
          some (Char.ofNat (0x10000 + (n - 0xD800) * 1024 + (n2 - 0xDC00)), rest8)
        else none
    else none
  | _ => none

/-- Decode one escape sequence (after the backslash): the single-char
escapes, `\uXXXX`, and UTF-16 surrogate pairs; lone surrogates are
rejected (see the module comment). -/
def lexEsc1 : List Char → Option (Char × List Char)
  | [] => none
  | e :: rest1 =>
    if e = 'u' then
      match rest1 with
      | h1 :: h2 :: h3 :: h4 :: rest4 =>
        match hex4 h1 h2 h3 h4 with
        | none => none
        | some n =>
          if 0xD800 ≤ n && n ≤ 0xDBFF then lexSurrogateTail n rest4
          else if 0xDC00 ≤ n && n ≤ 0xDFFF then none
          else some (Char.ofNat n, rest4)
      | _ => none
    else (escChar e).map (fun d => (d, rest1))

/-- Lex a JSON string body (after the opening quote); strict mode: raw
control characters below `0x20` are rejected.  Returns the decoded
content and the remaining characters after the closing quote.  The fuel
only needs to dominate the length. -/
def lexStrF : Nat → List Char → Option (List Char × List Char)
  | 0, _ => none
  | _ + 1, [] => none
  | f + 1, c :: rest =>
    if c = '"' then some ([], rest)
    else if c = '\\' then
      match lexEsc1 rest with
      | none => none
      | some (d, rest2) => (lexStrF f rest2).map (fun p => (d :: p.1, p.2))
    else if c.toNat < 0x20 then none
    else (lexStrF f rest).map (fun p => (c :: p.1, p.2))

def lexStr (cs : List Char) : Option (List Char × List Char) :=
  lexStrF (cs.length + 1) cs

/-- Optional leading minus sign of a number literal. -/
def lexSign : List Char → Bool × List Char
  | '-' :: rest => (true, rest)
  | cs => (false, cs)

/-- Optional fraction part `(\.\d+)?`: the digits and the remainder
(nothing is consumed unless a dot with at least one digit follows). -/
def lexFrac : List Char → List Char × List Char
  | '.' :: rest =>
    let f := rest.takeWhile Char.isDigit
    if f.isEmpty then ([], '.' :: rest) else (f, rest.drop f.length)
  | cs => ([], cs)

/-- Optional sign of an exponent. -/
def lexExpSign : List Char → Bool × List Char
  | '-' :: r => (true, r)
  | '+' :: r => (false, r)
  | cs => (false, cs)

/-- Optional exponent part `([eE][-+]?\d+)?`: digits, sign, remainder,
and whether it was present. -/
def lexExp : List Char → List Char × Bool × List Char × Bool
  | e :: rest =>
    if e = 'e' || e = 'E' then
      let p := lexExpSign rest
      let ds := p.2.takeWhile Char.isDigit
      if ds.isEmpty then ([], false, e :: rest, false)
      else (ds, p.1, p.2.drop ds.length, true)
    else ([], false, e :: rest, false)
  | [] => ([], false, [], false)

def digitsToNat (l : List Char) : Nat :=
  l.foldl (fun a c => a * 10 + (c.toNat - 48)) 0

/-- Lex a JSON number at the current position (the regex
`(-?(?:0|[1-9]\d*))(\.\d+)?([eE][-+]?\d+)?`); returns the token and the
remainder, or `none` when the regex does not match here. -/
def lexNumber (cs : List Char) : Option (Tok × List Char) :=
  let (neg, cs1) := lexSign cs
  let intDigits := cs1.takeWhile Char.isDigit
  match intDigits with
  | [] => none
  | d0 :: ds =>
    let intPart : List Char := if d0 = '0' then ['0'] else d0 :: ds
    let cs2 := cs1.drop intPart.length
    let (fracDigits, cs3) := lexFrac cs2
    let (expDigits, expNeg, cs4, hasExp) := lexExp cs3
    let sign : Int := if neg then -1 else 1
    if fracDigits.isEmpty && !hasExp then
      some (.tint (sign * Int.ofNat (digitsToNat intPart)), cs2)
    else
      let m : Int := sign * Int.ofNat
        (digitsToNat intPart * 10 ^ fracDigits.length + digitsToNat fracDigits)
      let e : Int :=
        (if expNeg then -(Int.ofNat (digitsToNat expDigits))
         else Int.ofNat (digitsToNat expDigits)) - Int.ofNat fracDigits.length
      some (.tnum m e, cs4)

/-- One-token-at-a-time lexer; the fuel only needs to dominate the input
length. -/
def tokenizeF : Nat → List Char → Option (List Tok)
  | 0, _ => none
  | _, [] => some []
  | f + 1, c :: rest =>
    if isJsonSpace c then tokenizeF f rest
    else if c = '{' then (tokenizeF f rest).map (Tok.lbrace :: ·)
    else if c = '}' then (tokenizeF f rest).map (Tok.rbrace :: ·)
    else if c = '[' then (tokenizeF f rest).map (Tok.lbrack :: ·)
    else if c = ']' then (tokenizeF f rest).map (Tok.rbrack :: ·)
    else if c = ':' then (tokenizeF f rest).map (Tok.colon :: ·)
    else if c = ',' then (tokenizeF f rest).map (Tok.comma :: ·)
    else if c = '"' then
      match lexStr rest with
      | none => none
      | some (s, r) => (tokenizeF f r).map (Tok.tstr (String.mk s) :: ·)
    else if c = 't' then
      match rest with
      | 'r' :: 'u' :: 'e' :: r => (tokenizeF f r).map (Tok.ttrue :: ·)
      | _ => none
    else if c = 'f' then
      match rest with
      | 'a' :: 'l' :: 's' :: 'e' :: r => (tokenizeF f r).map (Tok.tfalse :: ·)
      | _ => none
    else if c = 'n' then
      match rest with
      | 'u' :: 'l' :: 'l' :: r => (tokenizeF f r).map (Tok.tnull :: ·)
      | _ => none
    else if c = 'N' then
      match rest with
      | 'a' :: 'N' :: r => (tokenizeF f r).map (Tok.tnan :: ·)
      | _ => none
    else if c = 'I' then
      match rest with
      | 'n' :: 'f' :: 'i' :: 'n' :: 'i' :: 't' :: 'y' :: r =>
        (tokenizeF f r).map (Tok.tinf false :: ·)
      | _ => none
    else
      match lexNumber (c :: rest) with
      | some (t, r) => (tokenizeF f r).map (t :: ·)
      | none =>
        if c = '-' then
          match rest with
          | 'I' :: 'n' :: 'f' :: 'i' :: 'n' :: 'i' :: 't' :: 'y' :: r =>
            (tokenizeF f r).map (Tok.tinf true :: ·)
          | _ => none
        else none

def tokenize (cs : List Char) : Option (List Tok) :=
  tokenizeF (cs.length + 1) cs

/-- `dict` assignment `d[k] = v`: an `==`-equal existing key keeps its
position and is overwritten, otherwise the pair is appended. -/
def objAssign (entries : List (String × Json)) (k : String) (v : Json) :
    List (String × Json) :=
  if entries.any (fun p => p.1 = k) then
    entries.map (fun p => if p.1 = k then (p.1, v) else p)
  else entries ++ [(k, v)]

mutual

/-- Recursive-descent JSON value grammar over the token list. -/
def parseVal : Nat → List Tok → Option (Json × List Tok)
  | 0, _ => none
  | _, [] => none
  | f + 1, t :: rest =>
    match t with
    | .tstr s => some (.jstr s, rest)
    | .tint n => some (.jint n, rest)
    | .tnum m e => some (.jnum m e, rest)
    | .ttrue => some (.jbool true, rest)
    | .tfalse => some (.jbool false, rest)
    | .tnull => some (.jnull, rest)
    | .tnan => some (.jnan, rest)
    | .tinf neg => some (.jinf neg, rest)
    | .lbrack =>
      match rest with
      | .rbrack :: r => some (.jarr .nil, r)
      | _ =>
        match parseVal f rest with
        | none => none
        | some (v, r) => parseArrTail f [v] r
    | .lbrace =>
      match rest with
      | .rbrace :: r => some (.jobj .nil, r)
      | _ => parseObjEntry f [] rest
    | _ => none

def parseArrTail : Nat → List Json → List Tok → Option (Json × List Tok)
  | 0, _, _ => none
  | f + 1, acc, toks =>
    match toks with
    | .rbrack :: r => some (.jarr (JsonList.ofList acc.reverse), r)
    | .comma :: r =>
      match parseVal f r with
      | none => none
      | some (v, r2) => parseArrTail f (v :: acc) r2
    | _ => none

def parseObjEntry : Nat → List (String × Json) → List Tok →
    Option (Json × List Tok)
  | 0, _, _ => none
  | f + 1, acc, toks =>
    match toks with
    | .tstr k :: .colon :: r =>
      match parseVal f r with
      | none => none
      | some (v, r2) => parseObjTail f (objAssign acc k v) r2
    | _ => none

def parseObjTail : Nat → List (String × Json) → List Tok →
    Option (Json × List Tok)
  | 0, _, _ => none
  | f + 1, acc, toks =>
    match toks with
    | .rbrace :: r => some (.jobj (JsonObj.ofEntries acc), r)
    | .comma :: r => parseObjEntry f acc r
    | _ => none

end

def parseToks (ts : List Tok) : Option Json :=
  match parseVal (2 * ts.length + 2) ts with
  | some (v, []) => some v
  | _ => none

/-- `json.loads`: tokenize, parse one value, reject trailing data. -/
def jsonParse (s : String) : Option Json :=
  match tokenize s.data with
  | none => none
  | some ts => parseToks ts

/-! ### Python semantics over parsed JSON values

`==`, truthiness, `in`, iteration and `dict` operations as they act on
values produced by `json.loads` (with Python's numeric cross-type
equality `True == 1 == 1.0` and `nan != nan`). -/

def numValDec : Json → Option (Int × Int)
  | .jint n => some (n, 0)
  | .jnum m e => some (m, e)
  | .jbool b => some (if b then 1 else 0, 0)
  | _ => none

def decNumEq : Int × Int → Int × Int → Bool
  | (m1, e1), (m2, e2) =>
    if e2 ≤ e1 then m1 * 10 ^ (e1 - e2).toNat == m2
    else m2 * 10 ^ (e2 - e1).toNat == m1

mutual

/-- Python `==` on `json.loads` values, structural on the first argument
(`nan` is unequal to everything, numeric types compare by value, dicts
compare by key lookup, order-insensitively). -/
def pyEqJson : Json → Json → Bool
  | .jnan, _ => false
  | _, .jnan => false
  | .jinf x, .jinf y => x == y
  | .jinf _, _ => false
  | _, .jinf _ => false
  | .jstr s, .jstr t => s == t
  | .jnull, .jnull => true
  | .jarr xs, .jarr ys => pyEqJsonList xs ys
  | .jarr _, _ => false
  | _, .jarr _ => false
  | .jobj xs, .jobj ys => xs.lengthO == ys.lengthO && pyEqObjSub xs ys
  | .jobj _, _ => false
  | _, .jobj _ => false
  | a, b =>
    match numValDec a, numValDec b with
    | some p, some q => decNumEq p q
    | _, _ => false

def pyEqJsonList : JsonList → JsonList → Bool
  | .nil, .nil => true
  | .cons x xs, .cons y ys => pyEqJson x y && pyEqJsonList xs ys
  | _, _ => false

/-- Every key of the first dict is present in the second with an
`==`-equal value. -/
def pyEqObjSub : JsonObj → JsonObj → Bool
  | .nil, _ => true
  | .cons k v tl, ys =>
    (match ys.findO k with
      | some w => pyEqJson v w
      | none => false)
    && pyEqObjSub tl ys

end

def pyTruthy : Json → Bool
  | .jnull => false
  | .jbool b => b
  | .jint n => n != 0
  | .jnum m _ => m != 0
  | .jnan => true
  | .jinf _ => true
  | .jstr s => !s.data.isEmpty
  | .jarr l => !(l.toList.isEmpty)
  | .jobj es => es.lengthO != 0

/-- Python `for x in v`: lists yield elements, strings their characters,
dicts their keys; other values raise `TypeError`. -/
def pyIter : Json → Except Unit (List Json)
  | .jarr l => .ok l.toList
  | .jstr s => .ok (s.data.map (fun c => Json.jstr (String.mk [c])))
  | .jobj es => .ok (es.toEntries.map (fun p => Json.jstr p.1))
  | _ => .error ()

def containsSub : List Char → List Char → Bool
  | [], needle => needle.isEmpty
  | h :: t, needle => needle.isPrefixOf (h :: t) || containsSub t needle

/-- Python `key in v` for a string key: dict key membership, list element
membership (under `==`), substring test on strings; `TypeError` otherwise. -/
def pyContains (v : Json) (key : String) : Except Unit Bool :=
  match v with
  | .jobj es => .ok (es.hasKey key)
  | .jarr l => .ok (l.toList.any (fun x => pyEqJson x (.jstr key)))
  | .jstr s => .ok (containsSub s.data key.data)
  | _ => .error ()

/-- Python `v[key]` for a string key (`TypeError` on non-dicts, `KeyError`
on a missing key). -/
def pyIndexStr (v : Json) (key : String) : Except Unit Json :=
  match v with
  | .jobj es =>
    match es.findO key with
    | some w => .ok w
    | none => .error ()
  | _ => .error ()

/-- `dict.get` on a JSON object (`None` for a missing key is represented
by the `Option`). -/
def objGet (es : JsonObj) (k : String) : Option Json :=
  es.findO k

/-- Assignment into a dict keyed by arbitrary JSON values (Python `==`
semantics: an equal key keeps its position, the value is overwritten). -/
def pyDictAssign {α : Type} (d : List (Json × α)) (k : Json) (v : α) :
    List (Json × α) :=
  if d.any (fun p => pyEqJson p.1 k) then
    d.map (fun p => if pyEqJson p.1 k then (p.1, v) else p)
  else d ++ [(k, v)]

/-- `d.get(i)` where `i` is a Python `int`. -/
def pyDictGetInt {α : Type} (d : List (Json × α)) (i : Nat) : Option α :=
  (d.find? (fun p => pyEqJson p.1 (.jint i))).map (·.2)

/-! ### Python `repr` of strings, lists and tuples of strings

Used for the merge-cache key `f"{questions_a}||{questions_b}"` (tuples)
and the comparison prompt `f"Group A: {questions_a}"` (lists). -/

def sqc : Char := Char.ofNat 39

def pyReprEscape (q : Char) (c : Char) : List Char :=
  if c = '\\' then ['\\', '\\']
  else if c = q then ['\\', q]
  else if c = '\n' then ['\\', 'n']
  else if c = '\x0d' then ['\\', 'r']
  else if c = '\t' then ['\\', 't']
  else if c.toNat < 32 || c.toNat = 127 then
    '\\' :: 'x' :: [hexDigit (c.toNat / 16), hexDigit (c.toNat % 16)]
  else [c]

def pyStrRepr (s : String) : String :=
  let q : Char := if s.data.contains sqc && !s.data.contains '"' then '"' else sqc
  String.mk (q :: s.data.flatMap (pyReprEscape q) ++ [q])

def pyListRepr (xs : List String) : String :=
  "[" ++ String.intercalate ", " (xs.map pyStrRepr) ++ "]"

def pyTupleRepr : List String → String
  | [] => "()"
  | [x] => "(" ++ pyStrRepr x ++ ",)"
  | xs => "(" ++ String.intercalate ", " (xs.map pyStrRepr) ++ ")"

/-! ### Chunker data model (`app/services/chunker.py`)

Chunks are Python dicts `{"text", "qa_pairs", "char_count"}` gaining an
optional `"merge_reason"` / `"split_reason"` entry during assembly; the
reason values come from parsed JSON.  The generative model is a function
from the prompt to either an exception or a response whose `content` is a
string, a list of blocks, or something else (`str()`-coerced). -/

structure QA where
  question : String
  answer : String
  deriving DecidableEq

deriving instance DecidableEq for Except

structure Chunk where
  text : String
  qa_pairs : List QA
  char_count : Nat
  merge_reason : Option Json := none
  split_reason : Option Json := none

def beqOptJson : Option Json → Option Json → Bool
  | none, none => true
  | some a, some b => pyEqJson a b
  | _, _ => false

/-- Python `==` on two chunk dicts. -/
def beqChunk (a b : Chunk) : Bool :=
  a.text == b.text && a.qa_pairs == b.qa_pairs && a.char_count == b.char_count
    && beqOptJson a.merge_reason b.merge_reason
    && beqOptJson a.split_reason b.split_reason

structure PyBlock where
  text : Option String
  asStr : String

inductive PyContent where
  | pstr (s : String)
  | pblocks (blocks : List PyBlock)
  | pother (asStr : String)

structure ModelResp where
  content : PyContent

/-- `self.model.invoke`: an arbitrary but fixed map from prompts to either
an exception or a response. -/
def ModelFn : Type := String → Except Unit ModelResp

/-- `_extract_content_from_response` (guards the empty block list). -/
def extract_content_from_response (r : ModelResp) : String :=
  match r.content with
  | .pstr s => s
  | .pblocks [] => ""
  | .pblocks (b :: _) => match b.text with | some t => t | none => b.asStr
  | .pother s => s

/-- The inline copy of the same normalization in
`should_merge_chunks_batch` indexes `content[0]` without a length guard:
an empty block list raises `IndexError`. -/
def merge_extract_content (r : ModelResp) : Except Unit String :=
  match r.content with
  | .pstr s => .ok s
  | .pblocks [] => .error ()
  | .pblocks (b :: _) => .ok (match b.text with | some t => t | none => b.asStr)
  | .pother s => .ok s

/-- `_cache_key`: `hashlib.md5(text.encode()).hexdigest()`. -/
def cache_key (text : String) : String := md5Hex (utf8Encode text)

/-- In-memory caches (`self.qa_cache` / `self.merge_cache`): Python dicts
keyed by hex digests. -/
def cacheLookup {α : Type} (c : List (String × α)) (k : String) : Option α :=
  (c.find? (fun p => p.1 = k)).map (·.2)

def cacheInsert {α : Type} (c : List (String × α)) (k : String) (v : α) :
    List (String × α) :=
  if c.any (fun p => p.1 = k) then
    c.map (fun p => if p.1 = k then (p.1, v) else p)
  else c ++ [(k, v)]

/-- `AgenticChunker.__init__` constants. -/
def min_chunk_size : Nat := 50
def max_chunk_size : Nat := 1000
def batch_size : Nat := 8
def skip_merge_threshold : Nat := 10

/-! ### Small string scanners used by the embedded regexes -/

def findCharIdx (c : Char) : List Char → Option Nat
  | [] => none
  | x :: xs =>
    if x = c then some 0 else (findCharIdx c xs).map (· + 1)

/-- `str.find(c)` / `str.rfind(c)` as options. -/
def pyFindChar (cs : List Char) (c : Char) : Option Nat := findCharIdx c cs

def pyRFindChar (cs : List Char) (c : Char) : Option Nat :=
  (findCharIdx c cs.reverse).map (fun i => cs.length - 1 - i)

/-- Python slicing `s[a:b]` (clamping semantics for `0 ≤ a ≤ b`). -/
def pySlice (cs : List Char) (a b : Nat) : List Char := (cs.take b).drop a

/-- Split at every occurrence of a single character, keeping empties
(Python `str.split("\n")`). -/
def splitCharAux (sep : Char) : List Char → List Char → List (List Char)
  | acc, [] => [acc.reverse]
  | acc, c :: rest =>
    if c = sep then acc.reverse :: splitCharAux sep [] rest
    else splitCharAux sep (c :: acc) rest

def splitChar (sep : Char) (cs : List Char) : List (List Char) :=
  splitCharAux sep [] cs

/-- Python `str.split(sep)` for a multi-character separator: leftmost
non-overlapping occurrences. -/
def splitSubAux (sep : List Char) : Nat → List Char → List Char →
    List (List Char)
  | _, acc, [] => [acc.reverse]
  | 0, acc, rest => [(acc.reverse ++ rest)]
  | fuel + 1, acc, c :: rest =>
    if sep.isPrefixOf (c :: rest) then
      acc.reverse :: splitSubAux sep fuel [] ((c :: rest).drop sep.length)
    else splitSubAux sep fuel (c :: acc) rest

def splitSub (sep : List Char) (cs : List Char) : List (List Char) :=
  splitSubAux sep (cs.length + 1) [] cs

/-- `re.sub(r",\s*$", "", s)`: drop one trailing comma together with the
whitespace following it. -/
def subTrailingCommaWs (cs : List Char) : List Char :=
  match cs.reverse.dropWhile isPySpace with
  | ',' :: r2 => r2.reverse
  | _ => cs

/-! ### Segmenter (`preprocess_text`, chunker.py lines 32-69) -/

/-- Length of the prefix of `ws` up to and including its last newline
(`0` when it has none). -/
def uptoLastNewline (ws : List Char) : Nat :=
  ws.length - (ws.reverse.takeWhile (fun c => c ≠ '\n')).length

/-- `re.sub(r"\n\s*\n", "\n\n", text)`: each newline whose following
whitespace run contains another newline is collapsed, with the match
extending to the last newline of the run (greedy `\s*` with
backtracking); scanning resumes after the match. -/
def collapseBlankAux : Nat → List Char → List Char
  | 0, cs => cs
  | _ + 1, [] => []
  | fuel + 1, c :: rest =>
    if c = '\n' then
      let ws := rest.takeWhile isPySpace
      if ws.contains '\n' then
        '\n' :: '\n' :: collapseBlankAux fuel (rest.drop (uptoLastNewline ws))
      else c :: collapseBlankAux fuel rest
    else c :: collapseBlankAux fuel rest

def collapseBlankRuns (s : String) : String :=
  String.mk (collapseBlankAux (s.data.length + 1) s.data)

/-- The character class of `r"^[\•\-\*\d+\.]\s"`: bullet, dash, asterisk,
any digit, plus, or dot — one single character (the intended `\d+\.`
"digit(s) followed by a dot" reads, inside a class, as "a digit, a plus
or a dot"). -/
def isMarkerChar (c : Char) : Bool :=
  c = '•' || c = '-' || c = '*' || c = '+' || c = '.' || c.isDigit

/-- `re.match(r"^[\•\-\*\d+\.]\s", para)`: one marker character followed
by one whitespace character. -/
def listMarkerMatch (cs : List Char) : Bool :=
  match cs with
  | c0 :: c1 :: _ => isMarkerChar c0 && isPySpace c1
  | _ => false

/-- `re.split(r"\n(?=[\•\-\*\d+\.])", para)`: split at newlines followed
by a marker character (lookahead, so the marker stays). -/
def splitListItemsAux : List Char → List Char → List (List Char)
  | acc, [] => [acc.reverse]
  | acc, '\n' :: c :: rest =>
    if isMarkerChar c then acc.reverse :: splitListItemsAux [] (c :: rest)
    else splitListItemsAux ('\n' :: acc) (c :: rest)
  | acc, c :: rest => splitListItemsAux (c :: acc) rest

def splitListItems (cs : List Char) : List (List Char) :=
  splitListItemsAux [] cs

/-- `re.split(r"(?<=[.!?])\s+", text)` (`_split_into_sentences`): split at
maximal whitespace runs preceded by `.`, `!` or `?`; the run is consumed. -/
def splitSentAux : Nat → List Char → List Char → List (List Char)
  | 0, acc, rest => [(acc.reverse ++ rest)]
  | _ + 1, acc, [] => [acc.reverse]
  | fuel + 1, acc, c :: rest =>
    let prevPunct :=
      match acc with
      | p :: _ => p = '.' || p = '!' || p = '?'
      | [] => false
    if isPySpace c && prevPunct then
      acc.reverse :: splitSentAux fuel [] (rest.dropWhile isPySpace)
    else splitSentAux fuel (c :: acc) rest

def split_into_sentences (text : String) : List String :=
  let pieces := splitSentAux (text.data.length + 1) [] text.data
  (pieces.map (fun p => String.mk (pyStripList p))).filter (fun s => s ≠ "")

/-- `preprocess_text` (chunker.py 32-64). -/
def preprocess_text (text : String) : List String :=
  let t := pyStrip (collapseBlankRuns text)
  let paragraphs := splitSub ['\n', '\n'] t.data
  paragraphs.foldl
    (fun segs para =>
      let p := pyStripList para
      if p.isEmpty then segs
      else if listMarkerMatch p then
        segs ++ ((splitListItems p).map (fun i => String.mk (pyStripList i))).filter
          (fun s => s ≠ "")
      else if p.length ≤ max_chunk_size then segs ++ [String.mk p]
      else segs ++ split_into_sentences (String.mk p))
    []

/-! ### JSON repair (`_repair_incomplete_json`, `_aggressive_json_repair`) -/

/-- `_repair_incomplete_json` (chunker.py 320-356): balanced bracket
counts return the text unchanged; otherwise strip, drop a dangling
trailing comma, then append `"\n  ]"` for each missing `]` and `"\n}"`
for each missing `}`. -/
def repair_incomplete_json (content : String) : String :=
  let cs := content.data
  let openBraces := cs.count '{'
  let closeBraces := cs.count '}'
  let openBrackets := cs.count '['
  let closeBrackets := cs.count ']'
  if openBraces = closeBraces && openBrackets = closeBrackets then content
  else
    let base := subTrailingCommaWs (pyStripList cs)
    String.mk (base
      ++ (List.replicate (openBrackets - closeBrackets) ['\n', ' ', ' ', ']']).flatMap id
      ++ (List.replicate (openBraces - closeBraces) ['\n', '}']).flatMap id)

/-- Drop a literal prefix. -/
def stripLit : List Char → List Char → Option (List Char)
  | [], cs => some cs
  | l :: ls, c :: cs => if c = l then stripLit ls cs else none
  | _ :: _, [] => none

/-- Match the pattern
`\{"segment_id":\s*\d+,\s*"qa_pairs":\s*\[[^\]]*\]\}` at the head of
`cs`, returning the number of characters consumed. -/
def matchSegmentAt (cs : List Char) : Option Nat := do
  let cs1 ← stripLit "\x7b\"segment_id\":".data cs
  let cs2 := cs1.dropWhile isPySpace
  let digits := cs2.takeWhile Char.isDigit
  if digits.isEmpty then none
  else
    let cs3 ← stripLit [','] (cs2.drop digits.length)
    let cs4 := cs3.dropWhile isPySpace
    let cs5 ← stripLit "\"qa_pairs\":".data cs4
    let cs6 := cs5.dropWhile isPySpace
    let cs7 ← stripLit ['['] cs6
    let body := cs7.takeWhile (fun c => c ≠ ']')
    let cs8 ← stripLit [']', '}'] (cs7.drop body.length)
    pure (cs.length - cs8.length)

/-- `re.finditer` scan for the end position of the last (leftmost,
non-overlapping) match. -/
def lastMatchEndAux : Nat → List Char → Nat → Option Nat → Option Nat
  | 0, _, _, acc => acc
  | _ + 1, [], _, acc => acc
  | fuel + 1, c :: rest, pos, acc =>
    match matchSegmentAt (c :: rest) with
    | some k => lastMatchEndAux fuel ((c :: rest).drop k) (pos + k) (some (pos + k))
    | none => lastMatchEndAux fuel rest (pos + 1) acc

def lastMatchEnd (cs : List Char) : Option Nat :=
  lastMatchEndAux (cs.length + 1) cs 0 none

/-- `_aggressive_json_repair` (chunker.py 358-393): truncate to the last
complete per-segment record and close the array and object, falling back
to `_repair_incomplete_json` when no complete record exists.  (The
`expected_segments` argument is only logged.) -/
def aggressive_json_repair (content : String) (_expectedSegments : Nat) : String :=
  match lastMatchEnd content.data with
  | some endPos =>
    let truncated := content.data.take endPos
    String.mk (subTrailingCommaWs truncated ++ "\n  ]\n\x7d".data)
  | none => repair_incomplete_json content

/-- The markdown fence stripping inside `extract_qa_pairs_batch`
(chunker.py 160-166). -/
def stripCodeFence (content : String) : String :=
  if "```".data.isPrefixOf content.data then
    let lines := splitChar '\n' content.data
    let lines1 :=
      match lines with
      | l0 :: rest =>
        if pyStrip (String.mk l0) = "```json" || pyStrip (String.mk l0) = "```" then
          rest
        else lines
      | [] => lines
    let lines2 :=
      if lines1 ≠ [] && pyStrip (String.mk (lines1.getLastD [])) = "```" then
        lines1.dropLast
      else lines1
    pyStrip (String.mk (String.intercalate "\n" (lines2.map String.mk)).data)
  else content

/-! ### QA validation and batch extraction (`extract_qa_pairs_batch`) -/

/-- The placeholder list tested against `answer.lower()` in
`extract_qa_pairs_batch` (chunker.py 265-272).  It has six entries — no
`"none"` (the document-level filter in flashcard.py has seven). -/
def placeholder_answers : List String :=
  ["it", "this", "that", "something", "unknown", "n/a"]

/-- `qa.get(k, "")` followed by `.strip()`-readiness: a present non-string
value raises `AttributeError` at the `.strip()` call. -/
def pyGetStrDefault (es : JsonObj) (k : String) : Except Unit String :=
  match es.findO k with
  | none => .ok ""
  | some (.jstr s) => .ok s
  | some _ => .error ()

/-- The per-candidate validation loop body (chunker.py 227-280): accepted
candidates yield the stripped pair, rejected ones yield `none` (counted,
logged); non-string question/answer values raise. -/
def validateQa (qa : Json) : Except Unit (Option QA) :=
  match qa with
  | .jobj es =>
    match pyGetStrDefault es "question", pyGetStrDefault es "answer" with
    | .error _, _ => .error ()
    | .ok _, .error _ => .error ()
    | .ok q0, .ok a0 =>
      let question := pyStrip q0
      let answer := pyStrip a0
      if question = "" then .ok none
      else if pyLen question < 5 then .ok none
      else if answer = "" then .ok none
      else if pyLen answer < 3 then .ok none
      else if placeholder_answers.contains (pyLower answer) then .ok none
      else .ok (some ⟨question, answer⟩)
  | _ => .ok none

def collectValidQa : List Json → Except Unit (List QA)
  | [] => .ok []
  | qa :: rest => do
    let v ← validateQa qa
    let vs ← collectValidQa rest
    pure (match v with | some p => p :: vs | none => vs)

/-- Build `qa_pairs_by_segment` (chunker.py 212-290): a dict keyed by the
raw `segment_id` JSON value; only segments with a non-empty valid list
are stored. -/
def buildQaBySegment : List Json → List (Json × List QA) →
    Except Unit (List (Json × List QA))
  | [], dict => .ok dict
  | seg :: rest, dict =>
    match seg with
    | .jobj es =>
      match es.findO "segment_id" with
      | none => buildQaBySegment rest dict
      | some .jnull => buildQaBySegment rest dict
      | some sid => do
        let qaPairsJson := (es.findO "qa_pairs").getD (.jarr .nil)
        let qaList ← pyIter qaPairsJson
        let valid ← collectValidQa qaList
        buildQaBySegment rest
          (if valid.isEmpty then dict else pyDictAssign dict sid valid)
    | _ => buildQaBySegment rest dict

def segmentsTextOf (uncached : List String) : String :=
  String.join ((uncached.enum).map
    (fun p => "\n\n--- SEGMENT " ++ toString p.1 ++ " ---\n" ++ p.2))

/-- The extraction prompt f-string (chunker.py 106-139). -/
def extract_prompt (uncached : List String) : String :=
  String.intercalate "\n"
    ["You are a study assistant creating flashcards from educational content.",
     "",
     "        Extract question-answer pairs from each text segment below. Return ONLY valid JSON.",
     "",
     "        CRITICAL RULES:",
     "        1. NEVER create questions or answers that are empty or just whitespace",
     "        2. Questions MUST end with a question mark (?)",
     "        3. Answers MUST be complete sentences or phrases with actual content",
     "        4. Each segment MUST have at least 1 QA pair (unless segment is meaningless)",
     "        5. Keep answers clear and concise (under 200 characters)",
     "        6. Questions should test understanding, not just repeat the text",
     "        7. You MUST complete the entire JSON - include ALL " ++
       toString uncached.length ++ " segments",
     "",
     "        GOOD EXAMPLES:",
     "        \x7b\"question\": \"What is photosynthesis?\", \"answer\": \"The process by which plants convert light energy into chemical energy using chlorophyll.\"\x7d",
     "        \x7b\"question\": \"What organelle performs photosynthesis?\", \"answer\": \"Chloroplasts\"\x7d",
     "",
     "        BAD EXAMPLES (DO NOT DO THIS):",
     "        \x7b\"question\": \"\", \"answer\": \"Something\"\x7d  ❌ Empty question",
     "        \x7b\"question\": \"What is X?\", \"answer\": \"\"\x7d  ❌ Empty answer",
     "        \x7b\"question\": \"Tell me about it\", \"answer\": \"It\"\x7d  ❌ Vague/incomplete",
     "",
     "        Text Segments:",
     "        " ++ segmentsTextOf uncached,
     "",
     "        Return this exact JSON structure (ensure ALL segments 0-" ++
       toString (uncached.length - 1) ++ " are included):",
     "        \x7b",
     "        \"segments\": [",
     "            \x7b\"segment_id\": 0, \"qa_pairs\": [\x7b\"question\": \"What is X?\", \"answer\": \"X is a complete answer with actual content.\"\x7d]\x7d,",
     "            \x7b\"segment_id\": 1, \"qa_pairs\": [\x7b\"question\": \"What is Y?\", \"answer\": \"Y is another complete answer.\"\x7d]\x7d",
     "        ]",
     "        \x7d",
     "",
     "        JSON:"]

/-- The `try:` body of `extract_qa_pairs_batch` for the uncached texts
(chunker.py 141-309).  The code's early returns that fill every uncached
index with `[]` *without caching* (short content, no JSON object, parse
failure after both repairs, wrong structure) are observationally
identical to its `except` branch, so both are modelled as `.error`. -/
def extractBody (uncached : List String) (model : ModelFn) :
    Except Unit (List (List QA)) := do
  let resp ← model (extract_prompt uncached)
  let content := extract_content_from_response resp
  if content = "" || pyLen content < 10 then throw ()
  let content1 := stripCodeFence (pyStrip content)
  let cs := content1.data
  let jsonStart ←
    match pyFindChar cs '{' with
    | some i => pure i
    | none => throw ()
  let jsonEnd :=
    match pyRFindChar cs '}' with
    | some i => i + 1
    | none => 0
  if jsonEnd = 0 then throw ()
  let repaired := repair_incomplete_json (String.mk (pySlice cs jsonStart jsonEnd))
  let result ←
    match jsonParse repaired with
    | some r => pure r
    | none =>
      match jsonParse (aggressive_json_repair repaired uncached.length) with
      | some r => pure r
      | none => throw ()
  let segsVal ←
    match result with
    | .jobj es =>
      match es.findO "segments" with
      | some v => pure v
      | none => throw ()
    | _ => throw ()
  let segs ← pyIter segsVal
  let dict ← buildQaBySegment segs []
  pure ((List.range uncached.length).map (fun i => (pyDictGetInt dict i).getD []))

/-- Instrumented result of one `extract_qa_pairs_batch` call: the returned
per-segment lists, the updated `qa_cache`, the number of model
invocations, and whether the batch reached the fill-and-cache stage. -/
structure ExtractOut where
  results : List (List QA)
  qaCache : List (String × List QA)
  calls : Nat
  batchParsed : Bool

/-- Interleave cached results (the `some` slots) with the per-uncached
results, in order (the index-assignment loops of chunker.py 150-152,
174-176, 200-202, 297-303, 316-317). -/
def fillResults : List (Option (List QA)) → List (List QA) → List (List QA)
  | [], _ => []
  | some v :: rest, us => v :: fillResults rest us
  | none :: rest, u :: us => u :: fillResults rest us
  | none :: rest, [] => [] :: fillResults rest []

def insertAllQa (cache : List (String × List QA))
    (pairs : List (String × List QA)) : List (String × List QA) :=
  pairs.foldl (fun c p => cacheInsert c p.1 p.2) cache

/-- `extract_qa_pairs_batch` (chunker.py 75-318). -/
def extract_qa_pairs_batch (qaCache : List (String × List QA))
    (model : ModelFn) (texts : List String) : ExtractOut :=
  if texts.isEmpty then ⟨[], qaCache, 0, false⟩
  else
    let res0 := texts.map (fun t => cacheLookup qaCache (cache_key t))
    let uncached := texts.filter (fun t => (cacheLookup qaCache (cache_key t)).isNone)
    if uncached.isEmpty then ⟨fillResults res0 [], qaCache, 0, false⟩
    else
      match extractBody uncached model with
      | .ok per =>
        ⟨fillResults res0 per,
          insertAllQa qaCache ((uncached.map cache_key).zip per), 1, true⟩
      | .error _ =>
        ⟨fillResults res0 (uncached.map (fun _ => [])), qaCache, 1, false⟩

/-! ### Merge planner (`should_merge_chunks_batch`, chunker.py 433-547)

Decisions are pairs of raw Python values `(should_merge, reason)` —
`comp.get` can hand back arbitrary JSON, and the code stores it as-is. -/

def merge_cache_key (c1 c2 : Chunk) : String :=
  md5Hex (utf8Encode
    (pyTupleRepr ((c1.qa_pairs.take 3).map (·.question)) ++ "||" ++
      pyTupleRepr ((c2.qa_pairs.take 3).map (·.question))))

/-- Trivial/cached partition (chunker.py 448-472): slot `some d` is a
trivially-decided or cached pair, `none` a placeholder; also returns the
uncached pairs, their cache keys and their indices, in order. -/
def mergePartitionAux (cache : List (String × (Json × Json))) :
    Nat → List (Chunk × Chunk) →
    List (Option (Json × Json)) × List (Chunk × Chunk) × List String × List Nat
  | _, [] => ([], [], [], [])
  | i, (c1, c2) :: rest =>
    let (ros, ups, uks, uis) := mergePartitionAux cache (i + 1) rest
    if c1.qa_pairs.isEmpty || c2.qa_pairs.isEmpty then
      (some (.jbool false, .jstr "One or both chunks are empty") :: ros, ups, uks, uis)
    else if max_chunk_size < pyLen c1.text + pyLen c2.text then
      (some (.jbool false, .jstr "Combined size would be too large") :: ros, ups, uks, uis)
    else
      let key := merge_cache_key c1 c2
      match cacheLookup cache key with
      | some d => (some d :: ros, ups, uks, uis)
      | none => (none :: ros, (c1, c2) :: ups, key :: uks, i :: uis)

def comparisonsTextOf (ups : List (Chunk × Chunk)) : String :=
  String.join (ups.enum.map (fun p =>
    "\n\n--- COMPARISON " ++ toString p.1 ++ " ---" ++
    "\nGroup A: " ++ pyListRepr ((p.2.1.qa_pairs.take 3).map (·.question)) ++
    "\nGroup B: " ++ pyListRepr ((p.2.2.qa_pairs.take 3).map (·.question))))

/-- The merge-comparison prompt f-string (chunker.py 488-495). -/
def merge_prompt (ups : List (Chunk × Chunk)) : String :=
  String.intercalate "\n"
    ["Analyze these pairs of flashcard question groups and determine if each pair relates to the same topic.",
     "",
     "        " ++ comparisonsTextOf ups,
     "",
     "        Return JSON with decisions for ALL comparisons: ",
     "        \x7b\"comparisons\": [\x7b\"comparison_id\": 0, \"should_merge\": true, \"reason\": \"Both about photosynthesis\"\x7d, \x7b\"comparison_id\": 1, \"should_merge\": false, \"reason\": \"Different topics\"\x7d]\x7d",
     "",
     "        Return ONLY valid JSON:"]

/-- `decisions_by_id` (chunker.py 524-530): `comp.get` on a non-dict
raises `AttributeError`; a missing or `null` `comparison_id` skips the
record. -/
def buildDecisionsById : List Json → List (Json × (Json × Json)) →
    Except Unit (List (Json × (Json × Json)))
  | [], d => .ok d
  | comp :: rest, d =>
    match comp with
    | .jobj es =>
      let sm := (es.findO "should_merge").getD (.jbool false)
      let rs := (es.findO "reason").getD (.jstr "Unknown")
      match es.findO "comparison_id" with
      | none => buildDecisionsById rest d
      | some .jnull => buildDecisionsById rest d
      | some cid => buildDecisionsById rest (pyDictAssign d cid (sm, rs))
    | _ => .error ()

inductive MergeBodyOut where
  | noComparisons
  | withDict (d : List (Json × (Json × Json)))

/-- The `try:` body of `should_merge_chunks_batch` (chunker.py 497-538). -/
def mergeBody (ups : List (Chunk × Chunk)) (model : ModelFn) :
    Except Unit MergeBodyOut := do
  let resp ← model (merge_prompt ups)
  let content ← merge_extract_content resp
  let cs := content.data
  let content1 :=
    match pyFindChar cs '{' with
    | some i =>
      match pyRFindChar cs '}' with
      | some j => if i < j then String.mk (pySlice cs i (j + 1)) else content
      | none => content
    | none => content
  let result ←
    match jsonParse content1 with
    | some r => pure r
    | none => throw ()
  let has ← pyContains result "comparisons"
  if !has then pure .noComparisons
  else do
    let comps ← pyIndexStr result "comparisons"
    let compList ← pyIter comps
    let dict ← buildDecisionsById compList []
    pure (.withDict dict)

def fillSlots {α : Type} (defaultVal : α) : List (Option α) → List α → List α
  | [], _ => []
  | some v :: rest, us => v :: fillSlots defaultVal rest us
  | none :: rest, u :: us => u :: fillSlots defaultVal rest us
  | none :: rest, [] => defaultVal :: fillSlots defaultVal rest []

def insertAllMerge (cache : List (String × (Json × Json)))
    (pairs : List (String × (Json × Json))) : List (String × (Json × Json)) :=
  pairs.foldl (fun c p => cacheInsert c p.1 p.2) cache

/-- Instrumented result of one `should_merge_chunks_batch` call. -/
structure MergeOut where
  decisions : List (Json × Json)
  mergeCache : List (String × (Json × Json))
  calls : Nat
  uncachedIdx : List Nat

/-- `should_merge_chunks_batch` (chunker.py 433-547). -/
def should_merge_chunks_batch (mergeCache : List (String × (Json × Json)))
    (model : ModelFn) (pairs : List (Chunk × Chunk)) : MergeOut :=
  if pairs.isEmpty then ⟨[], mergeCache, 0, []⟩
  else
    let (res0, ups, uks, uis) := mergePartitionAux mergeCache 0 pairs
    if ups.isEmpty then
      ⟨fillSlots (.jbool false, .jstr "") res0 [], mergeCache, 0, []⟩
    else
      let fallback (msg : String) : MergeOut :=
        let ds := ups.map (fun _ => ((.jbool false : Json), (.jstr msg : Json)))
        ⟨fillSlots (.jbool false, .jstr "") res0 ds,
          insertAllMerge mergeCache (uks.zip ds), 1, uis⟩
      match mergeBody ups model with
      | .error _ => fallback "Error analyzing chunks"
      | .ok .noComparisons => fallback "Parse error"
      | .ok (.withDict dict) =>
        let ds := ups.enum.map (fun p =>
          (pyDictGetInt dict p.1).getD (.jbool false, .jstr "Unknown"))
        ⟨fillSlots (.jbool false, .jstr "") res0 ds,
          insertAllMerge mergeCache (uks.zip ds), 1, uis⟩

/-! ### Chunk assembly (`chunk_segments` / `chunk_segments_async`)

Python chunk dicts are heap objects aliased between `segment_chunks`,
the pending pairs and `final_chunks`; mutation (`final_chunks[-1][...] =`,
`curr_chunk["split_reason"] = ...`) is through the references.  The heap
is modelled as a store of chunk values indexed by `Nat` references; the
`==` guard compares the *values* behind the references, exactly like
Python's dict equality. -/

def emptyChunk : Chunk := { text := "", qa_pairs := [], char_count := 0 }

def getC (store : List Chunk) (r : Nat) : Chunk := store.getD r emptyChunk

def setC (store : List Chunk) (r : Nat) (c : Chunk) : List Chunk :=
  setIdx store r c

structure AsmSt where
  store : List Chunk
  final : List Nat
  mergeCache : List (String × (Json × Json))
  calls : Nat

/-- Apply one `(should_merge, reason)` decision for the pending pair
`(last_chunk, curr_chunk)` (chunker.py 660-675 / 796-808): merge mutates
the current tail in place when `should_merge` is truthy and the tail
still `==` the recorded chunk; otherwise the candidate is appended with
its `split_reason` set. -/
def applyDecision (st : AsmSt) (pair : Nat × Nat) (dec : Json × Json) : AsmSt :=
  let tailRef := st.final.getLastD 0
  if pyTruthy dec.1 && beqChunk (getC st.store tailRef) (getC st.store pair.1) then
    let t := getC st.store tailRef
    let c := getC st.store pair.2
    let newText := t.text ++ "\n\n" ++ c.text
    { st with
      store := setC st.store tailRef
        { t with text := newText, qa_pairs := t.qa_pairs ++ c.qa_pairs,
                 char_count := pyLen newText, merge_reason := some dec.2 } }
  else
    let c := getC st.store pair.2
    { st with
      store := setC st.store pair.2 { c with split_reason := some dec.2 },
      final := st.final ++ [pair.2] }

/-- Apply a zipped batch of decisions in order (the
`for (last_chunk, curr_chunk), (should_merge, reason) in zip(...)` loops,
chunker.py 660-675, 686-700 and 796-808; Python's `zip` truncates to the
shorter list). -/
def applyBatchDecisions (st : AsmSt) (pairs : List (Nat × Nat))
    (decs : List (Json × Json)) : AsmSt :=
  (pairs.zip decs).foldl (fun s pd => applyDecision s pd.1 pd.2) st

/-- A merge-decision source: what `should_merge_chunks_batch` provides
given the current merge cache and the pending pair values. -/
def MergeDecideFn : Type :=
  List (String × (Json × Json)) → List (Chunk × Chunk) → MergeOut

/-- Decide a full pending batch (values are read from the store at
decision time) and apply the decisions in order. -/
def processBatch (decide : MergeDecideFn) (st : AsmSt)
    (buffer : List (Nat × Nat)) : AsmSt :=
  let mo := decide st.mergeCache
    (buffer.map (fun p => (getC st.store p.1, getC st.store p.2)))
  let st1 := { st with mergeCache := mo.mergeCache, calls := st.calls + mo.calls }
  applyBatchDecisions st1 buffer mo.decisions

/-- The synchronous merge loop (chunker.py 648-700): buffer a pending
pair per chunk, decide-and-apply whenever the buffer reaches
`batch_size`, and flush the remainder. -/
def syncMergeLoop (decide : MergeDecideFn) :
    List Nat → AsmSt → List (Nat × Nat) → AsmSt
  | [], st, buffer => if buffer.isEmpty then st else processBatch decide st buffer
  | r :: rest, st, buffer =>
    let buffer1 := buffer ++ [(st.final.getLastD 0, r)]
    if batch_size ≤ buffer1.length then
      syncMergeLoop decide rest (processBatch decide st buffer1) []
    else syncMergeLoop decide rest st buffer1

/-- Extraction batches in dispatch order, threading the QA cache (the
slicing loop of chunker.py 613-619; also the serialized schedule of the
parallel `asyncio.gather` of 724-736, whose tasks each run the same
synchronous `extract_qa_pairs_batch` against the shared cache). -/
def runExtractionBatches (qaCache : List (String × List QA)) (model : ModelFn)
    (batches : List (List String)) :
    List (List QA) × List (String × List QA) × Nat :=
  batches.foldl
    (fun acc batch =>
      let o := extract_qa_pairs_batch acc.2.1 model batch
      (acc.1 ++ o.results, o.qaCache, acc.2.2 + o.calls))
    ([], qaCache, 0)

/-- Instrumented result of `chunk_segments`: the returned chunk list plus
the final heap, the per-segment references and the caches. -/
structure ChunkOut where
  chunks : List Chunk
  store : List Chunk
  segmentRefs : List Nat
  finalRefs : List Nat
  qaCache : List (String × List QA)
  mergeCache : List (String × (Json × Json))
  extractCalls : Nat
  mergeCalls : Nat

/-- Shared head of both entry points (chunker.py 598-645 / 710-764):
filter short segments, extract in batches of `batch_size`, keep only
segments with valid QA pairs, and skip the merge phase entirely below
`skip_merge_threshold`. -/
def segmentChunksOf (valid : List String) (allQa : List (List QA)) : List Chunk :=
  ((valid.zip allQa).filter (fun p => !p.2.isEmpty)).map
    (fun p => { text := p.1, qa_pairs := p.2, char_count := pyLen p.1 })

/-- `chunk_segments` (chunker.py 592-703), synchronous mode. -/
def chunk_segments (qaCache : List (String × List QA))
    (mergeCache : List (String × (Json × Json))) (model : ModelFn)
    (segments : List String) : ChunkOut :=
  if segments.isEmpty then ⟨[], [], [], [], qaCache, mergeCache, 0, 0⟩
  else
    let valid := segments.filter (fun s => min_chunk_size ≤ pyLen s)
    if valid.isEmpty then ⟨[], [], [], [], qaCache, mergeCache, 0, 0⟩
    else
      let (allQa, qaCache1, ecalls) :=
        runExtractionBatches qaCache model (chunksOf batch_size valid)
      let segChunks := segmentChunksOf valid allQa
      if segChunks.isEmpty then ⟨[], [], [], [], qaCache1, mergeCache, ecalls, 0⟩
      else
        let refs := List.range segChunks.length
        if segChunks.length < skip_merge_threshold then
          ⟨segChunks, segChunks, refs, refs, qaCache1, mergeCache, ecalls, 0⟩
        else
          let stF := syncMergeLoop
            (fun mc ps => should_merge_chunks_batch mc model ps) (refs.drop 1)
            ⟨segChunks, [0], mergeCache, 0⟩ []
          ⟨stF.final.map (getC stF.store), stF.store, refs, stF.final,
            qaCache1, stF.mergeCache, ecalls, stF.calls⟩

/-- The candidate-collection loop of `chunk_segments_async` (chunker.py
771-785): every pending pair is formed against `final_chunks[-1]`, which
is never modified before the gather, so the recorded reference is always
the first segment chunk. -/
def asyncCandidateLoop (final : List Nat) :
    List Nat → List (Nat × Nat) → List (List (Nat × Nat)) → List (List (Nat × Nat))
  | [], cur, batches => if cur.isEmpty then batches else batches ++ [cur]
  | r :: rest, cur, batches =>
    let cur1 := cur ++ [(final.getLastD 0, r)]
    if batch_size ≤ cur1.length then
      asyncCandidateLoop final rest [] (batches ++ [cur1])
    else asyncCandidateLoop final rest cur1 batches

/-- The gathered merge-decision tasks of `chunk_segments_async` (787-789),
serialized in dispatch order; all decisions read the pre-apply store. -/
def asyncDecideBatches (store : List Chunk) (model : ModelFn)
    (mergeCache : List (String × (Json × Json)))
    (batches : List (List (Nat × Nat))) :
    List (List (Json × Json)) × List (String × (Json × Json)) × Nat :=
  batches.foldl
    (fun acc batch =>
      let mo := should_merge_chunks_batch acc.2.1 model
        (batch.map (fun p => (getC store p.1, getC store p.2)))
      (acc.1 ++ [mo.decisions], mo.mergeCache, acc.2.2 + mo.calls))
    ([], mergeCache, 0)

/-- `chunk_segments_async` (chunker.py 705-812) under the serialized
(dispatch-order) schedule of its two `asyncio.gather` fan-outs: one
admissible execution of the parallel mode.  Structurally unlike the
synchronous version, *all* merge candidates are formed before any
decision is applied (791-809 applies them only after the gather). -/
def chunk_segments_async (qaCache : List (String × List QA))
    (mergeCache : List (String × (Json × Json))) (model : ModelFn)
    (segments : List String) : ChunkOut :=
  if segments.isEmpty then ⟨[], [], [], [], qaCache, mergeCache, 0, 0⟩
  else
    let valid := segments.filter (fun s => min_chunk_size ≤ pyLen s)
    if valid.isEmpty then ⟨[], [], [], [], qaCache, mergeCache, 0, 0⟩
    else
      let (allQa, qaCache1, ecalls) :=
        runExtractionBatches qaCache model (chunksOf batch_size valid)
      let segChunks := segmentChunksOf valid allQa
      if segChunks.isEmpty then ⟨[], [], [], [], qaCache1, mergeCache, ecalls, 0⟩
      else
        let refs := List.range segChunks.length
        if segChunks.length < skip_merge_threshold then
          ⟨segChunks, segChunks, refs, refs, qaCache1, mergeCache, ecalls, 0⟩
        else
          let batches := asyncCandidateLoop [0] (refs.drop 1) [] []
          let (decss, mc1, mcalls) :=
            asyncDecideBatches segChunks model mergeCache batches
          let stF := (batches.zip decss).foldl
            (fun s bd => applyBatchDecisions s bd.1 bd.2)
            ⟨segChunks, [0], mc1, mcalls⟩
          ⟨stF.final.map (getC stF.store), stF.store, refs, stF.final,
            qaCache1, stF.mergeCache, ecalls, stF.calls⟩

/-- `chunk_text` (chunker.py 577-582). -/
def chunk_text (qaCache : List (String × List QA))
    (mergeCache : List (String × (Json × Json))) (model : ModelFn)
    (text : String) : ChunkOut :=
  chunk_segments qaCache mergeCache model (preprocess_text text)

/-- `chunk_text_async` (chunker.py 584-590), under the serialized
schedule. -/
def chunk_text_async (qaCache : List (String × List QA))
    (mergeCache : List (String × (Json × Json))) (model : ModelFn)
    (text : String) : ChunkOut :=
  chunk_segments_async qaCache mergeCache model (preprocess_text text)

/-- `get_all_qa_pairs` (chunker.py 814-822). -/
def get_all_qa_pairs (chunks : List Chunk) : List QA :=
  chunks.flatMap (·.qa_pairs)

/-! ### Document pipeline (`process_text_file_to_flashcards`,
flashcard.py 232-328)

The embedding/persistence collaborators (`embed_and_store_flashcards`)
are outside the pipeline core and modelled as succeeding, returning the
stored pairs; `file_content.decode("utf-8")` is the strict UTF-8
decoder. -/

/-- The document-level placeholder list (flashcard.py 291-299): seven
entries, *including* `"none"`. -/
def placeholder_answers_doc : List String :=
  ["it", "this", "that", "something", "unknown", "n/a", "none"]

/-- The document-level filter loop (flashcard.py 272-305). -/
def filter_qa_pairs (qas : List QA) : List QA :=
  qas.foldl
    (fun acc qa =>
      let question := pyStrip qa.question
      let answer := pyStrip qa.answer
      if question = "" || pyLen question < 5 then acc
      else if answer = "" || pyLen answer < 3 then acc
      else if placeholder_answers_doc.contains (pyLower answer) then acc
      else acc ++ [⟨question, answer⟩])
    []

/-- `process_text_file_to_flashcards` (flashcard.py 232-328): decode,
chunk via the async entry point (fresh `AgenticChunker`, empty caches),
flatten, fail on an empty pair set, filter, fail if nothing survives,
store.  Inner `ValueError`s are re-raised wrapped by the blanket
`except Exception` handler. -/
def process_text_file_to_flashcards (fileContent : List Nat)
    (model : ModelFn) : Except String (List QA) :=
  match utf8Decode fileContent with
  | none =>
    .error "Failed to decode text file. Please ensure it\x27s a valid UTF-8 text file"
  | some text =>
    let out := chunk_text_async [] [] model text
    let allQa := get_all_qa_pairs out.chunks
    if allQa.isEmpty then
      .error "Failed to process text file: No question-answer pairs could be extracted from the text"
    else
      let filtered := filter_qa_pairs allQa
      if filtered.isEmpty then
        .error ("Failed to process text file: All " ++ toString allQa.length ++
          " extracted QA pairs were invalid. Please check your document content.")
      else .ok filtered

/-! ## Theorems -/

/-! ### C4 — numbered lists are not recognized by the segmenter -/

/-- A two-item numbered list, each item well above one character. -/
def numberedListPara : String :=
  "1. Mitochondria produce the energy of the cell\n2. Ribosomes synthesize the proteins of the cell"

def bulletListPara : String :=
  "- Mitochondria produce the energy of the cell\n- Ribosomes synthesize the proteins of the cell"

/-- C4: the claim (and the function's own docstring, "Handles paragraphs,
bullet points, and numbered lists") says a paragraph opening with a digit
followed by a period is recognized as a list and split at each item; the
code's class `[\•\-\*\d+\.]\s` instead demands a *single* marker
character followed by whitespace, so `"1."` never matches and the
numbered paragraph is returned whole, while the same shape with dashes is
split.  This evaluates the code at the failing input. -/
theorem c4_numbered_list_not_split :
    preprocess_text numberedListPara = [numberedListPara]
      ∧ preprocess_text bulletListPara =
        ["- Mitochondria produce the energy of the cell",
         "- Ribosomes synthesize the proteins of the cell"]
      ∧ listMarkerMatch numberedListPara.data = false := by
  decide

/-! ### C3 — per-candidate validation -/

/-- C3 counterexample: the claim's placeholder set contains `"none"`, but
the validation in `extract_qa_pairs_batch` checks only
`["it","this","that","something","unknown","n/a"]`; the candidate
`{"question": "What is this topic?", "answer": "None"}` is accepted, while
the claim says it must be rejected (case-insensitive placeholder match). -/
theorem c3_counterexample_none_accepted :
    validateQa (.jobj (.cons "question" (.jstr "What is this topic?")
        (.cons "answer" (.jstr "None") .nil)))
      = .ok (some ⟨"What is this topic?", "None"⟩)
      ∧ pyLower "None" = "none" := by
  decide

@[simp]
theorem pyStrip_empty : pyStrip "" = "" := rfl

/-- A present-but-non-string value under `k` (Python: `.get(k, "")`
returns it and the subsequent `.strip()` raises `AttributeError`). -/
def badStrField (es : JsonObj) (k : String) : Bool :=
  match es.findO k with
  | none => false
  | some (.jstr _) => false
  | some _ => true

/-- C3 (amended): a candidate is accepted, yielding the stripped pair,
exactly when it is an object with string `question`/`answer` whose
stripped question is non-empty and ≥ 5 characters, stripped answer
non-empty and ≥ 3 characters, and lower-cased answer outside the
*six*-element placeholder list (no `"none"`); a candidate whose present
`question` or `answer` value is not a string raises (killing the whole
batch) rather than being rejected; every other candidate is rejected
without an exception. -/
theorem pyGetStrDefault_ok_iff (es : JsonObj) (k : String) (s : String) :
    pyGetStrDefault es k = .ok s ↔
      (es.findO k = none ∧ s = "") ∨ es.findO k = some (.jstr s) := by
  rcases h : es.findO k with _ | v
  · simp [pyGetStrDefault, h, eq_comm]
  · rcases v <;> simp [pyGetStrDefault, h]

theorem pyGetStrDefault_error_iff (es : JsonObj) (k : String) :
    pyGetStrDefault es k = .error () ↔ badStrField es k = true := by
  rcases h : es.findO k with _ | v
  · simp [pyGetStrDefault, badStrField, h]
  · rcases v <;> simp [pyGetStrDefault, badStrField, h]

theorem validateQa_jobj (es : JsonObj) :
    validateQa (.jobj es) =
      match pyGetStrDefault es "question", pyGetStrDefault es "answer" with
      | .error _, _ => .error ()
      | .ok _, .error _ => .error ()
      | .ok q0, .ok a0 =>
        if pyStrip q0 = "" then .ok none
        else if pyLen (pyStrip q0) < 5 then .ok none
        else if pyStrip a0 = "" then .ok none
        else if pyLen (pyStrip a0) < 3 then .ok none
        else if placeholder_answers.contains (pyLower (pyStrip a0)) then .ok none
        else .ok (some ⟨pyStrip q0, pyStrip a0⟩) := rfl

theorem validateQa_jobj_ok (es : JsonObj) (q0 a0 : String)
    (hq : pyGetStrDefault es "question" = .ok q0)
    (ha : pyGetStrDefault es "answer" = .ok a0) :
    validateQa (.jobj es) =
      (if pyStrip q0 = "" then .ok none
       else if pyLen (pyStrip q0) < 5 then .ok none
       else if pyStrip a0 = "" then .ok none
       else if pyLen (pyStrip a0) < 3 then .ok none
       else if placeholder_answers.contains (pyLower (pyStrip a0)) then .ok none
       else .ok (some ⟨pyStrip q0, pyStrip a0⟩)) := by
  rw [validateQa_jobj, hq, ha]

theorem validateQa_jobj_errq (es : JsonObj)
    (hq : pyGetStrDefault es "question" = .error ()) :
    validateQa (.jobj es) = .error () := by
  rw [validateQa_jobj, hq]

theorem validateQa_jobj_erra (es : JsonObj) (q0 : String)
    (hq : pyGetStrDefault es "question" = .ok q0)
    (ha : pyGetStrDefault es "answer" = .error ()) :
    validateQa (.jobj es) = .error () := by
  rw [validateQa_jobj, hq, ha]

/-- C3 (amended): a candidate is accepted, yielding the stripped pair,
exactly when it is an object with string `question`/`answer` whose
stripped question is non-empty and ≥ 5 characters, stripped answer
non-empty and ≥ 3 characters, and lower-cased answer outside the
*six*-element placeholder list (no `"none"`); a candidate whose present
`question` or `answer` value is not a string raises `AttributeError`
(killing the whole batch) rather than being rejected; every other
candidate is rejected without an exception. -/
theorem c3_validation_characterization (c : Json) :
    (∀ p : QA, validateQa c = .ok (some p) ↔
      ∃ es sq sa, c = .jobj es
        ∧ es.findO "question" = some (.jstr sq)
        ∧ es.findO "answer" = some (.jstr sa)
        ∧ p = ⟨pyStrip sq, pyStrip sa⟩
        ∧ pyStrip sq ≠ "" ∧ 5 ≤ pyLen (pyStrip sq)
        ∧ pyStrip sa ≠ "" ∧ 3 ≤ pyLen (pyStrip sa)
        ∧ placeholder_answers.contains (pyLower (pyStrip sa)) = false)
    ∧ (validateQa c = .error () ↔
      ∃ es, c = .jobj es
        ∧ (badStrField es "question" = true ∨ badStrField es "answer" = true)) := by
  rcases c with _ | b | n | ⟨m, e⟩ | _ | ng | s | l | es
  case jobj =>
    constructor
    · intro p
      constructor
      · intro h
        rcases hq : pyGetStrDefault es "question" with u | q0
        · cases u
          rw [validateQa_jobj_errq es hq] at h
          exact Except.noConfusion h
        rcases ha : pyGetStrDefault es "answer" with u | a0
        · cases u
          rw [validateQa_jobj_erra es q0 hq ha] at h
          exact Except.noConfusion h
        rw [validateQa_jobj_ok es q0 a0 hq ha] at h
        split_ifs at h with h1 h2 h3 h4 h5
        all_goals try exact Option.noConfusion (Except.ok.inj h)
        have hp := Option.some.inj (Except.ok.inj h)
        rcases (pyGetStrDefault_ok_iff es "question" q0).mp hq with ⟨-, rfl⟩ | hfq
        · exact absurd rfl h1
        rcases (pyGetStrDefault_ok_iff es "answer" a0).mp ha with ⟨-, rfl⟩ | hfa
        · exact absurd rfl h3
        exact ⟨es, q0, a0, rfl, hfq, hfa, hp.symm, h1, by omega, h3, by omega,
          by simpa using h5⟩
      · rintro ⟨es2, sq, sa, heq, hfq, hfa, rfl, h1, h2, h3, h4, h5⟩
        obtain rfl : es = es2 := Json.jobj.inj heq
        have hq := (pyGetStrDefault_ok_iff es "question" sq).mpr (Or.inr hfq)
        have ha := (pyGetStrDefault_ok_iff es "answer" sa).mpr (Or.inr hfa)
        rw [validateQa_jobj_ok es sq sa hq ha, if_neg h1, if_neg (by omega),
          if_neg h3, if_neg (by omega), if_neg (by simpa using h5)]
    · constructor
      · intro h
        refine ⟨es, rfl, ?_⟩
        rcases hq : pyGetStrDefault es "question" with u | q0
        · cases u
          exact Or.inl ((pyGetStrDefault_error_iff es "question").mp hq)
        rcases ha : pyGetStrDefault es "answer" with u | a0
        · cases u
          exact Or.inr ((pyGetStrDefault_error_iff es "answer").mp ha)
        rw [validateQa_jobj_ok es q0 a0 hq ha] at h
        split_ifs at h
      · rintro ⟨es2, heq, hbad | hbad⟩
        · obtain rfl : es = es2 := Json.jobj.inj heq
          exact validateQa_jobj_errq es
            ((pyGetStrDefault_error_iff es "question").mpr hbad)
        · obtain rfl : es = es2 := Json.jobj.inj heq
          rcases hq : pyGetStrDefault es "question" with u | q0
          · cases u
            exact validateQa_jobj_errq es hq
          · exact validateQa_jobj_erra es q0 hq
              ((pyGetStrDefault_error_iff es "answer").mpr hbad)
  all_goals
    refine ⟨fun p => ⟨fun h => Option.noConfusion (Except.ok.inj h), fun hx => ?_⟩,
      fun h => Except.noConfusion h, fun hx => ?_⟩
  all_goals first
    | (obtain ⟨es, sq, sa, heq, -⟩ := hx
       exact Json.noConfusion heq)
    | (obtain ⟨es, heq, -⟩ := hx
       exact Json.noConfusion heq)

/-! ### C5 — soft repair of truncated JSON -/

def c5Doc : String := "\x7b\"a\": [\x7b\"b\": 1\x7d]\x7d"
def c5Trunc : String := "\x7b\"a\": [\x7b\"b\": 1"

/-- C5 counterexample: `{"a": [{"b": 1}]}` is well formed; deleting its
exactly 3 properly nested trailing closing brackets `}]}` leaves
`{"a": [{"b": 1`, and soft repair appends the missing `]` *before* the
two missing `}` (`... 1\n  ]\n}\n}`), closing the inner object with a
bracket — the result does not parse, contradicting the claim's "for
every ... truncated by deleting exactly N properly nested trailing
closing brackets, soft repair produces a parseable document". -/
theorem c5_counterexample_repair_unparseable :
    (jsonParse c5Doc).isSome = true
      ∧ c5Doc = c5Trunc ++ "\x7d]\x7d"
      ∧ repair_incomplete_json c5Trunc = "\x7b\"a\": [\x7b\"b\": 1\n  ]\n\x7d\n\x7d"
      ∧ (jsonParse (repair_incomplete_json c5Trunc)).isSome = false := by
  decide

def plainClosers (a b : Nat) : List Char :=
  List.replicate a ']' ++ List.replicate b '}'

def wsClosers (a b : Nat) : List Char :=
  (List.replicate a ['\n', ' ', ' ', ']']).flatMap id
    ++ (List.replicate b ['\n', '}']).flatMap id

def closerToks (a b : Nat) : List Tok :=
  List.replicate a Tok.rbrack ++ List.replicate b Tok.rbrace

theorem pyStripList_eq_self (cs : List Char)
    (h1 : ∀ c, cs.head? = some c → isPySpace c = false)
    (h2 : ∀ c, cs.getLast? = some c → isPySpace c = false) :
    pyStripList cs = cs := by
  unfold pyStripList
  have hd : cs.dropWhile isPySpace = cs := by
    cases cs with
    | nil => rfl
    | cons c rest =>
      rw [List.dropWhile_cons, if_neg]
      simp [h1 c rfl]
  rw [hd]
  have hr : cs.reverse.dropWhile isPySpace = cs.reverse := by
    cases hrev : cs.reverse with
    | nil => rfl
    | cons c rest =>
      rw [List.dropWhile_cons, if_neg]
      have : cs.getLast? = some c := by
        rw [List.getLast?_eq_head?_reverse, hrev]
        rfl
      simp [h2 c this]
  rw [hr, List.reverse_reverse]

theorem subTrailingCommaWs_eq_self (cs : List Char)
    (h : cs.getLast? = some '}') : subTrailingCommaWs cs = cs := by
  unfold subTrailingCommaWs
  have : cs.reverse.dropWhile isPySpace = cs.reverse := by
    cases hrev : cs.reverse with
    | nil => rfl
    | cons c rest =>
      rw [List.dropWhile_cons, if_neg]
      have hc : cs.getLast? = some c := by
        rw [List.getLast?_eq_head?_reverse, hrev]
        rfl
      rw [hc] at h
      cases h
      decide
  rw [this]
  rcases hrev : cs.reverse with _ | ⟨c, rest⟩
  · rfl
  · have hc : cs.getLast? = some c := by
      rw [List.getLast?_eq_head?_reverse, hrev]
      rfl
    rw [hc] at h
    cases h
    rfl

theorem pairSome_ext {α β : Type} {a c : α} {b d : β}
    (h : (some (a, b) : Option (α × β)) = some (c, d)) : a = c ∧ b = d := by
  cases Option.some.inj h
  exact ⟨rfl, rfl⟩

theorem lexSurrogateTail_append (y : List Char) (n : Nat) (x : List Char)
    (d : Char) (r : List Char) (h : lexSurrogateTail n x = some (d, r)) :
    lexSurrogateTail n (x ++ y) = some (d, r ++ y) := by
  match x with
  | [] => exact absurd h (by simp [lexSurrogateTail])
  | [a] => exact absurd h (by simp [lexSurrogateTail])
  | [a, b] => exact absurd h (by simp [lexSurrogateTail])
  | [a, b, c] => exact absurd h (by simp [lexSurrogateTail])
  | [a, b, c, e] => exact absurd h (by simp [lexSurrogateTail])
  | [a, b, c, e, f] => exact absurd h (by simp [lexSurrogateTail])
  | b :: u :: g1 :: g2 :: g3 :: g4 :: rest8 =>
    simp only [lexSurrogateTail, List.cons_append] at h ⊢
    by_cases hbu : (b = '\\' && u = 'u') = true
    · rw [if_pos hbu] at h ⊢
      rcases hg : hex4 g1 g2 g3 g4 with _ | n2 <;> rw [hg] at h <;>
        dsimp only at h ⊢
      · exact absurd h (by simp)
      · by_cases hlow : (0xDC00 ≤ n2 && n2 ≤ 0xDFFF) = true
        · rw [if_pos hlow] at h
          obtain ⟨rfl, rfl⟩ := pairSome_ext h
          rw [if_pos hlow]
        · rw [if_neg hlow] at h
          exact absurd h (by simp)
    · rw [if_neg hbu] at h
      exact absurd h (by simp)

theorem lexEsc1_append (y : List Char) (x : List Char) (d : Char) (r : List Char)
    (h : lexEsc1 x = some (d, r)) : lexEsc1 (x ++ y) = some (d, r ++ y) := by
  match x with
  | [] => exact absurd h (by simp [lexEsc1])
  | e :: rest1 =>
    by_cases he : e = 'u'
    · subst he
      match rest1 with
      | [] => exact absurd h (by simp [lexEsc1])
      | [a] => exact absurd h (by simp [lexEsc1])
      | [a, b] => exact absurd h (by simp [lexEsc1])
      | [a, b, c] => exact absurd h (by simp [lexEsc1])
      | h1 :: h2 :: h3 :: h4 :: rest4 =>
        rcases hh : hex4 h1 h2 h3 h4 with _ | n
        · exact absurd h (by simp [lexEsc1, hh])
        · simp only [lexEsc1, List.cons_append] at h ⊢
          rw [hh] at h ⊢
          dsimp only at h ⊢
          by_cases hsur : (0xD800 ≤ n && n ≤ 0xDBFF) = true
          · rw [if_pos hsur] at h ⊢
            exact lexSurrogateTail_append y n rest4 d r h
          · rw [if_neg hsur] at h ⊢
            by_cases hlow : (0xDC00 ≤ n && n ≤ 0xDFFF) = true
            · rw [if_pos hlow] at h
              exact absurd h (by simp)
            · rw [if_neg hlow] at h ⊢
              obtain ⟨rfl, rfl⟩ := pairSome_ext h
              rfl
    · rcases hesc : escChar e with _ | d2
      · exact absurd h (by simp [lexEsc1, he, hesc])
      · simp only [lexEsc1, he, hesc, if_false, Option.map_some'] at h
        obtain ⟨rfl, rfl⟩ := pairSome_ext h
        simp only [List.cons_append, lexEsc1, he, hesc, if_false, Option.map_some']

theorem lexSurrogateTail_length (n : Nat) (x : List Char) (d : Char)
    (r : List Char) (h : lexSurrogateTail n x = some (d, r)) :
    r.length + 6 ≤ x.length := by
  match x with
  | [] => exact absurd h (by simp [lexSurrogateTail])
  | [a] => exact absurd h (by simp [lexSurrogateTail])
  | [a, b] => exact absurd h (by simp [lexSurrogateTail])
  | [a, b, c] => exact absurd h (by simp [lexSurrogateTail])
  | [a, b, c, e] => exact absurd h (by simp [lexSurrogateTail])
  | [a, b, c, e, f] => exact absurd h (by simp [lexSurrogateTail])
  | b :: u :: g1 :: g2 :: g3 :: g4 :: rest8 =>
    simp only [lexSurrogateTail] at h
    by_cases hbu : (b = '\\' && u = 'u') = true
    · rw [if_pos hbu] at h
      rcases hg : hex4 g1 g2 g3 g4 with _ | n2 <;> rw [hg] at h <;> dsimp only at h
      · exact absurd h (by simp)
      · by_cases hlow : (0xDC00 ≤ n2 && n2 ≤ 0xDFFF) = true
        · rw [if_pos hlow] at h
          obtain ⟨rfl, rfl⟩ := pairSome_ext h
          simp
        · rw [if_neg hlow] at h
          exact absurd h (by simp)
    · rw [if_neg hbu] at h
      exact absurd h (by simp)

theorem lexEsc1_length (x : List Char) (d : Char) (r : List Char)
    (h : lexEsc1 x = some (d, r)) : r.length < x.length := by
  match x with
  | [] => exact absurd h (by simp [lexEsc1])
  | e :: rest1 =>
    by_cases he : e = 'u'
    · subst he
      match rest1 with
      | [] => exact absurd h (by simp [lexEsc1])
      | [a] => exact absurd h (by simp [lexEsc1])
      | [a, b] => exact absurd h (by simp [lexEsc1])
      | [a, b, c] => exact absurd h (by simp [lexEsc1])
      | h1 :: h2 :: h3 :: h4 :: rest4 =>
        rcases hh : hex4 h1 h2 h3 h4 with _ | n
        · exact absurd h (by simp [lexEsc1, hh])
        · simp only [lexEsc1] at h
          rw [hh] at h
          dsimp only at h
          by_cases hsur : (0xD800 ≤ n && n ≤ 0xDBFF) = true
          · rw [if_pos hsur] at h
            have := lexSurrogateTail_length n rest4 d r h
            simp only [List.length_cons]
            omega
          · rw [if_neg hsur] at h
            by_cases hlow : (0xDC00 ≤ n && n ≤ 0xDFFF) = true
            · rw [if_pos hlow] at h
              exact absurd h (by simp)
            · rw [if_neg hlow] at h
              obtain ⟨rfl, rfl⟩ := pairSome_ext h
              simp
              omega
    · rcases hesc : escChar e with _ | d2
      · exact absurd h (by simp [lexEsc1, he, hesc])
      · simp only [lexEsc1, he, hesc, if_false, Option.map_some'] at h
        obtain ⟨rfl, rfl⟩ := pairSome_ext h
        simp

theorem lexStrF_length : ∀ (f : Nat) (cs s r : List Char),
    lexStrF f cs = some (s, r) → r.length < cs.length := by
  intro f
  induction f with
  | zero => intro cs s r h; exact absurd h (by simp [lexStrF])
  | succ n ih =>
    intro cs s r h
    match cs with
    | [] => exact absurd h (by simp [lexStrF])
    | c :: rest =>
      simp only [lexStrF] at h
      by_cases hq : c = '"'
      · rw [if_pos hq] at h
        obtain ⟨rfl, rfl⟩ := pairSome_ext h
        simp
      · rw [if_neg hq] at h
        by_cases hb : c = '\\'
        · rw [if_pos hb] at h
          rcases hesc : lexEsc1 rest with _ | ⟨d, rest2⟩ <;> rw [hesc] at h <;> (try dsimp only at h)
          · exact absurd h (by simp)
          · rcases hsub : lexStrF n rest2 with _ | ⟨s2, r2⟩ <;> rw [hsub] at h
            · exact absurd h (by simp)
            · obtain ⟨rfl, rfl⟩ := pairSome_ext h
              have hl1 := ih rest2 s2 r2 hsub
              have hl2 := lexEsc1_length rest d rest2 hesc
              simp only [List.length_cons]
              omega
        · rw [if_neg hb] at h
          split at h
          · exact absurd h (by simp)
          · rcases hsub : lexStrF n rest with _ | ⟨s2, r2⟩ <;> rw [hsub] at h
            · exact absurd h (by simp)
            · obtain ⟨rfl, rfl⟩ := pairSome_ext h
              have hl1 := ih rest s2 r2 hsub
              simp only [List.length_cons]
              omega

theorem lexStrF_fuel : ∀ (f1 : Nat), ∀ (f2 : Nat) (cs : List Char),
    cs.length < f1 → cs.length < f2 → lexStrF f1 cs = lexStrF f2 cs := by
  intro f1
  induction f1 with
  | zero => intro f2 cs h1; omega
  | succ n ih =>
    intro f2 cs h1 h2
    match f2, h2 with
    | g + 1, h2 =>
      match cs with
      | [] => rfl
      | c :: rest =>
        simp only [lexStrF]
        by_cases hq : c = '"'
        · rw [if_pos hq, if_pos hq]
        · rw [if_neg hq, if_neg hq]
          by_cases hb : c = '\\'
          · rw [if_pos hb, if_pos hb]
            rcases hesc : lexEsc1 rest with _ | ⟨d, rest2⟩ <;> dsimp only
            have hlen := lexEsc1_length rest d rest2 hesc
            simp only [List.length_cons] at h1 h2
            rw [ih g rest2 (by omega) (by omega)]
          · rw [if_neg hb, if_neg hb]
            split
            · rfl
            · simp only [List.length_cons] at h1 h2
              rw [ih g rest (by omega) (by omega)]

theorem lexStrF_append (y : List Char) : ∀ (f1 f2 : Nat) (cs s r : List Char),
    cs.length < f1 → (cs ++ y).length < f2 →
    lexStrF f1 cs = some (s, r) → lexStrF f2 (cs ++ y) = some (s, r ++ y) := by
  intro f1
  induction f1 with
  | zero => intro f2 cs s r h1; omega
  | succ n ih =>
    intro f2 cs s r h1 h2 h
    match f2, h2 with
    | g + 1, h2 =>
      match cs with
      | [] => exact absurd h (by simp [lexStrF])
      | c :: rest =>
        simp only [lexStrF, List.cons_append, List.append_eq] at h ⊢
        by_cases hq : c = '"'
        · rw [if_pos hq] at h ⊢
          obtain ⟨rfl, rfl⟩ := pairSome_ext h
          rfl
        · rw [if_neg hq] at h ⊢
          by_cases hb : c = '\\'
          · rw [if_pos hb] at h ⊢
            rcases hesc : lexEsc1 rest with _ | ⟨d, rest2⟩ <;> rw [hesc] at h
            · exact absurd h (by simp)
            · rw [lexEsc1_append y rest d rest2 hesc]
              dsimp only at h ⊢
              rcases hsub : lexStrF n rest2 with _ | ⟨s2, r2⟩ <;> rw [hsub] at h
              · exact absurd h (by simp)
              · have hlen := lexEsc1_length rest d rest2 hesc
                simp only [List.length_cons] at h1
                simp only [List.length_append, List.length_cons] at h2
                rw [ih g rest2 s2 r2 (by omega) (by simp; omega) hsub]
                obtain ⟨rfl, rfl⟩ := pairSome_ext (by simpa using h)
                rfl
          · rw [if_neg hb] at h ⊢
            split at h
            · exact absurd h (by simp)
            · rename_i hctl
              rw [if_neg hctl]
              rcases hsub : lexStrF n rest with _ | ⟨s2, r2⟩ <;> rw [hsub] at h
              · exact absurd h (by simp)
              · simp only [List.length_cons] at h1
                simp only [List.length_append, List.length_cons] at h2
                rw [ih g rest s2 r2 (by omega) (by simp; omega) hsub]
                obtain ⟨rfl, rfl⟩ := pairSome_ext (by simpa using h)
                rfl

def isNumTailChar (c : Char) : Bool :=
  c.isDigit || c = '.' || c = 'e' || c = 'E' || c = '+' || c = '-'

theorem takeWhile_append_inert (p : Char → Bool) (x y : List Char)
    (hy : ∀ c, y.head? = some c → p c = false) :
    (x ++ y).takeWhile p = x.takeWhile p := by
  induction x with
  | nil =>
    cases y with
    | nil => rfl
    | cons c ys => simp [List.takeWhile_cons, hy c rfl]
  | cons c xs ih =>
    simp only [List.cons_append, List.takeWhile_cons]
    split <;> simp [ih]

theorem drop_append_le {α : Type} (x y : List α) (n : Nat) (h : n ≤ x.length) :
    (x ++ y).drop n = x.drop n ++ y := by
  induction x generalizing n with
  | nil =>
    simp at h
    subst h
    simp
  | cons c xs ih =>
    cases n with
    | zero => simp
    | succ m =>
      simp only [List.cons_append, List.drop_succ_cons]
      exact ih m (by simpa using h)

theorem numTail_not_digit {y : List Char}
    (hy : ∀ c, y.head? = some c → isNumTailChar c = false) :
    ∀ c, y.head? = some c → c.isDigit = false := by
  intro c hc
  have := hy c hc
  simp only [isNumTailChar, Bool.or_eq_false_iff] at this
  exact this.1.1.1.1.1

theorem numTail_ne {y : List Char}
    (hy : ∀ c, y.head? = some c → isNumTailChar c = false)
    (d : Char) (hd : isNumTailChar d = true) :
    ∀ c, y.head? = some c → ¬c = d := by
  intro c hc heq
  subst heq
  rw [hy c hc] at hd
  exact Bool.false_ne_true hd

theorem takeWhile_len_le (p : Char → Bool) (l : List Char) :
    (l.takeWhile p).length ≤ l.length := by
  induction l with
  | nil => simp
  | cons c cs ih =>
    rw [List.takeWhile_cons]
    split
    · simpa using ih
    · simp

theorem lexSign_cons_ne (c : Char) (rest : List Char) (h : ¬c = '-') :
    lexSign (c :: rest) = (false, c :: rest) := by
  unfold lexSign
  split
  · rename_i heq
    injection heq with h1 h2
    exact absurd h1 h
  · rfl

theorem lexSign_append (x y : List Char)
    (hy : ∀ c, y.head? = some c → isNumTailChar c = false) :
    lexSign (x ++ y) = ((lexSign x).1, (lexSign x).2 ++ y) := by
  match x with
  | [] =>
    cases y with
    | nil => rfl
    | cons c ys =>
      rw [List.nil_append, lexSign_cons_ne c ys (numTail_ne hy '-' (by decide) c rfl)]
      rfl
  | c :: rest =>
    by_cases hc : c = '-'
    · subst hc
      rfl
    · rw [List.cons_append, lexSign_cons_ne c (rest ++ y) hc,
        lexSign_cons_ne c rest hc]
      rfl

theorem lexExpSign_cons_ne (c : Char) (rest : List Char)
    (h1 : ¬c = '-') (h2 : ¬c = '+') :
    lexExpSign (c :: rest) = (false, c :: rest) := by
  unfold lexExpSign
  split
  · rename_i heq
    injection heq with ha hb
    exact absurd ha h1
  · rename_i heq
    injection heq with ha hb
    exact absurd ha h2
  · rfl

theorem lexExpSign_append (x y : List Char)
    (hy : ∀ c, y.head? = some c → isNumTailChar c = false) :
    lexExpSign (x ++ y) = ((lexExpSign x).1, (lexExpSign x).2 ++ y) := by
  match x with
  | [] =>
    cases y with
    | nil => rfl
    | cons c ys =>
      rw [List.nil_append, lexExpSign_cons_ne c ys
        (numTail_ne hy '-' (by decide) c rfl) (numTail_ne hy '+' (by decide) c rfl)]
      rfl
  | c :: rest =>
    by_cases hc1 : c = '-'
    · subst hc1
      rfl
    · by_cases hc2 : c = '+'
      · subst hc2
        rfl
      · rw [List.cons_append, lexExpSign_cons_ne c (rest ++ y) hc1 hc2,
          lexExpSign_cons_ne c rest hc1 hc2]
        rfl

theorem lexFrac_cons_ne (c : Char) (rest : List Char) (h : ¬c = '.') :
    lexFrac (c :: rest) = ([], c :: rest) := by
  unfold lexFrac
  split
  · rename_i heq
    injection heq with h1 h2
    exact absurd h1 h
  · rfl

theorem lexFrac_dot (rest : List Char) :
    lexFrac ('.' :: rest) =
      (if (rest.takeWhile Char.isDigit).isEmpty then ([], '.' :: rest)
       else (rest.takeWhile Char.isDigit,
         rest.drop (rest.takeWhile Char.isDigit).length)) := rfl

theorem lexFrac_append (x y : List Char)
    (hy : ∀ c, y.head? = some c → isNumTailChar c = false) :
    lexFrac (x ++ y) = ((lexFrac x).1, (lexFrac x).2 ++ y) := by
  match x with
  | [] =>
    cases y with
    | nil => rfl
    | cons c ys =>
      rw [List.nil_append, lexFrac_cons_ne c ys (numTail_ne hy '.' (by decide) c rfl)]
      rfl
  | c :: rest =>
    by_cases hc : c = '.'
    · subst hc
      rw [List.cons_append, lexFrac_dot, lexFrac_dot,
        takeWhile_append_inert Char.isDigit rest y (numTail_not_digit hy)]
      by_cases hf : (rest.takeWhile Char.isDigit).isEmpty
      · rw [if_pos hf, if_pos hf]
        rfl
      · rw [if_neg hf, if_neg hf,
          drop_append_le rest y _ (takeWhile_len_le _ _)]
    · rw [List.cons_append, lexFrac_cons_ne c (rest ++ y) hc,
        lexFrac_cons_ne c rest hc]
      rfl

theorem lexExp_cons (c : Char) (rest : List Char) :
    lexExp (c :: rest) =
      (if c = 'e' || c = 'E' then
        if ((lexExpSign rest).2.takeWhile Char.isDigit).isEmpty then
          ([], false, c :: rest, false)
        else (((lexExpSign rest).2.takeWhile Char.isDigit), (lexExpSign rest).1,
          (lexExpSign rest).2.drop ((lexExpSign rest).2.takeWhile Char.isDigit).length,
          true)
       else ([], false, c :: rest, false)) := rfl

theorem lexExp_append (x y : List Char)
    (hy : ∀ c, y.head? = some c → isNumTailChar c = false) :
    lexExp (x ++ y) =
      ((lexExp x).1, (lexExp x).2.1, (lexExp x).2.2.1 ++ y, (lexExp x).2.2.2) := by
  match x with
  | [] =>
    cases y with
    | nil => rfl
    | cons c ys =>
      have h1 := numTail_ne hy 'e' (by decide) c rfl
      have h2 := numTail_ne hy 'E' (by decide) c rfl
      rw [List.nil_append, lexExp_cons, if_neg (by simp [h1, h2])]
      rfl
  | c :: rest =>
    by_cases hc : (c = 'e' || c = 'E') = true
    · rw [List.cons_append, lexExp_cons, lexExp_cons, if_pos hc, if_pos hc,
        lexExpSign_append rest y hy]
      rw [takeWhile_append_inert Char.isDigit (lexExpSign rest).2 y
        (numTail_not_digit hy)]
      by_cases hd : ((lexExpSign rest).2.takeWhile Char.isDigit).isEmpty
      · rw [if_pos hd, if_pos hd]
        rfl
      · rw [if_neg hd, if_neg hd,
          drop_append_le (lexExpSign rest).2 y _ (takeWhile_len_le _ _)]
    · rw [List.cons_append, lexExp_cons, lexExp_cons,
        if_neg (by simpa using hc), if_neg (by simpa using hc)]
      rfl

theorem lexStr_length (cs s r : List Char) (h : lexStr cs = some (s, r)) :
    r.length < cs.length :=
  lexStrF_length (cs.length + 1) cs s r h

theorem lexStr_append (y cs s r : List Char) (h : lexStr cs = some (s, r)) :
    lexStr (cs ++ y) = some (s, r ++ y) :=
  lexStrF_append y (cs.length + 1) ((cs ++ y).length + 1) cs s r
    (Nat.lt_succ_self _) (Nat.lt_succ_self _) h

theorem lexSign_length (cs : List Char) : (lexSign cs).2.length ≤ cs.length := by
  unfold lexSign
  split
  · simp
  · exact Nat.le_refl _

theorem lexFrac_length (cs : List Char) : (lexFrac cs).2.length ≤ cs.length := by
  cases cs with
  | nil => exact Nat.le_refl _
  | cons c rest =>
    by_cases hc : c = '.'
    · subst hc
      rw [lexFrac_dot]
      split
      · exact Nat.le_refl _
      · simp [List.length_drop]
        omega
    · rw [lexFrac_cons_ne c rest hc]

theorem lexExpSign_length (cs : List Char) :
    (lexExpSign cs).2.length ≤ cs.length := by
  unfold lexExpSign
  split
  · simp
  · simp
  · exact Nat.le_refl _

theorem lexExp_length (cs : List Char) : (lexExp cs).2.2.1.length ≤ cs.length := by
  cases cs with
  | nil => exact Nat.le_refl _
  | cons c rest =>
    rw [lexExp_cons]
    split
    · split
      · exact Nat.le_refl _
      · have h1 := lexExpSign_length rest
        simp [List.length_drop]
        omega
    · exact Nat.le_refl _

theorem lexNumber_length (cs : List Char) (t : Tok) (r : List Char)
    (h : lexNumber cs = some (t, r)) : r.length < cs.length := by
  unfold lexNumber at h
  rcases hs : lexSign cs with ⟨neg, cs1⟩
  rw [hs] at h
  dsimp only at h
  have hcs1 : cs1.length ≤ cs.length := by
    have h0 := lexSign_length cs
    rw [hs] at h0
    exact h0
  cases hI : cs1.takeWhile Char.isDigit with
  | nil =>
    rw [hI] at h
    exact absurd h (by simp)
  | cons d0 ds =>
    rw [hI] at h
    dsimp only at h
    have hwl : (d0 :: ds).length ≤ cs1.length := by
      have h1 := takeWhile_len_le Char.isDigit cs1
      rw [hI] at h1
      exact h1
    have hip : 1 ≤ (if d0 = '0' then ['0'] else d0 :: ds).length ∧
        (if d0 = '0' then ['0'] else d0 :: ds).length ≤ cs1.length := by
      constructor
      · split <;> simp
      · split
        · calc (['0'] : List Char).length ≤ (d0 :: ds).length := by simp
            _ ≤ cs1.length := hwl
        · exact hwl
    have hcs2 : (cs1.drop (if d0 = '0' then ['0'] else d0 :: ds).length).length <
        cs1.length := by
      simp [List.length_drop]
      omega
    rcases hF : lexFrac (cs1.drop (if d0 = '0' then ['0'] else d0 :: ds).length)
      with ⟨fd, cs3⟩
    rw [hF] at h
    dsimp only at h
    have hcs3 : cs3.length ≤
        (cs1.drop (if d0 = '0' then ['0'] else d0 :: ds).length).length := by
      have h2 := lexFrac_length (cs1.drop (if d0 = '0' then ['0'] else d0 :: ds).length)
      rw [hF] at h2
      exact h2
    rcases hE : lexExp cs3 with ⟨ed, en, cs4, hx⟩
    rw [hE] at h
    dsimp only at h
    have hcs4 : cs4.length ≤ cs3.length := by
      have h3 := lexExp_length cs3
      rw [hE] at h3
      exact h3
    split at h
    · obtain ⟨-, h2⟩ := pairSome_ext h
      subst h2
      omega
    · obtain ⟨-, h2⟩ := pairSome_ext h
      subst h2
      omega

theorem lexNumber_append (x y : List Char)
    (hy : ∀ c, y.head? = some c → isNumTailChar c = false) :
    lexNumber (x ++ y) = (lexNumber x).map (fun p => (p.1, p.2 ++ y)) := by
  unfold lexNumber
  rw [lexSign_append x y hy]
  rcases hs : lexSign x with ⟨neg, cs1⟩
  dsimp only
  rw [takeWhile_append_inert Char.isDigit cs1 y (numTail_not_digit hy)]
  cases hI : cs1.takeWhile Char.isDigit with
  | nil => rfl
  | cons d0 ds =>
    dsimp only
    have hwl : (d0 :: ds).length ≤ cs1.length := by
      have h1 := takeWhile_len_le Char.isDigit cs1
      rw [hI] at h1
      exact h1
    have hle : (if d0 = '0' then ['0'] else d0 :: ds).length ≤ cs1.length := by
      split
      · calc (['0'] : List Char).length ≤ (d0 :: ds).length := by simp
          _ ≤ cs1.length := hwl
      · exact hwl
    rw [drop_append_le cs1 y _ hle]
    rw [lexFrac_append _ y hy]
    rcases hF : lexFrac (cs1.drop (if d0 = '0' then ['0'] else d0 :: ds).length)
      with ⟨fd, cs3⟩
    dsimp only
    rw [lexExp_append cs3 y hy]
    rcases hE : lexExp cs3 with ⟨ed, en, cs4, hx⟩
    dsimp only
    by_cases hcond : (fd.isEmpty && !hx) = true
    · rw [if_pos hcond, if_pos hcond]
      rfl
    · rw [if_neg hcond, if_neg hcond]
      rfl

theorem tokenizeF_cons (f : Nat) (c : Char) (rest : List Char) :
    tokenizeF (f + 1) (c :: rest) =
      (if isJsonSpace c then tokenizeF f rest
       else if c = '{' then (tokenizeF f rest).map (Tok.lbrace :: ·)
       else if c = '}' then (tokenizeF f rest).map (Tok.rbrace :: ·)
       else if c = '[' then (tokenizeF f rest).map (Tok.lbrack :: ·)
       else if c = ']' then (tokenizeF f rest).map (Tok.rbrack :: ·)
       else if c = ':' then (tokenizeF f rest).map (Tok.colon :: ·)
       else if c = ',' then (tokenizeF f rest).map (Tok.comma :: ·)
       else if c = '"' then
         match lexStr rest with
         | none => none
         | some (s, r) => (tokenizeF f r).map (Tok.tstr (String.mk s) :: ·)
       else if c = 't' then
         match rest with
         | 'r' :: 'u' :: 'e' :: r => (tokenizeF f r).map (Tok.ttrue :: ·)
         | _ => none
       else if c = 'f' then
         match rest with
         | 'a' :: 'l' :: 's' :: 'e' :: r => (tokenizeF f r).map (Tok.tfalse :: ·)
         | _ => none
       else if c = 'n' then
         match rest with
         | 'u' :: 'l' :: 'l' :: r => (tokenizeF f r).map (Tok.tnull :: ·)
         | _ => none
       else if c = 'N' then
         match rest with
         | 'a' :: 'N' :: r => (tokenizeF f r).map (Tok.tnan :: ·)
         | _ => none
       else if c = 'I' then
         match rest with
         | 'n' :: 'f' :: 'i' :: 'n' :: 'i' :: 't' :: 'y' :: r =>
           (tokenizeF f r).map (Tok.tinf false :: ·)
         | _ => none
       else
         match lexNumber (c :: rest) with
         | some (t, r) => (tokenizeF f r).map (t :: ·)
         | none =>
           if c = '-' then
             match rest with
             | 'I' :: 'n' :: 'f' :: 'i' :: 'n' :: 'i' :: 't' :: 'y' :: r =>
               (tokenizeF f r).map (Tok.tinf true :: ·)
             | _ => none
           else none) := rfl

/-- The head dispatch of `tokenizeF` on one character: `none` when the
input is rejected here, otherwise the emitted token (if any) and the
remaining input handed to the recursive call. -/
def tokHead (c : Char) (rest : List Char) : Option (Option Tok × List Char) :=
  if isJsonSpace c then some (none, rest)
  else if c = '{' then some (some Tok.lbrace, rest)
  else if c = '}' then some (some Tok.rbrace, rest)
  else if c = '[' then some (some Tok.lbrack, rest)
  else if c = ']' then some (some Tok.rbrack, rest)
  else if c = ':' then some (some Tok.colon, rest)
  else if c = ',' then some (some Tok.comma, rest)
  else if c = '"' then
    match lexStr rest with
    | none => none
    | some (s, r) => some (some (Tok.tstr (String.mk s)), r)
  else if c = 't' then
    match rest with
    | 'r' :: 'u' :: 'e' :: r => some (some Tok.ttrue, r)
    | _ => none
  else if c = 'f' then
    match rest with
    | 'a' :: 'l' :: 's' :: 'e' :: r => some (some Tok.tfalse, r)
    | _ => none
  else if c = 'n' then
    match rest with
    | 'u' :: 'l' :: 'l' :: r => some (some Tok.tnull, r)
    | _ => none
  else if c = 'N' then
    match rest with
    | 'a' :: 'N' :: r => some (some Tok.tnan, r)
    | _ => none
  else if c = 'I' then
    match rest with
    | 'n' :: 'f' :: 'i' :: 'n' :: 'i' :: 't' :: 'y' :: r =>
      some (some (Tok.tinf false), r)
    | _ => none
  else
    match lexNumber (c :: rest) with
    | some (t, r) => some (some t, r)
    | none =>
      if c = '-' then
        match rest with
        | 'I' :: 'n' :: 'f' :: 'i' :: 'n' :: 'i' :: 't' :: 'y' :: r =>
          some (some (Tok.tinf true), r)
        | _ => none
      else none

theorem tokenizeF_succ (f : Nat) (c : Char) (rest : List Char) :
    tokenizeF (f + 1) (c :: rest) =
      match tokHead c rest with
      | none => none
      | some (none, r) => tokenizeF f r
      | some (some t, r) => (tokenizeF f r).map (t :: ·) := by
  rw [tokenizeF_cons]
  unfold tokHead
  by_cases h1 : isJsonSpace c = true
  · rw [if_pos h1, if_pos h1]
  · rw [if_neg h1, if_neg h1]
    by_cases h2 : c = '{'
    · rw [if_pos h2, if_pos h2]
    · rw [if_neg h2, if_neg h2]
      by_cases h3 : c = '}'
      · rw [if_pos h3, if_pos h3]
      · rw [if_neg h3, if_neg h3]
        by_cases h4 : c = '['
        · rw [if_pos h4, if_pos h4]
        · rw [if_neg h4, if_neg h4]
          by_cases h5 : c = ']'
          · rw [if_pos h5, if_pos h5]
          · rw [if_neg h5, if_neg h5]
            by_cases h6 : c = ':'
            · rw [if_pos h6, if_pos h6]
            · rw [if_neg h6, if_neg h6]
              by_cases h7 : c = ','
              · rw [if_pos h7, if_pos h7]
              · rw [if_neg h7, if_neg h7]
                by_cases h8 : c = '"'
                · rw [if_pos h8, if_pos h8]
                  rcases hls : lexStr rest with _ | ⟨s, r⟩ <;> rfl
                · rw [if_neg h8, if_neg h8]
                  by_cases h9 : c = 't'
                  · rw [if_pos h9, if_pos h9]
                    split <;> rfl
                  · rw [if_neg h9, if_neg h9]
                    by_cases h10 : c = 'f'
                    · rw [if_pos h10, if_pos h10]
                      split <;> rfl
                    · rw [if_neg h10, if_neg h10]
                      by_cases h11 : c = 'n'
                      · rw [if_pos h11, if_pos h11]
                        split <;> rfl
                      · rw [if_neg h11, if_neg h11]
                        by_cases h12 : c = 'N'
                        · rw [if_pos h12, if_pos h12]
                          split <;> rfl
                        · rw [if_neg h12, if_neg h12]
                          by_cases h13 : c = 'I'
                          · rw [if_pos h13, if_pos h13]
                            split <;> rfl
                          · rw [if_neg h13, if_neg h13]
                            rcases hln : lexNumber (c :: rest) with _ | ⟨t, r⟩
                            · dsimp only
                              by_cases h14 : c = '-'
                              · rw [if_pos h14, if_pos h14]
                                split <;> rfl
                              · rw [if_neg h14, if_neg h14]
                            · rfl

theorem tokHead_length (c : Char) (rest : List Char) (o : Option Tok)
    (r : List Char) (h : tokHead c rest = some (o, r)) :
    r.length ≤ rest.length := by
  unfold tokHead at h
  by_cases h1 : isJsonSpace c = true
  · rw [if_pos h1] at h
    obtain ⟨-, h2⟩ := pairSome_ext h; subst h2; exact Nat.le_refl _
  · rw [if_neg h1] at h
    by_cases h2 : c = '{'
    · rw [if_pos h2] at h
      obtain ⟨-, h2⟩ := pairSome_ext h; subst h2; exact Nat.le_refl _
    · rw [if_neg h2] at h
      by_cases h3 : c = '}'
      · rw [if_pos h3] at h
        obtain ⟨-, h2⟩ := pairSome_ext h; subst h2; exact Nat.le_refl _
      · rw [if_neg h3] at h
        by_cases h4 : c = '['
        · rw [if_pos h4] at h
          obtain ⟨-, h2⟩ := pairSome_ext h; subst h2; exact Nat.le_refl _
        · rw [if_neg h4] at h
          by_cases h5 : c = ']'
          · rw [if_pos h5] at h
            obtain ⟨-, h2⟩ := pairSome_ext h; subst h2; exact Nat.le_refl _
          · rw [if_neg h5] at h
            by_cases h6 : c = ':'
            · rw [if_pos h6] at h
              obtain ⟨-, h2⟩ := pairSome_ext h; subst h2; exact Nat.le_refl _
            · rw [if_neg h6] at h
              by_cases h7 : c = ','
              · rw [if_pos h7] at h
                obtain ⟨-, h2⟩ := pairSome_ext h; subst h2; exact Nat.le_refl _
              · rw [if_neg h7] at h
                by_cases h8 : c = '"'
                · rw [if_pos h8] at h
                  split at h
                  · exact absurd h (by simp)
                  · rename_i s r2 hls
                    obtain ⟨-, h2⟩ := pairSome_ext h
                    subst h2
                    exact Nat.le_of_lt (lexStr_length rest s r2 hls)
                · rw [if_neg h8] at h
                  by_cases h9 : c = 't'
                  · rw [if_pos h9] at h
                    split at h
                    · obtain ⟨-, h2⟩ := pairSome_ext h
                      subst h2
                      simp only [List.length_cons]
                      omega
                    · exact absurd h (by simp)
                  · rw [if_neg h9] at h
                    by_cases h10 : c = 'f'
                    · rw [if_pos h10] at h
                      split at h
                      · obtain ⟨-, h2⟩ := pairSome_ext h
                        subst h2
                        simp only [List.length_cons]
                        omega
                      · exact absurd h (by simp)
                    · rw [if_neg h10] at h
                      by_cases h11 : c = 'n'
                      · rw [if_pos h11] at h
                        split at h
                        · obtain ⟨-, h2⟩ := pairSome_ext h
                          subst h2
                          simp only [List.length_cons]
                          omega
                        · exact absurd h (by simp)
                      · rw [if_neg h11] at h
                        by_cases h12 : c = 'N'
                        · rw [if_pos h12] at h
                          split at h
                          · obtain ⟨-, h2⟩ := pairSome_ext h
                            subst h2
                            simp only [List.length_cons]
                            omega
                          · exact absurd h (by simp)
                        · rw [if_neg h12] at h
                          by_cases h13 : c = 'I'
                          · rw [if_pos h13] at h
                            split at h
                            · obtain ⟨-, h2⟩ := pairSome_ext h
                              subst h2
                              simp only [List.length_cons]
                              omega
                            · exact absurd h (by simp)
                          · rw [if_neg h13] at h
                            split at h
                            · rename_i t r2 hln
                              obtain ⟨-, h2⟩ := pairSome_ext h
                              subst h2
                              have hb := lexNumber_length (c :: rest) t r2 hln
                              simp [List.length_cons] at hb
                              omega
                            · rename_i hln
                              by_cases h14 : c = '-'
                              · rw [if_pos h14] at h
                                split at h
                                · obtain ⟨-, h2⟩ := pairSome_ext h
                                  subst h2
                                  simp only [List.length_cons]
                                  omega
                                · exact absurd h (by simp)
                              · rw [if_neg h14] at h
                                exact absurd h (by simp)

theorem tokHead_append (c : Char) (rest y : List Char) (o : Option Tok)
    (r : List Char)
    (hy : ∀ d, y.head? = some d → isNumTailChar d = false)
    (h : tokHead c rest = some (o, r)) :
    tokHead c (rest ++ y) = some (o, r ++ y) := by
  unfold tokHead at h ⊢
  by_cases h1 : isJsonSpace c = true
  · rw [if_pos h1] at h ⊢
    obtain ⟨ho, hr⟩ := pairSome_ext h
    subst ho
    subst hr
    rfl
  · rw [if_neg h1] at h ⊢
    by_cases h2 : c = '{'
    · rw [if_pos h2] at h ⊢
      obtain ⟨ho, hr⟩ := pairSome_ext h
      subst ho
      subst hr
      rfl
    · rw [if_neg h2] at h ⊢
      by_cases h3 : c = '}'
      · rw [if_pos h3] at h ⊢
        obtain ⟨ho, hr⟩ := pairSome_ext h
        subst ho
        subst hr
        rfl
      · rw [if_neg h3] at h ⊢
        by_cases h4 : c = '['
        · rw [if_pos h4] at h ⊢
          obtain ⟨ho, hr⟩ := pairSome_ext h
          subst ho
          subst hr
          rfl
        · rw [if_neg h4] at h ⊢
          by_cases h5 : c = ']'
          · rw [if_pos h5] at h ⊢
            obtain ⟨ho, hr⟩ := pairSome_ext h
            subst ho
            subst hr
            rfl
          · rw [if_neg h5] at h ⊢
            by_cases h6 : c = ':'
            · rw [if_pos h6] at h ⊢
              obtain ⟨ho, hr⟩ := pairSome_ext h
              subst ho
              subst hr
              rfl
            · rw [if_neg h6] at h ⊢
              by_cases h7 : c = ','
              · rw [if_pos h7] at h ⊢
                obtain ⟨ho, hr⟩ := pairSome_ext h
                subst ho
                subst hr
                rfl
              · rw [if_neg h7] at h ⊢
                by_cases h8 : c = '"'
                · rw [if_pos h8] at h ⊢
                  split at h
                  · exact absurd h (by simp)
                  · rename_i s r2 hls
                    rw [lexStr_append y rest s r2 hls]
                    obtain ⟨ho, hr⟩ := pairSome_ext h
                    subst ho
                    subst hr
                    rfl
                · rw [if_neg h8] at h ⊢
                  by_cases h9 : c = 't'
                  · rw [if_pos h9] at h ⊢
                    split at h
                    · obtain ⟨ho, hr⟩ := pairSome_ext h
                      subst ho
                      subst hr
                      rfl
                    · exact absurd h (by simp)
                  · rw [if_neg h9] at h ⊢
                    by_cases h10 : c = 'f'
                    · rw [if_pos h10] at h ⊢
                      split at h
                      · obtain ⟨ho, hr⟩ := pairSome_ext h
                        subst ho
                        subst hr
                        rfl
                      · exact absurd h (by simp)
                    · rw [if_neg h10] at h ⊢
                      by_cases h11 : c = 'n'
                      · rw [if_pos h11] at h ⊢
                        split at h
                        · obtain ⟨ho, hr⟩ := pairSome_ext h
                          subst ho
                          subst hr
                          rfl
                        · exact absurd h (by simp)
                      · rw [if_neg h11] at h ⊢
                        by_cases h12 : c = 'N'
                        · rw [if_pos h12] at h ⊢
                          split at h
                          · obtain ⟨ho, hr⟩ := pairSome_ext h
                            subst ho
                            subst hr
                            rfl
                          · exact absurd h (by simp)
                        · rw [if_neg h12] at h ⊢
                          by_cases h13 : c = 'I'
                          · rw [if_pos h13] at h ⊢
                            split at h
                            · obtain ⟨ho, hr⟩ := pairSome_ext h
                              subst ho
                              subst hr
                              rfl
                            · exact absurd h (by simp)
                          · rw [if_neg h13] at h ⊢
                            rw [show c :: (rest ++ y) = (c :: rest) ++ y from rfl,
                              lexNumber_append (c :: rest) y hy]
                            split at h
                            · rename_i t r2 hln
                              rw [hln]
                              obtain ⟨ho, hr⟩ := pairSome_ext h
                              subst ho
                              subst hr
                              rfl
                            · rename_i hln
                              rw [hln]
                              dsimp only [Option.map]
                              by_cases h14 : c = '-'
                              · rw [if_pos h14] at h ⊢
                                split at h
                                · obtain ⟨ho, hr⟩ := pairSome_ext h
                                  subst ho
                                  subst hr
                                  rfl
                                · exact absurd h (by simp)
                              · rw [if_neg h14] at h
                                exact absurd h (by simp)

theorem tokenizeF_fuel : ∀ (n : Nat) (cs : List Char) (f1 f2 : Nat),
    cs.length ≤ n → cs.length < f1 → cs.length < f2 →
    tokenizeF f1 cs = tokenizeF f2 cs := by
  intro n
  induction n with
  | zero =>
    intro cs f1 f2 h h1 h2
    have hnil : cs = [] := List.length_eq_zero.mp (Nat.le_zero.mp h)
    subst hnil
    cases f1 with
    | zero => omega
    | succ g1 =>
      cases f2 with
      | zero => omega
      | succ g2 => rfl
  | succ n ih =>
    intro cs f1 f2 h h1 h2
    cases cs with
    | nil =>
      cases f1 with
      | zero => omega
      | succ g1 =>
        cases f2 with
        | zero => omega
        | succ g2 => rfl
    | cons c rest =>
      cases f1 with
      | zero => omega
      | succ g1 =>
      cases f2 with
      | zero => omega
      | succ g2 =>
      have hn : rest.length ≤ n := by simp [List.length_cons] at h; omega
      have hg1 : rest.length < g1 := by simp [List.length_cons] at h1; omega
      have hg2 : rest.length < g2 := by simp [List.length_cons] at h2; omega
      rw [tokenizeF_succ, tokenizeF_succ]
      rcases hth : tokHead c rest with _ | ⟨o, r⟩
      · rfl
      · have hr := tokHead_length c rest o r hth
        have heq : tokenizeF g1 r = tokenizeF g2 r :=
          ih r g1 g2 (by omega) (by omega) (by omega)
        cases o with
        | none => exact heq
        | some t =>
          dsimp only
          rw [heq]

theorem tokenizeF_to_tokenize (f : Nat) (cs : List Char) (h : cs.length < f) :
    tokenizeF f cs = tokenize cs :=
  tokenizeF_fuel cs.length cs f (cs.length + 1) (Nat.le_refl _) h
    (Nat.lt_succ_self _)

theorem tokenize_append (y : List Char) (ts2 : List Tok)
    (hy : ∀ d, y.head? = some d → isNumTailChar d = false)
    (h2 : tokenize y = some ts2) :
    ∀ (n : Nat) (cs : List Char) (T : List Tok), cs.length ≤ n →
    tokenize cs = some T → tokenize (cs ++ y) = some (T ++ ts2) := by
  intro n
  induction n with
  | zero =>
    intro cs T h h1
    have hnil : cs = [] := List.length_eq_zero.mp (Nat.le_zero.mp h)
    subst hnil
    have hT : T = [] := by
      have : (some [] : Option (List Tok)) = some T := h1
      exact (Option.some.inj this).symm
    subst hT
    simpa using h2
  | succ n ih =>
    intro cs T h h1
    cases cs with
    | nil =>
      have hT : T = [] := by
        have : (some [] : Option (List Tok)) = some T := h1
        exact (Option.some.inj this).symm
      subst hT
      simpa using h2
    | cons c rest =>
      have hn : rest.length ≤ n := by simp [List.length_cons] at h; omega
      unfold tokenize at h1 ⊢
      rw [show (c :: rest).length + 1 = rest.length + 1 + 1 from by simp] at h1
      rw [tokenizeF_succ] at h1
      rw [show ((c :: rest) ++ y).length + 1 = ((rest ++ y).length + 1) + 1
        from by simp]
      rw [show (c :: rest) ++ y = c :: (rest ++ y) from rfl]
      rw [tokenizeF_succ]
      rcases hth : tokHead c rest with _ | ⟨o, r⟩
      · rw [hth] at h1
        exact absurd h1 (by simp)
      · rw [hth] at h1
        rw [tokHead_append c rest y o r hy hth]
        have hr := tokHead_length c rest o r hth
        cases o with
        | none =>
          dsimp only at h1 ⊢
          rw [tokenizeF_to_tokenize (rest.length + 1) r (by omega)] at h1
          rw [tokenizeF_to_tokenize ((rest ++ y).length + 1) (r ++ y)
            (by simp [List.length_append]; omega)]
          exact ih r T (by omega) h1
        | some t =>
          dsimp only at h1 ⊢
          rw [tokenizeF_to_tokenize (rest.length + 1) r (by omega)] at h1
          rw [tokenizeF_to_tokenize ((rest ++ y).length + 1) (r ++ y)
            (by simp [List.length_append]; omega)]
          rcases hmap : tokenize r with _ | T2
          · rw [hmap] at h1
            exact absurd h1 (by simp)
          · rw [hmap] at h1
            have hT : T = t :: T2 := by
              simp only [Option.map] at h1
              exact (Option.some.inj h1).symm
            subst hT
            rw [ih r T2 (by omega) hmap]
            simp

theorem tokenize_cons_step (c : Char) (rest : List Char) (o : Option Tok)
    (r : List Char) (hth : tokHead c rest = some (o, r)) :
    tokenize (c :: rest) =
      o.elim (tokenize r) (fun t => (tokenize r).map (t :: ·)) := by
  unfold tokenize
  rw [show (c :: rest).length + 1 = rest.length + 1 + 1 from by simp,
    tokenizeF_succ]
  have hr := tokHead_length c rest o r hth
  cases o with
  | none =>
    rw [hth]
    dsimp only
    exact tokenizeF_to_tokenize _ r (by omega)
  | some t =>
    rw [hth]
    dsimp only
    rw [tokenizeF_to_tokenize (rest.length + 1) r (by omega)]
    rfl

theorem tokenize_replicate_rbrace : ∀ b : Nat,
    tokenize (List.replicate b '}') = some (List.replicate b Tok.rbrace) := by
  intro b
  induction b with
  | zero => rfl
  | succ b ih =>
    rw [List.replicate_succ,
      tokenize_cons_step '}' (List.replicate b '}') (some Tok.rbrace)
        (List.replicate b '}') rfl, ih]
    simp [List.replicate_succ]

theorem tokenize_plainClosers : ∀ a b : Nat,
    tokenize (plainClosers a b) = some (closerToks a b) := by
  intro a b
  induction a with
  | zero =>
    unfold plainClosers closerToks
    simpa using tokenize_replicate_rbrace b
  | succ a ih =>
    unfold plainClosers at ih ⊢
    rw [List.replicate_succ, List.cons_append,
      tokenize_cons_step ']' _ (some Tok.rbrack) _ rfl, ih]
    unfold closerToks
    simp [List.replicate_succ]

theorem wsClosers_succ_a (a b : Nat) :
    wsClosers (a + 1) b = '\n' :: ' ' :: ' ' :: ']' :: wsClosers a b := by
  simp [wsClosers, List.replicate_succ]

theorem wsClosers_zero_succ (b : Nat) :
    wsClosers 0 (b + 1) = '\n' :: '}' :: wsClosers 0 b := by
  simp [wsClosers, List.replicate_succ]

theorem tokenize_wsClosers : ∀ a b : Nat,
    tokenize (wsClosers a b) = some (closerToks a b) := by
  intro a b
  induction a with
  | zero =>
    induction b with
    | zero => rfl
    | succ b ihb =>
      rw [wsClosers_zero_succ,
        tokenize_cons_step '\n' _ none _ rfl,
        tokenize_cons_step '}' _ (some Tok.rbrace) _ rfl, ihb]
      unfold closerToks
      simp [List.replicate_succ]
  | succ a ih =>
    rw [wsClosers_succ_a,
      tokenize_cons_step '\n' _ none _ rfl,
      tokenize_cons_step ' ' _ none _ rfl,
      tokenize_cons_step ' ' _ none _ rfl,
      tokenize_cons_step ']' _ (some Tok.rbrack) _ rfl, ih]
    unfold closerToks
    simp [List.replicate_succ]

theorem wsClosers_head_inert (a b : Nat) :
    ∀ d, (wsClosers a b).head? = some d → isNumTailChar d = false := by
  intro d hd
  cases a with
  | succ a =>
    rw [wsClosers_succ_a] at hd
    cases Option.some.inj hd
    decide
  | zero =>
    cases b with
    | zero => exact absurd hd (by simp [wsClosers])
    | succ b =>
      rw [wsClosers_zero_succ] at hd
      cases Option.some.inj hd
      decide

theorem plainClosers_head_inert (a b : Nat) :
    ∀ d, (plainClosers a b).head? = some d → isNumTailChar d = false := by
  intro d hd
  cases a with
  | succ a =>
    rw [show plainClosers (a + 1) b = ']' :: plainClosers a b from by
      simp [plainClosers, List.replicate_succ]] at hd
    cases Option.some.inj hd
    decide
  | zero =>
    cases b with
    | zero => exact absurd hd (by simp [plainClosers])
    | succ b =>
      rw [show plainClosers 0 (b + 1) = '}' :: plainClosers 0 b from by
        simp [plainClosers, List.replicate_succ]] at hd
      cases Option.some.inj hd
      decide

theorem subTrailingCommaWs_id (cs : List Char)
    (h : ∀ c, cs.getLast? = some c → isPySpace c = false ∧ (c = ',') = false) :
    subTrailingCommaWs cs = cs := by
  unfold subTrailingCommaWs
  have hds : cs.reverse.dropWhile isPySpace = cs.reverse := by
    cases hrev : cs.reverse with
    | nil => rfl
    | cons c rest =>
      rw [List.dropWhile_cons, if_neg]
      have hc : cs.getLast? = some c := by
        rw [List.getLast?_eq_head?_reverse, hrev]
        rfl
      simp [(h c hc).1]
  rw [hds]
  rcases hrev : cs.reverse with _ | ⟨c, rest⟩
  · rfl
  · have hc : cs.getLast? = some c := by
      rw [List.getLast?_eq_head?_reverse, hrev]
      rfl
    have hcomma := (h c hc).2
    split
    · rename_i r2 heq
      injection heq with hh1 hh2
      rw [hh1] at hcomma
      simp at hcomma
    · rfl

/-- C5 (amended): when the brace and bracket counts balance, soft repair
returns the text unchanged; when they do not balance (for a candidate
with no surrounding whitespace, no dangling comma, and a tokenizable
body) the repair appends all missing `]` closers before all missing `}`
closers, each on its own line, and the repaired text parses exactly as
the original text followed by `]` times the bracket deficit and then `}`
times the brace deficit -- not as the text completed in nesting order. -/
theorem c5_soft_repair :
    (∀ content : String,
      content.data.count '{' = content.data.count '}' →
      content.data.count '[' = content.data.count ']' →
      repair_incomplete_json content = content)
    ∧ (∀ (content : String) (T : List Tok),
      ¬(content.data.count '{' = content.data.count '}'
          ∧ content.data.count '[' = content.data.count ']') →
      pyStripList content.data = content.data →
      (∀ c, content.data.getLast? = some c →
        isPySpace c = false ∧ (c = ',') = false) →
      tokenize content.data = some T →
      repair_incomplete_json content =
          String.mk (content.data
            ++ wsClosers (content.data.count '[' - content.data.count ']')
              (content.data.count '{' - content.data.count '}'))
        ∧ tokenize (repair_incomplete_json content).data =
            some (T ++ closerToks
              (content.data.count '[' - content.data.count ']')
              (content.data.count '{' - content.data.count '}'))
        ∧ jsonParse (repair_incomplete_json content) =
            jsonParse (String.mk (content.data
              ++ plainClosers (content.data.count '[' - content.data.count ']')
                (content.data.count '{' - content.data.count '}')))) := by
  constructor
  · intro content h1 h2
    unfold repair_incomplete_json
    rw [if_pos]
    simp [h1, h2]
  · intro content T hne hstrip hlast htok
    have hrep : repair_incomplete_json content =
        String.mk (content.data
          ++ wsClosers (content.data.count '[' - content.data.count ']')
            (content.data.count '{' - content.data.count '}')) := by
      unfold repair_incomplete_json
      rw [if_neg (by simpa using hne)]
      rw [hstrip, subTrailingCommaWs_id content.data hlast]
      simp [wsClosers, List.append_assoc]
    have htokr : tokenize (content.data
        ++ wsClosers (content.data.count '[' - content.data.count ']')
          (content.data.count '{' - content.data.count '}')) =
        some (T ++ closerToks
          (content.data.count '[' - content.data.count ']')
          (content.data.count '{' - content.data.count '}')) :=
      tokenize_append _ _ (wsClosers_head_inert _ _) (tokenize_wsClosers _ _)
        content.data.length content.data T (Nat.le_refl _) htok
    have htokp : tokenize (content.data
        ++ plainClosers (content.data.count '[' - content.data.count ']')
          (content.data.count '{' - content.data.count '}')) =
        some (T ++ closerToks
          (content.data.count '[' - content.data.count ']')
          (content.data.count '{' - content.data.count '}')) :=
      tokenize_append _ _ (plainClosers_head_inert _ _)
        (tokenize_plainClosers _ _)
        content.data.length content.data T (Nat.le_refl _) htok
    refine ⟨hrep, ?_, ?_⟩
    · rw [hrep]
      exact htokr
    · rw [hrep]
      unfold jsonParse
      rw [show (String.mk (content.data
          ++ wsClosers (content.data.count '[' - content.data.count ']')
            (content.data.count '{' - content.data.count '}'))).data
          = content.data
            ++ wsClosers (content.data.count '[' - content.data.count ']')
              (content.data.count '{' - content.data.count '}') from rfl]
      rw [show (String.mk (content.data
          ++ plainClosers (content.data.count '[' - content.data.count ']')
            (content.data.count '{' - content.data.count '}'))).data
          = content.data
            ++ plainClosers (content.data.count '[' - content.data.count ']')
              (content.data.count '{' - content.data.count '}') from rfl]
      rw [htokr, htokp]

def c5TruncToks : List Tok :=
  [Tok.lbrace, Tok.tstr "a", Tok.colon, Tok.lbrack, Tok.lbrace,
   Tok.tstr "b", Tok.colon, Tok.tint 1]

theorem c5_soft_repair_witness :
    repair_incomplete_json "\x7b\x7d" = "\x7b\x7d"
      ∧ repair_incomplete_json c5Trunc =
          String.mk (c5Trunc.data ++ wsClosers 1 2)
      ∧ jsonParse (repair_incomplete_json c5Trunc) =
          jsonParse (String.mk (c5Trunc.data ++ plainClosers 1 2)) := by
  have hlast : ∀ c, c5Trunc.data.getLast? = some c →
      isPySpace c = false ∧ (c = ',') = false := by
    intro c hc
    have h1 : c5Trunc.data.getLast? = some '1' := by decide
    rw [h1] at hc
    cases Option.some.inj hc
    decide
  have h2 := c5_soft_repair.2 c5Trunc c5TruncToks
    (by decide) (by decide) hlast (by decide)
  exact ⟨c5_soft_repair.1 "\x7b\x7d" (by decide) (by decide), h2.1, h2.2.2⟩

/-! ### C1 instance: prepopulated caches, a model that always fails, ten
segments above the merge threshold -/

def tSeg (i : Nat) : String :=
  "segment " ++ toString i ++ " " ++ String.mk (List.replicate 110 'a')

def qSeg (i : Nat) : QA :=
  ⟨"What is topic " ++ toString i ++ "?", "Answer " ++ toString i⟩

def cSeg (i : Nat) : Chunk :=
  { text := tSeg i, qa_pairs := [qSeg i], char_count := 120 }

def qaCache0 : List (String × List QA) :=
  (List.range 10).foldl (fun c i => cacheInsert c (cache_key (tSeg i)) [qSeg i]) []

def mergeCache0 : List (String × (Json × Json)) :=
  (List.range 9).foldl
    (fun c i => cacheInsert c (merge_cache_key (cSeg 0) (cSeg (i + 1)))
      (.jbool true, .jstr "related")) []

def errModel : ModelFn := fun _ => .error ()

def c1Segments : List String := (List.range 10).map tSeg

set_option maxRecDepth 100000

/-- C1 (counterexample): with every extraction and merge decision
pre-cached (the model is never invoked: zero extraction calls and zero
merge calls in both modes), the synchronous entry point returns two
chunks while the asynchronous entry point returns one — the async mode
forms every merge candidate against the initial tail chunk and applies
all decisions only after the gather, so its later batches are decided
against a different tail value than in the sequential mode. -/
theorem c1_counterexample_sync_async_diverge :
    (chunk_segments qaCache0 mergeCache0 errModel c1Segments).chunks.length = 2
    ∧ (chunk_segments_async qaCache0 mergeCache0 errModel c1Segments).chunks.length = 1
    ∧ (chunk_segments qaCache0 mergeCache0 errModel c1Segments).extractCalls = 0
    ∧ (chunk_segments qaCache0 mergeCache0 errModel c1Segments).mergeCalls = 0
    ∧ (chunk_segments_async qaCache0 mergeCache0 errModel c1Segments).mergeCalls = 0 := by
  decide

/-- C1 (amended): the two entry points share their per-batch extraction
semantics and agree in full whenever the merge phase is skipped — on
empty input, when no segment passes the length filter, when no segment
yields QA pairs, and when the segment-chunk count is below
`skip_merge_threshold` (equivalently, whenever the returned
`segmentRefs` count is below the threshold).  Above the threshold the
merge phases structurally differ (see the counterexample): the
synchronous loop decides each batch against the current, already-merged
tail, while the async loop forms every candidate against the initial
tail and applies all decisions after the gather. -/
theorem c1_below_threshold_agree (qaCache : List (String × List QA))
    (mergeCache : List (String × (Json × Json))) (model : ModelFn)
    (segments : List String)
    (h : (chunk_segments qaCache mergeCache model segments).segmentRefs.length
      < skip_merge_threshold) :
    chunk_segments qaCache mergeCache model segments
      = chunk_segments_async qaCache mergeCache model segments := by
  unfold chunk_segments at h ⊢
  unfold chunk_segments_async
  by_cases h1 : segments.isEmpty = true
  · rw [if_pos h1, if_pos h1]
  · rw [if_neg h1] at h ⊢
    rw [if_neg h1]
    dsimp only at h ⊢
    by_cases h2 : ((segments.filter fun s => min_chunk_size ≤ pyLen s)).isEmpty = true
    · rw [if_pos h2, if_pos h2]
    · rw [if_neg h2] at h ⊢
      rw [if_neg h2]
      rcases hrb : runExtractionBatches qaCache model
          (chunksOf batch_size (segments.filter fun s => min_chunk_size ≤ pyLen s))
        with ⟨allQa, qaCache1, ecalls⟩
      rw [hrb] at h
      dsimp only at h ⊢
      by_cases h3 : (segmentChunksOf
          (segments.filter fun s => min_chunk_size ≤ pyLen s) allQa).isEmpty = true
      · rw [if_pos h3, if_pos h3]
      · rw [if_neg h3] at h ⊢
        rw [if_neg h3]
        by_cases h4 : (segmentChunksOf
            (segments.filter fun s => min_chunk_size ≤ pyLen s) allQa).length
            < skip_merge_threshold
        · rw [if_pos h4, if_pos h4]
        · rw [if_neg h4] at h
          dsimp only at h
          rw [List.length_range] at h
          exact absurd h h4

theorem c1_below_threshold_agree_witness :
    (chunk_segments [] [] errModel [tSeg 0]).segmentRefs.length
        < skip_merge_threshold
      ∧ chunk_segments [] [] errModel [tSeg 0]
        = chunk_segments_async [] [] errModel [tSeg 0] :=
  ⟨by decide, c1_below_threshold_agree [] [] errModel [tSeg 0] (by decide)⟩

theorem cacheLookup_map_overwrite {α : Type} (c : List (String × α)) (k : String)
    (v : α) (hany : c.any (fun p => p.1 = k) = true) :
    cacheLookup (c.map (fun p => if p.1 = k then (p.1, v) else p)) k = some v := by
  induction c with
  | nil => simp at hany
  | cons p cs ih =>
    by_cases hp : p.1 = k
    · simp [cacheLookup, List.find?, hp]
    · have hcs : cs.any (fun p => p.1 = k) = true := by
        simp [List.any_cons, hp] at hany
        simpa using hany
      simp only [List.map_cons, if_neg hp]
      simp only [cacheLookup, List.find?] at ih ⊢
      rw [show (decide (p.1 = k)) = false from by simp [hp]]
      exact ih hcs

theorem cacheLookup_append_single {α : Type} (c : List (String × α)) (k : String)
    (v : α) (hany : c.any (fun p => p.1 = k) = false) :
    cacheLookup (c ++ [(k, v)]) k = some v := by
  induction c with
  | nil => simp [cacheLookup, List.find?]
  | cons p cs ih =>
    rw [List.any_cons, Bool.or_eq_false_iff] at hany
    obtain ⟨ha1, ha2⟩ := hany
    simp only [cacheLookup, List.cons_append, List.find?] at ih ⊢
    rw [ha1]
    exact ih ha2

theorem cacheLookup_insert_self {α : Type} (c : List (String × α)) (k : String)
    (v : α) : cacheLookup (cacheInsert c k v) k = some v := by
  unfold cacheInsert
  by_cases hany : c.any (fun p => p.1 = k) = true
  · rw [if_pos hany]
    exact cacheLookup_map_overwrite c k v hany
  · rw [if_neg hany]
    exact cacheLookup_append_single c k v
      (by simp only [Bool.not_eq_true] at hany; exact hany)

theorem extract_single_cached (qaCache : List (String × List QA))
    (model : ModelFn) (t : String) (v : List QA)
    (hc : cacheLookup qaCache (cache_key t) = some v) :
    extract_qa_pairs_batch qaCache model [t] = ⟨[v], qaCache, 0, false⟩ := by
  unfold extract_qa_pairs_batch
  rw [if_neg (by simp)]
  dsimp only
  rw [show ([t].filter fun s => (cacheLookup qaCache (cache_key s)).isNone)
      = [] from by simp [List.filter, hc]]
  simp [fillResults, hc]

theorem extract_single_uncached_err (qaCache : List (String × List QA))
    (model : ModelFn) (t : String)
    (hc : cacheLookup qaCache (cache_key t) = none)
    (hb : extractBody [t] model = .error ()) :
    extract_qa_pairs_batch qaCache model [t] = ⟨[[]], qaCache, 1, false⟩ := by
  unfold extract_qa_pairs_batch
  rw [if_neg (by simp)]
  dsimp only
  rw [show ([t].filter fun s => (cacheLookup qaCache (cache_key s)).isNone)
      = [t] from by simp [List.filter, hc]]
  rw [if_neg (by simp), hb]
  simp [fillResults, hc]

theorem extract_single_uncached_ok_nil (qaCache : List (String × List QA))
    (model : ModelFn) (t : String)
    (hc : cacheLookup qaCache (cache_key t) = none)
    (hb : extractBody [t] model = .ok []) :
    extract_qa_pairs_batch qaCache model [t] = ⟨[[]], qaCache, 1, true⟩ := by
  unfold extract_qa_pairs_batch
  rw [if_neg (by simp)]
  dsimp only
  rw [show ([t].filter fun s => (cacheLookup qaCache (cache_key s)).isNone)
      = [t] from by simp [List.filter, hc]]
  rw [if_neg (by simp), hb]
  simp [fillResults, hc, insertAllQa]

theorem extract_single_uncached_ok_cons (qaCache : List (String × List QA))
    (model : ModelFn) (t : String) (p0 : List QA) (ps : List (List QA))
    (hc : cacheLookup qaCache (cache_key t) = none)
    (hb : extractBody [t] model = .ok (p0 :: ps)) :
    extract_qa_pairs_batch qaCache model [t]
      = ⟨[p0], cacheInsert qaCache (cache_key t) p0, 1, true⟩ := by
  unfold extract_qa_pairs_batch
  rw [if_neg (by simp)]
  dsimp only
  rw [show ([t].filter fun s => (cacheLookup qaCache (cache_key s)).isNone)
      = [t] from by simp [List.filter, hc]]
  rw [if_neg (by simp), hb]
  simp [fillResults, hc, insertAllQa, List.zip]

/-- C7: for a segment text whose result the first
`extract_qa_pairs_batch` call has left in the cache (whether it was
already cached or was extracted and stored by that call), a second call
on the identical text performs zero model invocations, does not touch
the cache, and returns exactly the first call\x27s QA pair list. -/
theorem c7_extract_idempotent (qaCache : List (String × List QA))
    (model : ModelFn) (t : String)
    (h : (cacheLookup (extract_qa_pairs_batch qaCache model [t]).qaCache
      (cache_key t)).isSome = true) :
    extract_qa_pairs_batch
        (extract_qa_pairs_batch qaCache model [t]).qaCache model [t]
      = ⟨(extract_qa_pairs_batch qaCache model [t]).results,
         (extract_qa_pairs_batch qaCache model [t]).qaCache, 0, false⟩ := by
  rcases hc : cacheLookup qaCache (cache_key t) with _ | v
  · rcases hb : extractBody [t] model with e | per
    · cases e
      rw [extract_single_uncached_err qaCache model t hc hb] at h ⊢
      dsimp only at h
      rw [hc] at h
      simp at h
    · cases per with
      | nil =>
        rw [extract_single_uncached_ok_nil qaCache model t hc hb] at h ⊢
        dsimp only at h
        rw [hc] at h
        simp at h
      | cons p0 ps =>
        rw [extract_single_uncached_ok_cons qaCache model t p0 ps hc hb]
        dsimp only
        rw [extract_single_cached _ model t p0 (cacheLookup_insert_self qaCache _ p0)]
  · rw [extract_single_cached qaCache model t v hc]
    dsimp only
    rw [extract_single_cached qaCache model t v hc]

def c7T : String := "ab"

def c7Cache : List (String × List QA) :=
  [(cache_key c7T, [⟨"What is ab?", "The first two letters."⟩])]

theorem c7_extract_idempotent_witness :
    (cacheLookup (extract_qa_pairs_batch c7Cache errModel [c7T]).qaCache
        (cache_key c7T)).isSome = true
      ∧ extract_qa_pairs_batch
          (extract_qa_pairs_batch c7Cache errModel [c7T]).qaCache errModel [c7T]
        = ⟨(extract_qa_pairs_batch c7Cache errModel [c7T]).results,
           (extract_qa_pairs_batch c7Cache errModel [c7T]).qaCache, 0, false⟩ :=
  ⟨by decide, c7_extract_idempotent c7Cache errModel c7T (by decide)⟩

def okResp (s : String) : Except Unit ModelResp := .ok ⟨.pstr s⟩

/-- A model whose single response parses into one segment with three QA
candidates. -/
def mockModel : ModelFn := fun _ => okResp "\x7b\"segments\": [\x7b\"segment_id\": 0, \"qa_pairs\": [\x7b\"question\": \"What is mitosis?\", \"answer\": \"Cell division.\"\x7d, \x7b\"question\": \"Hi?\", \"answer\": \"xx\"\x7d, \x7b\"question\": \"What is it about?\", \"answer\": \"None\"\x7d]\x7d]\x7d"

/-- A model whose response contains no JSON object at all. -/
def badModel : ModelFn := fun _ => okResp "total garbage with no json"

def t0 : String := "Some segment text that is long enough to be processed by the pipeline."

/-- C6 (counterexample): when the batch fails to parse, the uncached
segment\x27s empty result is NOT stored in the cache — the cache stays
empty and a second call on the identical text invokes the model again. -/
theorem c6_counterexample_failure_not_cached :
    (extract_qa_pairs_batch [] badModel [t0]).results = [[]]
    ∧ (extract_qa_pairs_batch [] badModel [t0]).calls = 1
    ∧ (extract_qa_pairs_batch [] badModel [t0]).qaCache = []
    ∧ (extract_qa_pairs_batch
        (extract_qa_pairs_batch [] badModel [t0]).qaCache badModel [t0]).calls
      = 1 := by
  decide

theorem cacheLookup_isSome_any {α : Type} (c : List (String × α)) (k : String) :
    (cacheLookup c k).isSome = c.any (fun p => p.1 = k) := by
  induction c with
  | nil => rfl
  | cons p cs ih =>
    simp only [cacheLookup, List.find?, List.any_cons]
    by_cases hp : p.1 = k
    · rw [show (decide (p.1 = k)) = true from by simp [hp]]
      simp
    · rw [show (decide (p.1 = k)) = false from by simp [hp]]
      simp only [Bool.false_or]
      simp only [cacheLookup] at ih
      exact ih

theorem any_map_overwrite {α : Type} (c : List (String × α)) (k k2 : String)
    (v : α) :
    (c.map (fun p => if p.1 = k then (p.1, v) else p)).any (fun p => p.1 = k2)
      = c.any (fun p => p.1 = k2) := by
  induction c with
  | nil => rfl
  | cons q cs ih =>
    simp only [List.map_cons, List.any_cons, ih]
    congr 1
    by_cases hq : q.1 = k <;> simp [hq]

theorem cacheInsert_any {α : Type} (c : List (String × α)) (k : String) (v : α)
    (k2 : String) :
    (cacheInsert c k v).any (fun p => p.1 = k2)
      = (decide (k = k2) || c.any (fun p => p.1 = k2)) := by
  unfold cacheInsert
  split
  · rename_i hany
    rw [any_map_overwrite c k k2 v]
    by_cases hk : k = k2
    · subst hk
      simp [hany]
    · simp [hk]
  · rw [List.any_append]
    simp [Bool.or_comm]

theorem insertAllQa_any (c : List (String × List QA))
    (ps : List (String × List QA)) (k2 : String) :
    (insertAllQa c ps).any (fun p => p.1 = k2)
      = (c.any (fun p => p.1 = k2) || ps.any (fun p => p.1 = k2)) := by
  unfold insertAllQa
  induction ps generalizing c with
  | nil => simp
  | cons p rest ih =>
    simp only [List.foldl_cons, List.any_cons]
    rw [ih (cacheInsert c p.1 p.2), cacheInsert_any]
    cases (decide (p.1 = k2)) <;> simp

theorem extractBody_ok_length (u : List String) (model : ModelFn)
    (per : List (List QA)) (hb : extractBody u model = .ok per) :
    per.length = u.length := by
  unfold extractBody at hb
  simp only [bind, Except.bind, pure, Except.pure] at hb
  repeat' split at hb
  all_goals cases hb
  all_goals simp

/-- C6 (amended): a call to extract_qa_pairs_batch stores results in the
QA cache only when the batch response parses (batchParsed = true), and
then every segment of the call — in particular every segment uncached at
entry — ends up cached under its content hash; when the batch fails
(batchParsed = false: model error, unusable content, or JSON that
survives neither repair) the cache is left unchanged, so the empty
results of the uncached segments are NOT stored and a later call on an
identical segment invokes the model again. -/
theorem c6_caching_characterization (qaCache : List (String × List QA))
    (model : ModelFn) (texts : List String) :
    ((extract_qa_pairs_batch qaCache model texts).batchParsed = false →
      (extract_qa_pairs_batch qaCache model texts).qaCache = qaCache)
    ∧ ((extract_qa_pairs_batch qaCache model texts).batchParsed = true →
      ∀ t ∈ texts,
        (cacheLookup (extract_qa_pairs_batch qaCache model texts).qaCache
          (cache_key t)).isSome = true) := by
  unfold extract_qa_pairs_batch
  by_cases h1 : texts.isEmpty = true
  · rw [if_pos h1]
    refine ⟨fun _ => rfl, fun _ t ht => ?_⟩
    rw [List.isEmpty_iff.mp h1] at ht
    simp at ht
  · rw [if_neg h1]
    dsimp only
    by_cases h2 : ((texts.filter fun t =>
        (cacheLookup qaCache (cache_key t)).isNone)).isEmpty = true
    · rw [if_pos h2]
      refine ⟨fun _ => rfl, fun hp => ?_⟩
      exact absurd hp (by simp)
    · rw [if_neg h2]
      rcases hb : extractBody (texts.filter fun t =>
          (cacheLookup qaCache (cache_key t)).isNone) model with e | per
      · exact ⟨fun _ => rfl, fun hp => absurd hp (by simp)⟩
      · refine ⟨fun hp => absurd hp (by simp), fun _ t ht => ?_⟩
        dsimp only
        rw [cacheLookup_isSome_any, insertAllQa_any]
        by_cases hct : (cacheLookup qaCache (cache_key t)).isNone = true
        · have hmem : t ∈ texts.filter (fun t =>
              (cacheLookup qaCache (cache_key t)).isNone) :=
            List.mem_filter.mpr ⟨ht, by simpa using hct⟩
          have hkey : cache_key t ∈ (texts.filter (fun t =>
              (cacheLookup qaCache (cache_key t)).isNone)).map cache_key :=
            List.mem_map_of_mem cache_key hmem
          have hlen : ((texts.filter (fun t =>
                (cacheLookup qaCache (cache_key t)).isNone)).map cache_key).length
              ≤ per.length := by
            rw [extractBody_ok_length _ model per hb]
            simp
          have hz : (((texts.filter (fun t =>
                (cacheLookup qaCache (cache_key t)).isNone)).map cache_key).zip
                per).map Prod.fst
              = (texts.filter (fun t =>
                (cacheLookup qaCache (cache_key t)).isNone)).map cache_key :=
            List.map_fst_zip _ _ hlen
          rw [← hz] at hkey
          obtain ⟨x, hxmem, hx1⟩ := List.mem_map.mp hkey
          have hany2 : ((((texts.filter (fun t =>
                (cacheLookup qaCache (cache_key t)).isNone)).map cache_key).zip
                per)).any (fun p => p.1 = cache_key t) = true :=
            List.any_eq_true.mpr ⟨x, hxmem, by simp [hx1]⟩
          rw [hany2]
          simp
        · have hsome : (cacheLookup qaCache (cache_key t)).isSome = true := by
            cases hl : cacheLookup qaCache (cache_key t) with
            | none => rw [hl] at hct; simp at hct
            | some v => rfl
          rw [cacheLookup_isSome_any] at hsome
          rw [hsome]
          simp

theorem c6_caching_characterization_witness :
    ((extract_qa_pairs_batch [] badModel [t0]).batchParsed = false
        ∧ (extract_qa_pairs_batch [] badModel [t0]).qaCache = [])
      ∧ ((extract_qa_pairs_batch [] mockModel [t0]).batchParsed = true
        ∧ (cacheLookup (extract_qa_pairs_batch [] mockModel [t0]).qaCache
            (cache_key t0)).isSome = true) :=
  ⟨⟨by decide, (c6_caching_characterization [] badModel [t0]).1 (by decide)⟩,
   ⟨by decide, (c6_caching_characterization [] mockModel [t0]).2 (by decide)
      t0 (by decide)⟩⟩

/-- C2: the document pipeline surfaces an error exactly when the input
bytes fail strict UTF-8 decoding or when no QA pair survives extraction
plus document-level filtering (an empty extracted set makes the filtered
set empty as well); for every other input and every model behavior —
including models that always raise and responses that never parse — it
returns the filtered pair list and propagates no exception. -/
theorem c2_error_characterization (fileContent : List Nat) (model : ModelFn) :
    ((∃ msg, process_text_file_to_flashcards fileContent model = .error msg)
      ↔ (utf8Decode fileContent = none
        ∨ ∃ text, utf8Decode fileContent = some text
          ∧ filter_qa_pairs (get_all_qa_pairs
              (chunk_text_async [] [] model text).chunks) = []))
    ∧ (∀ text, utf8Decode fileContent = some text →
      filter_qa_pairs (get_all_qa_pairs
          (chunk_text_async [] [] model text).chunks) ≠ [] →
      process_text_file_to_flashcards fileContent model
        = .ok (filter_qa_pairs (get_all_qa_pairs
            (chunk_text_async [] [] model text).chunks))) := by
  unfold process_text_file_to_flashcards
  rcases hd : utf8Decode fileContent with _ | text
  · refine ⟨⟨fun _ => Or.inl rfl, fun _ => ⟨_, rfl⟩⟩, fun text ht => ?_⟩
    cases ht
  · dsimp only
    have hfilter_nil : get_all_qa_pairs (chunk_text_async [] [] model text).chunks
          = [] →
        filter_qa_pairs (get_all_qa_pairs
          (chunk_text_async [] [] model text).chunks) = [] := by
      intro h
      rw [h]
      rfl
    by_cases h1 : (get_all_qa_pairs (chunk_text_async [] [] model text).chunks).isEmpty = true
    · rw [if_pos h1]
      refine ⟨⟨fun _ => Or.inr ⟨text, rfl, ?_⟩, fun _ => ⟨_, rfl⟩⟩,
        fun text2 ht2 hne => ?_⟩
      · exact hfilter_nil (List.isEmpty_iff.mp h1)
      · cases Option.some.inj ht2
        exact absurd (hfilter_nil (List.isEmpty_iff.mp h1)) hne
    · rw [if_neg h1]
      by_cases h2 : (filter_qa_pairs (get_all_qa_pairs
          (chunk_text_async [] [] model text).chunks)).isEmpty = true
      · rw [if_pos h2]
        refine ⟨⟨fun _ => Or.inr ⟨text, rfl, List.isEmpty_iff.mp h2⟩,
          fun _ => ⟨_, rfl⟩⟩, fun text2 ht2 hne => ?_⟩
        cases Option.some.inj ht2
        exact absurd (List.isEmpty_iff.mp h2) hne
      · rw [if_neg h2]
        refine ⟨⟨fun he => ?_, fun hr => ?_⟩, fun text2 ht2 hne => ?_⟩
        · obtain ⟨msg, hmsg⟩ := he
          cases hmsg
        · rcases hr with h | ⟨text2, ht2, hf⟩
          · cases h
          · cases Option.some.inj ht2
            exact absurd hf (by simpa using h2)
        · cases Option.some.inj ht2
          rfl

theorem c2_error_characterization_witness :
    utf8Decode (utf8Encode t0) = some t0
      ∧ filter_qa_pairs (get_all_qa_pairs
          (chunk_text_async [] [] mockModel t0).chunks) ≠ []
      ∧ process_text_file_to_flashcards (utf8Encode t0) mockModel
        = .ok (filter_qa_pairs (get_all_qa_pairs
            (chunk_text_async [] [] mockModel t0).chunks)) :=
  ⟨by decide, by decide,
   (c2_error_characterization (utf8Encode t0) mockModel).2 t0 (by decide)
     (by decide)⟩

theorem mergePartition_ups_length (cache : List (String × (Json × Json))) :
    ∀ (i0 : Nat) (pairs : List (Chunk × Chunk)),
      ((mergePartitionAux cache i0 pairs).1.countP (·.isNone))
        = (mergePartitionAux cache i0 pairs).2.1.length := by
  intro i0 pairs
  induction pairs generalizing i0 with
  | nil => rfl
  | cons p rest ih =>
    rcases p with ⟨c1, c2⟩
    unfold mergePartitionAux
    rcases hrec : mergePartitionAux cache (i0 + 1) rest with ⟨ros, ups, uks, uis⟩
    have ih2 := ih (i0 + 1)
    rw [hrec] at ih2
    dsimp only at ih2 ⊢
    by_cases h1 : (c1.qa_pairs.isEmpty || c2.qa_pairs.isEmpty) = true
    · rw [if_pos h1]
      simpa [List.countP_cons] using ih2
    · rw [if_neg h1]
      by_cases h2 : (max_chunk_size < pyLen c1.text + pyLen c2.text)
      · rw [if_pos h2]
        simpa [List.countP_cons] using ih2
      · rw [if_neg h2]
        rcases hl : cacheLookup cache (merge_cache_key c1 c2) with _ | d
        · dsimp only
          simpa [List.countP_cons] using ih2
        · dsimp only
          simpa [List.countP_cons] using ih2

theorem fillSlots_none_const {α : Type} (dv c : α) :
    ∀ (slots : List (Option α)) (us : List α),
      slots.countP (·.isNone) = us.length → (∀ u ∈ us, u = c) →
      ∀ i, slots.get? i = some none →
        (fillSlots dv slots us).get? i = some c := by
  intro slots
  induction slots with
  | nil =>
    intro us hc hall i hi
    simp at hi
  | cons s rest ih =>
    intro us hc hall i hi
    cases s with
    | some v =>
      cases i with
      | zero =>
        rw [List.get?_cons_zero] at hi
        cases Option.some.inj hi
      | succ j =>
        rw [List.get?_cons_succ] at hi
        rw [show fillSlots dv (some v :: rest) us = v :: fillSlots dv rest us
          from rfl, List.get?_cons_succ]
        refine ih us ?_ hall j hi
        simpa [List.countP_cons] using hc
    | none =>
      cases us with
      | nil =>
        rw [List.countP_cons] at hc
        simp at hc
      | cons u us2 =>
        cases i with
        | zero =>
          rw [show fillSlots dv (none :: rest) (u :: us2)
            = u :: fillSlots dv rest us2 from rfl, List.get?_cons_zero]
          rw [hall u (List.mem_cons_self u us2)]
        | succ j =>
          rw [List.get?_cons_succ] at hi
          rw [show fillSlots dv (none :: rest) (u :: us2)
            = u :: fillSlots dv rest us2 from rfl, List.get?_cons_succ]
          refine ih us2 ?_ (fun x hx => hall x (List.mem_cons_of_mem u hx)) j hi
          rw [List.countP_cons] at hc
          simpa using hc

/-- C9: when the merge-comparison model call fails or its response does
not parse into the expected comparisons structure, every pair that was
not decided trivially or from the cache receives the no-merge decision
(`should_merge = false`) with the corresponding failure reason, and the
planner returns normally instead of raising. -/
theorem c9_parse_failure_no_merge (mergeCache : List (String × (Json × Json)))
    (model : ModelFn) (pairs : List (Chunk × Chunk))
    (hfail : mergeBody (mergePartitionAux mergeCache 0 pairs).2.1 model
        = .error ()
      ∨ mergeBody (mergePartitionAux mergeCache 0 pairs).2.1 model
        = .ok .noComparisons) :
    ∀ i, (mergePartitionAux mergeCache 0 pairs).1.get? i = some none →
      ∃ msg, (msg = "Error analyzing chunks" ∨ msg = "Parse error")
        ∧ (should_merge_chunks_batch mergeCache model pairs).decisions.get? i
            = some (.jbool false, .jstr msg) := by
  unfold should_merge_chunks_batch
  by_cases hp : pairs.isEmpty = true
  · intro i hi
    rw [List.isEmpty_iff.mp hp] at hi
    simp [mergePartitionAux] at hi
  · rw [if_neg hp]
    rcases hmp : mergePartitionAux mergeCache 0 pairs with ⟨ros, ups, uks, uis⟩
    rw [hmp] at hfail
    dsimp only at hfail
    have hcount : ros.countP (·.isNone) = ups.length := by
      have h0 := mergePartition_ups_length mergeCache 0 pairs
      rw [hmp] at h0
      exact h0
    intro i hi
    dsimp only at hi ⊢
    by_cases hups : ups.isEmpty = true
    · exfalso
      have hmem : (none : Option (Json × Json)) ∈ ros := List.get?_mem hi
      have hz : ros.countP (·.isNone) = 0 := by
        rw [hcount, List.isEmpty_iff.mp hups]
        rfl
      have := List.countP_eq_zero.mp hz none hmem
      simp at this
    · rw [if_neg hups]
      rcases hfail with hf | hf
      · rw [hf]
        dsimp only
        refine ⟨"Error analyzing chunks", Or.inl rfl, ?_⟩
        refine fillSlots_none_const _ _ ros _ ?_ ?_ i hi
        · rw [hcount]
          simp
        · intro u hu
          obtain ⟨x, -, hx⟩ := List.mem_map.mp hu
          exact hx.symm
      · rw [hf]
        dsimp only
        refine ⟨"Parse error", Or.inr rfl, ?_⟩
        refine fillSlots_none_const _ _ ros _ ?_ ?_ i hi
        · rw [hcount]
          simp
        · intro u hu
          obtain ⟨x, -, hx⟩ := List.mem_map.mp hu
          exact hx.symm

theorem c9_parse_failure_no_merge_witness :
    ∃ msg, (msg = "Error analyzing chunks" ∨ msg = "Parse error")
      ∧ (should_merge_chunks_batch [] badModel
          [(cSeg 0, cSeg 1)]).decisions.get? 0
          = some (.jbool false, .jstr msg) :=
  c9_parse_failure_no_merge [] badModel [(cSeg 0, cSeg 1)]
    (Or.inl rfl) 0 rfl

theorem setIdx_length {α : Type} : ∀ (l : List α) (i : Nat) (v : α),
    (setIdx l i v).length = l.length := by
  intro l
  induction l with
  | nil => intro i v; rfl
  | cons x xs ih =>
    intro i v
    cases i with
    | zero => rfl
    | succ j => simp [setIdx, ih]

theorem getC_setC_self : ∀ (store : List Chunk) (r : Nat) (c : Chunk),
    r < store.length → getC (setC store r c) r = c := by
  intro store
  induction store with
  | nil => intro r c h; simp at h
  | cons x xs ih =>
    intro r c h
    cases r with
    | zero => rfl
    | succ j =>
      have := ih j c (by simpa using h)
      simpa [setC, setIdx, getC] using this

theorem getC_setC_other : ∀ (store : List Chunk) (r : Nat) (c : Chunk)
    (r2 : Nat), ¬r2 = r → getC (setC store r c) r2 = getC store r2 := by
  intro store
  induction store with
  | nil => intro r c r2 h; rfl
  | cons x xs ih =>
    intro r c r2 h
    cases r with
    | zero =>
      cases r2 with
      | zero => exact absurd rfl h
      | succ j2 => rfl
    | succ j =>
      cases r2 with
      | zero => rfl
      | succ j2 =>
        have := ih j c j2 (by omega)
        simpa [setC, setIdx, getC] using this

theorem setC_length (store : List Chunk) (r : Nat) (c : Chunk) :
    (setC store r c).length = store.length := setIdx_length store r c

/-- The in-place merge update performed on the current tail chunk
(chunker.py 663-668 / 799-804). -/
def mergeUpd (t cand : Chunk) (reason : Json) : Chunk :=
  { t with
    text := t.text ++ "\n\n" ++ cand.text,
    qa_pairs := t.qa_pairs ++ cand.qa_pairs,
    char_count := pyLen (t.text ++ "\n\n" ++ cand.text),
    merge_reason := some reason }

theorem beqChunk_split_self (c : Chunk) (h : beqChunk c c = true) :
    beqOptJson c.split_reason c.split_reason = true := by
  unfold beqChunk at h
  simp only [Bool.and_eq_true] at h
  exact h.2

theorem mergeUpd_selfEq (t cand : Chunk) (d : Json)
    (ht : beqChunk t t = true) (hd : pyEqJson d d = true) :
    beqChunk (mergeUpd t cand d) (mergeUpd t cand d) = true := by
  have hsplit := beqChunk_split_self t ht
  unfold beqChunk mergeUpd
  simp only [Bool.and_eq_true]
  refine ⟨⟨⟨⟨?_, ?_⟩, ?_⟩, ?_⟩, ?_⟩
  · simp
  · simp
  · simp
  · simpa [beqOptJson] using hd
  · exact hsplit

theorem applyDecision_merge (st : AsmSt) (pair : Nat × Nat)
    (dec : Json × Json)
    (hg : (pyTruthy dec.1 && beqChunk (getC st.store (st.final.getLastD 0))
      (getC st.store pair.1)) = true) :
    applyDecision st pair dec =
      { st with
        store := setC st.store (st.final.getLastD 0)
          (mergeUpd (getC st.store (st.final.getLastD 0))
            (getC st.store pair.2) dec.2) } := by
  unfold applyDecision
  rw [if_pos hg]
  rfl

theorem foldl_ext_mem {α β : Type} (f g : α → β → α) :
    ∀ (l : List β), (∀ pd ∈ l, ∀ c2, f c2 pd = g c2 pd) →
    ∀ (c : α), l.foldl f c = l.foldl g c := by
  intro l
  induction l with
  | nil => intro h c; rfl
  | cons x xs ih =>
    intro h c
    simp only [List.foldl_cons]
    rw [h x (List.mem_cons_self x xs) c]
    exact ih (fun pd hpd c2 => h pd (List.mem_cons_of_mem x hpd) c2) _

/-- C10: within one synchronous merge batch every pending pair records
the same tail chunk reference, so if every decision of the batch is
truthy (and the recorded reasons and tail are Python-self-equal, which
only `NaN` values can break) the still-the-current-tail guard passes for
every candidate: all of them are merged, in order, into the single
growing tail chunk — the chunk list and the heap slot of every other
reference are untouched, and the tail slot (aliased by the caller\x27s
per-segment chunk list) is mutated in place to the left fold of the
merge update over the batch. -/
theorem c10_same_tail_all_merge (t0 : Nat) :
    ∀ (pairs : List (Nat × Nat)) (decs : List (Json × Json)) (st : AsmSt),
    st.final.getLastD 0 = t0 → t0 < st.store.length →
    decs.length = pairs.length →
    (∀ p ∈ pairs, p.1 = t0 ∧ ¬p.2 = t0) →
    (∀ d ∈ decs, pyTruthy d.1 = true ∧ pyEqJson d.2 d.2 = true) →
    beqChunk (getC st.store t0) (getC st.store t0) = true →
    (applyBatchDecisions st pairs decs).final = st.final
    ∧ (∀ r, ¬r = t0 →
        getC (applyBatchDecisions st pairs decs).store r = getC st.store r)
    ∧ getC (applyBatchDecisions st pairs decs).store t0
      = (pairs.zip decs).foldl
          (fun c pd => mergeUpd c (getC st.store pd.1.2) pd.2.2)
          (getC st.store t0) := by
  intro pairs
  induction pairs with
  | nil =>
    intro decs st hfin hlt hlen hp hd hself
    exact ⟨rfl, fun r hr => rfl, rfl⟩
  | cons p rest ih =>
    intro decs st hfin hlt hlen hp hd hself
    cases decs with
    | nil => simp at hlen
    | cons d drest =>
      obtain ⟨hp1, hp2⟩ := hp p (List.mem_cons_self p rest)
      obtain ⟨hd1, hd2⟩ := hd d (List.mem_cons_self d drest)
      have hguard : (pyTruthy d.1 && beqChunk
          (getC st.store (st.final.getLastD 0)) (getC st.store p.1)) = true := by
        rw [hfin, hp1]
        simp [hd1, hself]
      have hstep : applyBatchDecisions st (p :: rest) (d :: drest)
          = applyBatchDecisions
              { st with
                store := setC st.store t0
                  (mergeUpd (getC st.store t0) (getC st.store p.2) d.2) }
              rest drest := by
        unfold applyBatchDecisions
        rw [show (p :: rest).zip (d :: drest) = (p, d) :: rest.zip drest
          from rfl, List.foldl_cons]
        rw [show applyDecision st (p, d).1 (p, d).2 = applyDecision st p d
          from rfl]
        rw [applyDecision_merge st p d hguard, hfin]
      have hfin1 : ({ st with
          store := setC st.store t0
            (mergeUpd (getC st.store t0) (getC st.store p.2) d.2) }
            : AsmSt).final.getLastD 0 = t0 := hfin
      have hlt1 : t0 < (setC st.store t0
          (mergeUpd (getC st.store t0) (getC st.store p.2) d.2)).length := by
        rw [setC_length]
        exact hlt
      have htail1 : getC (setC st.store t0
          (mergeUpd (getC st.store t0) (getC st.store p.2) d.2)) t0
          = mergeUpd (getC st.store t0) (getC st.store p.2) d.2 :=
        getC_setC_self _ _ _ hlt
      have hself1 : beqChunk (getC (setC st.store t0
          (mergeUpd (getC st.store t0) (getC st.store p.2) d.2)) t0)
          (getC (setC st.store t0
            (mergeUpd (getC st.store t0) (getC st.store p.2) d.2)) t0)
          = true := by
        rw [htail1]
        exact mergeUpd_selfEq _ _ _ hself hd2
      have hother1 : ∀ r, ¬r = t0 → getC (setC st.store t0
          (mergeUpd (getC st.store t0) (getC st.store p.2) d.2)) r
          = getC st.store r :=
        fun r hr => getC_setC_other _ _ _ r hr
      obtain ⟨ihf, iho, iht⟩ := ih drest
        { st with
          store := setC st.store t0
            (mergeUpd (getC st.store t0) (getC st.store p.2) d.2) }
        hfin1 hlt1 (by simpa using hlen)
        (fun q hq => hp q (List.mem_cons_of_mem p hq))
        (fun q hq => hd q (List.mem_cons_of_mem d hq))
        hself1
      refine ⟨?_, ?_, ?_⟩
      · rw [hstep]
        exact ihf
      · intro r hr
        rw [hstep, iho r hr]
        exact hother1 r hr
      · rw [hstep, iht, htail1]
        rw [show ((p :: rest).zip (d :: drest)) = (p, d) :: rest.zip drest
          from rfl, List.foldl_cons]
        refine foldl_ext_mem _ _ _ ?_ _
        intro pd hpd c2
        rcases pd with ⟨q, e⟩
        have hmem : q ∈ rest := (List.of_mem_zip hpd).1
        rw [hother1 q.2 (hp q (List.mem_cons_of_mem p hmem)).2]

def c10St : AsmSt := ⟨[cSeg 0, cSeg 1, cSeg 2], [0], [], 0⟩

def c10Pairs : List (Nat × Nat) := [(0, 1), (0, 2)]

def c10Decs : List (Json × Json) :=
  [(.jbool true, .jstr "related"), (.jbool true, .jstr "same topic")]

theorem c10_same_tail_all_merge_witness :
    (applyBatchDecisions c10St c10Pairs c10Decs).final = c10St.final
    ∧ getC (applyBatchDecisions c10St c10Pairs c10Decs).store 1
        = getC c10St.store 1
    ∧ getC (applyBatchDecisions c10St c10Pairs c10Decs).store 0
        = (c10Pairs.zip c10Decs).foldl
            (fun c pd => mergeUpd c (getC c10St.store pd.1.2) pd.2.2)
            (getC c10St.store 0) := by
  have h := c10_same_tail_all_merge 0 c10Pairs c10Decs c10St (by decide)
    (by decide) (by decide) (by decide) (by decide) (by decide)
  exact ⟨h.1, h.2.1 1 (by decide), h.2.2⟩

/-- In-order concatenation with the blank-line separator used by chunk
merging. -/
def joinTexts : List String → String
  | [] => ""
  | [x] => x
  | x :: xs => x ++ "\n\n" ++ joinTexts xs

theorem joinTexts_concat : ∀ (l : List String) (x : String), l ≠ [] →
    joinTexts (l ++ [x]) = joinTexts l ++ "\n\n" ++ x := by
  intro l
  induction l with
  | nil => intro x h; exact absurd rfl h
  | cons y ys ih =>
    intro x h
    cases ys with
    | nil => rfl
    | cons z zs =>
      have hih := ih x (by simp)
      show y ++ "\n\n" ++ joinTexts ((z :: zs) ++ [x]) = _
      rw [hih, show joinTexts (y :: z :: zs)
        = y ++ "\n\n" ++ joinTexts (z :: zs) from rfl]
      simp [String.append_assoc]

theorem headD_mem : ∀ (l : List Nat), l ≠ [] → l.headD 0 ∈ l := by
  intro l h
  cases l with
  | nil => exact absurd rfl h
  | cons x xs => exact List.mem_cons_self x xs

theorem headD_append : ∀ (l l2 : List Nat), l ≠ [] →
    (l ++ l2).headD 0 = l.headD 0 := by
  intro l l2 h
  cases l with
  | nil => exact absurd rfl h
  | cons x xs => rfl

theorem getLastD_concat_nat : ∀ (l : List Nat) (a d : Nat),
    (l ++ [a]).getLastD d = a := by
  intro l
  induction l with
  | nil => intro a d; rfl
  | cons x xs ih =>
    intro a d
    rw [List.cons_append]
    rw [show (x :: (xs ++ [a])).getLastD d = (xs ++ [a]).getLastD x from by
      cases hxs : xs ++ [a] with
      | nil => exact absurd hxs (by simp)
      | cons y ys => rfl]
    exact ih a x

theorem concat_inj {α : Type} : ∀ (l1 l2 : List α) (a b : α),
    l1 ++ [a] = l2 ++ [b] → l1.length = l2.length → l1 = l2 ∧ a = b := by
  intro l1 l2 a b h hlen
  have h2 := List.append_inj h (by simpa using hlen)
  refine ⟨h2.1, ?_⟩
  have := h2.2
  exact List.cons.inj this |>.1

theorem map_ext_mem {α β : Type} (f g : α → β) :
    ∀ (l : List α), (∀ x ∈ l, f x = g x) → l.map f = l.map g := by
  intro l
  induction l with
  | nil => intro h; rfl
  | cons x xs ih =>
    intro h
    simp only [List.map_cons]
    rw [h x (List.mem_cons_self x xs),
      ih (fun y hy => h y (List.mem_cons_of_mem x hy))]

theorem join_singletons {α : Type} : ∀ (l : List α),
    (l.map (fun x => [x])).flatten = l := by
  intro l
  induction l with
  | nil => rfl
  | cons x xs ih => simp [ih]

theorem map_getC_range (g : Chunk → String) : ∀ (l : List Chunk),
    (List.range l.length).map (fun r => g (getC l r)) = l.map g := by
  intro l
  induction l with
  | nil => rfl
  | cons x xs ih =>
    rw [show (x :: xs).length = xs.length + 1 from rfl, List.range_succ_eq_map]
    simp only [List.map_cons, List.map_map]
    congr 1

theorem map_getC_range_qa (g : Chunk → List QA) : ∀ (l : List Chunk),
    (List.range l.length).map (fun r => g (getC l r)) = l.map g := by
  intro l
  induction l with
  | nil => rfl
  | cons x xs ih =>
    rw [show (x :: xs).length = xs.length + 1 from rfl, List.range_succ_eq_map]
    simp only [List.map_cons, List.map_map]
    congr 1

/-- The contiguous-run invariant of the synchronous merge loop: after the
refs `0..k` have been applied, the runs `rs ++ [cur]` partition `0..k` in
order, the final refs are the run heads, and each final chunk holds the
blank-line join of its run\x27s original texts and the concatenation of
its run\x27s original QA lists; every ref beyond `k` is untouched. -/
def C8Inv (orig : List Chunk) (k : Nat) (st : AsmSt)
    (rs : List (List Nat)) (cur : List Nat) : Prop :=
  (rs ++ [cur]).flatten = List.range (k + 1)
  ∧ cur ≠ []
  ∧ (∀ run ∈ rs, run ≠ [])
  ∧ (∀ run ∈ rs, ∀ r ∈ run, r < cur.headD 0)
  ∧ (∀ r ∈ cur, r ≤ k)
  ∧ st.final = (rs ++ [cur]).map (fun run => run.headD 0)
  ∧ st.final.map (fun f => (getC st.store f).text)
      = (rs ++ [cur]).map (fun run =>
          joinTexts (run.map (fun r => (getC orig r).text)))
  ∧ st.final.map (fun f => (getC st.store f).qa_pairs)
      = (rs ++ [cur]).map (fun run =>
          (run.map (fun r => (getC orig r).qa_pairs)).flatten)
  ∧ (∀ r, k < r → getC st.store r = getC orig r)
  ∧ st.store.length = orig.length

theorem applyDecision_append (st : AsmSt) (pair : Nat × Nat)
    (dec : Json × Json)
    (hg : (pyTruthy dec.1 && beqChunk (getC st.store (st.final.getLastD 0))
      (getC st.store pair.1)) = false) :
    applyDecision st pair dec =
      { st with
        store := setC st.store pair.2
          { getC st.store pair.2 with split_reason := some dec.2 },
        final := st.final ++ [pair.2] } := by
  unfold applyDecision
  have hg2 : ¬(pyTruthy dec.1 && beqChunk
      (getC st.store (st.final.getLastD 0)) (getC st.store pair.1)) = true := by
    rw [hg]
    simp
  rw [if_neg hg2]

theorem c8_step (orig : List Chunk) (k : Nat) (st : AsmSt)
    (rs : List (List Nat)) (cur : List Nat) (a : Nat) (d : Json × Json)
    (hinv : C8Inv orig k st rs cur) (hk : k + 1 < orig.length) :
    ∃ rs2 cur2, C8Inv orig (k + 1) (applyDecision st (a, k + 1) d) rs2 cur2 := by
  obtain ⟨hjoin, hcne, hrsne, hrel, hcurb, hfin, htext, hqa, hfut, hslen⟩ := hinv
  have htailref : st.final.getLastD 0 = cur.headD 0 := by
    rw [hfin, List.map_append]
    exact getLastD_concat_nat _ _ _
  have hcurhead_le : cur.headD 0 ≤ k := hcurb _ (headD_mem cur hcne)
  have hcurhead_lt : cur.headD 0 < st.store.length := by omega
  have hk1lt : k + 1 < st.store.length := by omega
  have hcand : getC st.store (k + 1) = getC orig (k + 1) := hfut _ (by omega)
  have hfinle : ∀ f ∈ st.final, f ≤ k := by
    rw [hfin]
    intro f hf
    obtain ⟨run, hrun, hh⟩ := List.mem_map.mp hf
    rcases List.mem_append.mp hrun with hin | hin
    · have hm : run.headD 0 ∈ run := headD_mem run (hrsne run hin)
      have := hrel run hin _ hm
      omega
    · have hrc : run = cur := by simpa using hin
      subst hrc
      omega
  have htext4 : rs.map (fun run => (getC st.store (run.headD 0)).text)
        ++ [(getC st.store (cur.headD 0)).text]
      = rs.map (fun run => joinTexts (run.map (fun r => (getC orig r).text)))
        ++ [joinTexts (cur.map (fun r => (getC orig r).text))] := by
    have h0 := htext
    rw [hfin, List.map_map] at h0
    rw [List.map_append, List.map_append] at h0
    simpa only [List.map_cons, List.map_nil, Function.comp] using h0
  obtain ⟨htextPre, htextLast⟩ := concat_inj _ _ _ _ htext4 (by simp)
  have hqa4 : rs.map (fun run => (getC st.store (run.headD 0)).qa_pairs)
        ++ [(getC st.store (cur.headD 0)).qa_pairs]
      = rs.map (fun run => (run.map (fun r => (getC orig r).qa_pairs)).flatten)
        ++ [(cur.map (fun r => (getC orig r).qa_pairs)).flatten] := by
    have h0 := hqa
    rw [hfin, List.map_map] at h0
    rw [List.map_append, List.map_append] at h0
    simpa only [List.map_cons, List.map_nil, Function.comp] using h0
  obtain ⟨hqaPre, hqaLast⟩ := concat_inj _ _ _ _ hqa4 (by simp)
  by_cases hcond : (pyTruthy d.1 && beqChunk
      (getC st.store (st.final.getLastD 0)) (getC st.store a)) = true
  · rw [applyDecision_merge st (a, k + 1) d hcond, htailref]
    refine ⟨rs, cur ++ [k + 1], ?_, by simp, hrsne, ?_, ?_, ?_, ?_, ?_, ?_, ?_⟩
    · show ((rs ++ [cur ++ [k + 1]]).flatten) = List.range (k + 1 + 1)
      simp only [List.flatten_append, List.flatten_cons, List.flatten_nil,
        List.append_nil] at hjoin ⊢
      rw [List.range_succ, ← hjoin, List.append_assoc]
    · intro run hrun r hr
      rw [headD_append cur [k + 1] hcne]
      exact hrel run hrun r hr
    · intro r hr
      rcases List.mem_append.mp hr with h | h
      · have := hcurb r h
        omega
      · have : r = k + 1 := by simpa using h
        omega
    · show st.final = (rs ++ [cur ++ [k + 1]]).map (fun run => run.headD 0)
      rw [hfin, List.map_append, List.map_append]
      simp only [List.map_cons, List.map_nil]
      rw [headD_append cur [k + 1] hcne]
    · show st.final.map (fun f => (getC (setC st.store (cur.headD 0)
          (mergeUpd (getC st.store (cur.headD 0))
            (getC st.store (a, k + 1).2) d.2)) f).text) = _
      rw [hfin, List.map_map, List.map_append, List.map_append]
      simp only [List.map_cons, List.map_nil, Function.comp]
      congr 1
      · rw [map_ext_mem _ (fun run => (getC st.store (run.headD 0)).text) rs ?_]
        · exact htextPre
        · intro run hrun
          have hm : run.headD 0 ∈ run := headD_mem run (hrsne run hrun)
          have hlt := hrel run hrun _ hm
          simp only [Function.comp]
          rw [getC_setC_other st.store (cur.headD 0) _ (run.headD 0) (by omega)]
      · congr 1
        rw [getC_setC_self _ _ _ hcurhead_lt]
        show (getC st.store (cur.headD 0)).text ++ "\n\n"
            ++ (getC st.store (k + 1)).text = _
        rw [htextLast, hcand, List.map_append]
        simp only [List.map_cons, List.map_nil]
        rw [joinTexts_concat (cur.map (fun r => (getC orig r).text))
          ((getC orig (k + 1)).text) (by simp [hcne])]
    · show st.final.map (fun f => (getC (setC st.store (cur.headD 0)
          (mergeUpd (getC st.store (cur.headD 0))
            (getC st.store (a, k + 1).2) d.2)) f).qa_pairs) = _
      rw [hfin, List.map_map, List.map_append, List.map_append]
      simp only [List.map_cons, List.map_nil, Function.comp]
      congr 1
      · rw [map_ext_mem _
            (fun run => (getC st.store (run.headD 0)).qa_pairs) rs ?_]
        · exact hqaPre
        · intro run hrun
          have hm : run.headD 0 ∈ run := headD_mem run (hrsne run hrun)
          have hlt := hrel run hrun _ hm
          simp only [Function.comp]
          rw [getC_setC_other st.store (cur.headD 0) _ (run.headD 0) (by omega)]
      · congr 1
        rw [getC_setC_self _ _ _ hcurhead_lt]
        show (getC st.store (cur.headD 0)).qa_pairs
            ++ (getC st.store (k + 1)).qa_pairs = _
        rw [hqaLast, hcand, List.map_append, List.flatten_append]
        simp
    · intro r hr
      rw [getC_setC_other _ _ _ _ (by omega)]
      exact hfut r (by omega)
    · rw [setC_length]
      exact hslen
  · rw [applyDecision_append st (a, k + 1) d (by simpa using hcond)]
    refine ⟨rs ++ [cur], [k + 1], ?_, by simp, ?_, ?_, ?_, ?_, ?_, ?_, ?_, ?_⟩
    · show (((rs ++ [cur]) ++ [[k + 1]]).flatten) = List.range (k + 1 + 1)
      simp only [List.flatten_append, List.flatten_cons, List.flatten_nil,
        List.append_nil] at hjoin ⊢
      rw [List.range_succ, ← hjoin]
    · intro run hrun
      rcases List.mem_append.mp hrun with h | h
      · exact hrsne run h
      · have hrc : run = cur := by simpa using h
        subst hrc
        exact hcne
    · intro run hrun r hr
      show r < ([k + 1] : List Nat).headD 0
      rcases List.mem_append.mp hrun with h | h
      · have := hrel run h r hr
        show r < k + 1
        omega
      · have hrc : run = cur := by simpa using h
        subst hrc
        have := hcurb r hr
        show r < k + 1
        omega
    · intro r hr
      have : r = k + 1 := by simpa using hr
      omega
    · show st.final ++ [(a, k + 1).2]
          = ((rs ++ [cur]) ++ [[k + 1]]).map (fun run => run.headD 0)
      rw [List.map_append, ← hfin]
      rfl
    · show (st.final ++ [(a, k + 1).2]).map (fun f => (getC (setC st.store
          (a, k + 1).2 { getC st.store (a, k + 1).2 with
            split_reason := some d.2 }) f).text) = _
      rw [List.map_append, List.map_append]
      congr 1
      · rw [map_ext_mem _ (fun f => (getC st.store f).text) st.final ?_]
        · rw [htext, List.map_append]
        · intro f hf
          have := hfinle f hf
          rw [getC_setC_other _ _ _ _ (by omega)]
      · simp only [List.map_cons, List.map_nil]
        congr 1
        rw [getC_setC_self _ _ _ hk1lt]
        show (getC st.store (k + 1)).text = _
        rw [hcand]
        rfl
    · show (st.final ++ [(a, k + 1).2]).map (fun f => (getC (setC st.store
          (a, k + 1).2 { getC st.store (a, k + 1).2 with
            split_reason := some d.2 }) f).qa_pairs) = _
      rw [List.map_append, List.map_append]
      congr 1
      · rw [map_ext_mem _ (fun f => (getC st.store f).qa_pairs) st.final ?_]
        · rw [hqa, List.map_append]
        · intro f hf
          have := hfinle f hf
          rw [getC_setC_other _ _ _ _ (by omega)]
      · simp only [List.map_cons, List.map_nil]
        congr 1
        rw [getC_setC_self _ _ _ hk1lt]
        show (getC st.store (k + 1)).qa_pairs = _
        rw [hcand]
        simp
    · intro r hr
      rw [getC_setC_other _ _ _ _ (by omega)]
      exact hfut r (by omega)
    · rw [setC_length]
      exact hslen

theorem range1_concat : ∀ (s n : Nat),
    List.range' s (n + 1) = List.range' s n ++ [s + n] := by
  intro s n
  induction n generalizing s with
  | zero => rfl
  | succ n ih =>
    show s :: List.range' (s + 1) (n + 1) = _
    rw [ih (s + 1)]
    rw [show s + 1 + n = s + (n + 1) from by omega]
    rfl

theorem c8_batch (orig : List Chunk) :
    ∀ (buffer : List (Nat × Nat)) (decs : List (Json × Json)) (k : Nat)
      (st : AsmSt) (rs : List (List Nat)) (cur : List Nat),
    C8Inv orig k st rs cur →
    buffer.map Prod.snd = List.range' (k + 1) buffer.length →
    decs.length = buffer.length →
    k + buffer.length < orig.length →
    ∃ rs2 cur2, C8Inv orig (k + buffer.length)
      (applyBatchDecisions st buffer decs) rs2 cur2 := by
  intro buffer
  induction buffer with
  | nil =>
    intro decs k st rs cur hinv hsnd hlen hk
    exact ⟨rs, cur, hinv⟩
  | cons p bs ih =>
    intro decs k st rs cur hinv hsnd hlen hk
    cases decs with
    | nil => simp at hlen
    | cons d ds =>
      have hsnd2 : p.2 = k + 1 ∧ bs.map Prod.snd
          = List.range' (k + 2) bs.length := by
        rw [show (p :: bs).length = bs.length + 1 from rfl] at hsnd
        rw [show List.range' (k + 1) (bs.length + 1)
          = (k + 1) :: List.range' (k + 2) bs.length from rfl] at hsnd
        rw [List.map_cons] at hsnd
        exact ⟨(List.cons.inj hsnd).1, (List.cons.inj hsnd).2⟩
      rcases p with ⟨a, r⟩
      have hr : r = k + 1 := hsnd2.1
      subst hr
      have hstep : applyBatchDecisions st ((a, k + 1) :: bs) (d :: ds)
          = applyBatchDecisions (applyDecision st (a, k + 1) d) bs ds := rfl
      rw [hstep]
      obtain ⟨rs2, cur2, hinv2⟩ := c8_step orig k st rs cur a d
        hinv (by simp at hk; omega)
      obtain ⟨rs3, cur3, hinv3⟩ := ih ds (k + 1)
        (applyDecision st (a, k + 1) d) rs2 cur2 hinv2
        (by simpa [Nat.add_assoc] using hsnd2.2)
        (by simpa using hlen)
        (by simp at hk ⊢; omega)
      refine ⟨rs3, cur3, ?_⟩
      rw [show ((a, k + 1) :: bs).length = bs.length + 1 from rfl,
        show k + (bs.length + 1) = k + 1 + bs.length from by omega]
      exact hinv3

theorem c8_loop (orig : List Chunk) (decide : MergeDecideFn)
    (hlen : ∀ mc ps, (decide mc ps).decisions.length = ps.length) :
    ∀ (rest : List Nat) (buffer : List (Nat × Nat)) (k : Nat) (st : AsmSt)
      (rs : List (List Nat)) (cur : List Nat),
    C8Inv orig k st rs cur →
    buffer.map Prod.snd = List.range' (k + 1) buffer.length →
    rest = List.range' (k + 1 + buffer.length)
      (orig.length - (k + 1 + buffer.length)) →
    k + buffer.length < orig.length →
    ∃ rs2 cur2, C8Inv orig (orig.length - 1)
      (syncMergeLoop decide rest st buffer) rs2 cur2 := by
  intro rest
  induction rest with
  | nil =>
    intro buffer k st rs cur hinv hsnd hrest hk
    have hz : orig.length - (k + 1 + buffer.length) = 0 := by
      by_contra hc
      have hne : List.range' (k + 1 + buffer.length)
          (orig.length - (k + 1 + buffer.length)) ≠ [] := by
        cases hn : orig.length - (k + 1 + buffer.length) with
        | zero => exact absurd hn hc
        | succ m => simp [List.range']
      exact hne hrest.symm
    have hkb : k + buffer.length = orig.length - 1 := by omega
    show ∃ rs2 cur2, C8Inv orig (orig.length - 1)
      (if buffer.isEmpty then st else processBatch decide st buffer) rs2 cur2
    by_cases hbuf : buffer.isEmpty = true
    · rw [if_pos hbuf]
      have hbe : buffer = [] := List.isEmpty_iff.mp hbuf
      subst hbe
      simp only [List.length_nil, Nat.add_zero] at hkb
      rw [← hkb]
      exact ⟨rs, cur, hinv⟩
    · rw [if_neg hbuf]
      unfold processBatch
      obtain ⟨rs2, cur2, hinv2⟩ := c8_batch orig buffer
        (decide st.mergeCache (buffer.map (fun p =>
          (getC st.store p.1, getC st.store p.2)))).decisions
        k { st with
            mergeCache := (decide st.mergeCache (buffer.map (fun p =>
              (getC st.store p.1, getC st.store p.2)))).mergeCache,
            calls := st.calls + (decide st.mergeCache (buffer.map (fun p =>
              (getC st.store p.1, getC st.store p.2)))).calls }
        rs cur hinv hsnd (by rw [hlen]; simp) hk
      rw [hkb] at hinv2
      exact ⟨rs2, cur2, hinv2⟩
  | cons r rest2 ih =>
    intro buffer k st rs cur hinv hsnd hrest hk
    have hpos : 0 < orig.length - (k + 1 + buffer.length) := by
      by_contra hc
      have hz2 : orig.length - (k + 1 + buffer.length) = 0 := by omega
      rw [hz2] at hrest
      exact absurd hrest (by simp [List.range'])
    have hr : r = k + 1 + buffer.length
        ∧ rest2 = List.range' (k + 1 + buffer.length + 1)
            (orig.length - (k + 1 + buffer.length) - 1) := by
      rw [show orig.length - (k + 1 + buffer.length)
        = (orig.length - (k + 1 + buffer.length) - 1) + 1 from by omega] at hrest
      rw [show List.range' (k + 1 + buffer.length)
          ((orig.length - (k + 1 + buffer.length) - 1) + 1)
        = (k + 1 + buffer.length) :: List.range' (k + 1 + buffer.length + 1)
            (orig.length - (k + 1 + buffer.length) - 1) from rfl] at hrest
      exact ⟨(List.cons.inj hrest).1, (List.cons.inj hrest).2⟩
    show ∃ rs2 cur2, C8Inv orig (orig.length - 1)
      (if batch_size ≤ (buffer ++ [(st.final.getLastD 0, r)]).length then
        syncMergeLoop decide rest2
          (processBatch decide st (buffer ++ [(st.final.getLastD 0, r)])) []
      else syncMergeLoop decide rest2 st
        (buffer ++ [(st.final.getLastD 0, r)])) rs2 cur2
    have hsnd1 : (buffer ++ [(st.final.getLastD 0, r)]).map Prod.snd
        = List.range' (k + 1)
            ((buffer ++ [(st.final.getLastD 0, r)]).length) := by
      rw [List.map_append, hsnd, List.length_append]
      simp only [List.map_cons, List.map_nil, List.length_cons, List.length_nil]
      rw [hr.1]
      exact (range1_concat (k + 1) buffer.length).symm
    by_cases hbs : batch_size ≤ (buffer ++ [(st.final.getLastD 0, r)]).length
    · rw [if_pos hbs]
      have hk1 : k + 1 + buffer.length < orig.length := by omega
      have hinvB : ∃ rs2 cur2, C8Inv orig
          (k + (buffer ++ [(st.final.getLastD 0, r)]).length)
          (processBatch decide st (buffer ++ [(st.final.getLastD 0, r)]))
          rs2 cur2 := by
        unfold processBatch
        exact c8_batch orig (buffer ++ [(st.final.getLastD 0, r)])
          (decide st.mergeCache ((buffer ++ [(st.final.getLastD 0, r)]).map
            (fun p => (getC st.store p.1, getC st.store p.2)))).decisions
          k
          { st with
            mergeCache := (decide st.mergeCache
              ((buffer ++ [(st.final.getLastD 0, r)]).map
                (fun p => (getC st.store p.1, getC st.store p.2)))).mergeCache,
            calls := st.calls + (decide st.mergeCache
              ((buffer ++ [(st.final.getLastD 0, r)]).map
                (fun p => (getC st.store p.1, getC st.store p.2)))).calls }
          rs cur hinv hsnd1 (by rw [hlen]; simp)
          (by simp [List.length_append]; omega)
      obtain ⟨rs2, cur2, hinv2⟩ := hinvB
      refine ih [] (k + (buffer ++ [(st.final.getLastD 0, r)]).length)
        (processBatch decide st (buffer ++ [(st.final.getLastD 0, r)]))
        rs2 cur2 hinv2 rfl ?_ ?_
      · rw [hr.2]
        congr 1
        · simp [List.length_append]
          omega
        · simp [List.length_append]
          omega
      · simp [List.length_append]
        omega
    · rw [if_neg hbs]
      refine ih (buffer ++ [(st.final.getLastD 0, r)]) k st rs cur hinv
        hsnd1 ?_ ?_
      · rw [hr.2]
        congr 1
        · simp [List.length_append]
          omega
        · simp [List.length_append]
          omega
      · simp [List.length_append]
        omega

theorem mergePartition_ros_length (cache : List (String × (Json × Json))) :
    ∀ (i0 : Nat) (pairs : List (Chunk × Chunk)),
      (mergePartitionAux cache i0 pairs).1.length = pairs.length := by
  intro i0 pairs
  induction pairs generalizing i0 with
  | nil => rfl
  | cons p rest ih =>
    rcases p with ⟨c1, c2⟩
    unfold mergePartitionAux
    rcases hrec : mergePartitionAux cache (i0 + 1) rest with ⟨ros, ups, uks, uis⟩
    have ih2 := ih (i0 + 1)
    rw [hrec] at ih2
    dsimp only at ih2 ⊢
    by_cases h1 : (c1.qa_pairs.isEmpty || c2.qa_pairs.isEmpty) = true
    · rw [if_pos h1]
      simpa using ih2
    · rw [if_neg h1]
      by_cases h2 : (max_chunk_size < pyLen c1.text + pyLen c2.text)
      · rw [if_pos h2]
        simpa using ih2
      · rw [if_neg h2]
        rcases hl : cacheLookup cache (merge_cache_key c1 c2) with _ | dd
        · dsimp only
          simpa using ih2
        · dsimp only
          simpa using ih2

theorem fillSlots_length {α : Type} (dv : α) :
    ∀ (slots : List (Option α)) (us : List α),
      (fillSlots dv slots us).length = slots.length := by
  intro slots
  induction slots with
  | nil => intro us; rfl
  | cons s rest ih =>
    intro us
    cases s with
    | some v => simp [fillSlots, ih]
    | none =>
      cases us with
      | nil => simp [fillSlots, ih]
      | cons u us2 => simp [fillSlots, ih]

theorem should_merge_len (mc : List (String × (Json × Json)))
    (model : ModelFn) (ps : List (Chunk × Chunk)) :
    (should_merge_chunks_batch mc model ps).decisions.length = ps.length := by
  unfold should_merge_chunks_batch
  by_cases hp : ps.isEmpty = true
  · rw [if_pos hp]
    rw [List.isEmpty_iff.mp hp]
    rfl
  · rw [if_neg hp]
    rcases hmp : mergePartitionAux mc 0 ps with ⟨ros, ups, uks, uis⟩
    have hros : ros.length = ps.length := by
      have h0 := mergePartition_ros_length mc 0 ps
      rw [hmp] at h0
      exact h0
    dsimp only
    by_cases hups : ups.isEmpty = true
    · rw [if_pos hups]
      dsimp only
      rw [fillSlots_length]
      exact hros
    · rw [if_neg hups]
      rcases hmb : mergeBody ups model with e | out
      · dsimp only
        rw [fillSlots_length]
        exact hros
      · cases out with
        | noComparisons =>
          dsimp only
          rw [fillSlots_length]
          exact hros
        | withDict dict =>
          dsimp only
          rw [fillSlots_length]
          exact hros

theorem range_drop_one : ∀ n : Nat, (List.range n).drop 1
    = List.range' 1 (n - 1) := by
  intro n
  cases n with
  | zero => rfl
  | succ m =>
    rw [List.range_eq_range']
    rfl

/-- The per-segment chunk list both entry points build before merging
(chunker.py 598-645). -/
def segment_chunks_of (qaCache : List (String × List QA)) (model : ModelFn)
    (segments : List String) : List Chunk :=
  segmentChunksOf (segments.filter (fun s => min_chunk_size ≤ pyLen s))
    (runExtractionBatches qaCache model
      (chunksOf batch_size
        (segments.filter (fun s => min_chunk_size ≤ pyLen s)))).1

/-- C8: for every input and every model behavior (hence every sequence of
merge decisions) the synchronous assembler returns chunks that are the
in-order concatenation (with blank-line separators) of contiguous runs of
the per-segment chunks: the runs are non-empty, their concatenation is
exactly the segment-reference sequence `0, 1, ..., n-1` in order, each
final chunk is headed by its run\x27s first reference, and each final
chunk\x27s text and QA pairs are the in-order join of its run\x27s
original texts and QA lists — chunk order matches segment order and no
finalized chunk is ever revisited. -/
theorem c8_contiguous_partition (qaCache : List (String × List QA))
    (mergeCache : List (String × (Json × Json))) (model : ModelFn)
    (segments : List String) :
    ∃ runs : List (List Nat),
      (∀ run ∈ runs, run ≠ [])
      ∧ runs.flatten
          = (chunk_segments qaCache mergeCache model segments).segmentRefs
      ∧ (chunk_segments qaCache mergeCache model segments).finalRefs
          = runs.map (fun run => run.headD 0)
      ∧ (chunk_segments qaCache mergeCache model segments).chunks.map
            (fun c => c.text)
          = runs.map (fun run => joinTexts (run.map (fun r =>
              (getC (segment_chunks_of qaCache model segments) r).text)))
      ∧ (chunk_segments qaCache mergeCache model segments).chunks.map
            (fun c => c.qa_pairs)
          = runs.map (fun run => (run.map (fun r =>
              (getC (segment_chunks_of qaCache model segments) r).qa_pairs)).flatten) := by
  unfold chunk_segments segment_chunks_of
  by_cases h1 : segments.isEmpty = true
  · rw [if_pos h1]
    exact ⟨[], by simp, rfl, rfl, rfl, rfl⟩
  · rw [if_neg h1]
    dsimp only
    by_cases h2 : ((segments.filter fun s =>
        min_chunk_size ≤ pyLen s)).isEmpty = true
    · rw [if_pos h2]
      exact ⟨[], by simp, rfl, rfl, rfl, rfl⟩
    · rw [if_neg h2]
      rcases hrb : runExtractionBatches qaCache model
          (chunksOf batch_size
            (segments.filter fun s => min_chunk_size ≤ pyLen s))
        with ⟨allQa, qaCache1, ecalls⟩
      dsimp only
      by_cases h3 : (segmentChunksOf (segments.filter fun s =>
          min_chunk_size ≤ pyLen s) allQa).isEmpty = true
      · rw [if_pos h3]
        exact ⟨[], by simp, rfl, rfl, rfl, rfl⟩
      · rw [if_neg h3]
        by_cases h4 : (segmentChunksOf (segments.filter fun s =>
            min_chunk_size ≤ pyLen s) allQa).length < skip_merge_threshold
        · rw [if_pos h4]
          refine ⟨(List.range (segmentChunksOf (segments.filter fun s =>
              min_chunk_size ≤ pyLen s) allQa).length).map (fun i => [i]),
            ?_, ?_, ?_, ?_, ?_⟩
          · intro run hrun
            obtain ⟨i, -, hi⟩ := List.mem_map.mp hrun
            rw [← hi]
            simp
          · dsimp only
            exact join_singletons _
          · dsimp only
            rw [List.map_map]
            exact (List.map_id _).symm
          · dsimp only
            rw [List.map_map]
            exact (map_getC_range (fun c => c.text) _).symm
          · dsimp only
            rw [List.map_map]
            have hpt : ∀ r ∈ List.range (segmentChunksOf
                (segments.filter fun s => min_chunk_size ≤ pyLen s)
                  allQa).length,
                ((fun run => (run.map (fun r2 => (getC (segmentChunksOf
                    (segments.filter fun s => min_chunk_size ≤ pyLen s)
                    allQa) r2).qa_pairs)).flatten) ∘ (fun i => [i])) r
                = (getC (segmentChunksOf (segments.filter fun s =>
                    min_chunk_size ≤ pyLen s) allQa) r).qa_pairs := by
              intro r hr
              simp
            rw [map_ext_mem _ _ _ hpt]
            exact (map_getC_range_qa (fun c => c.qa_pairs) _).symm
        · rw [if_neg h4]
          have hne : segmentChunksOf (segments.filter fun s =>
              min_chunk_size ≤ pyLen s) allQa ≠ [] := by
            intro h
            exact h3 (by simp [h])
          have hpos : 0 < (segmentChunksOf (segments.filter fun s =>
              min_chunk_size ≤ pyLen s) allQa).length :=
            List.length_pos.mpr hne
          obtain ⟨rs2, cur2, hinvF⟩ := c8_loop
            (segmentChunksOf (segments.filter fun s =>
              min_chunk_size ≤ pyLen s) allQa)
            (fun mc ps => should_merge_chunks_batch mc model ps)
            (fun mc ps => should_merge_len mc model ps)
            ((List.range (segmentChunksOf (segments.filter fun s =>
              min_chunk_size ≤ pyLen s) allQa).length).drop 1)
            [] 0
            ⟨segmentChunksOf (segments.filter fun s =>
              min_chunk_size ≤ pyLen s) allQa, [0], mergeCache, 0⟩
            [] [0]
            ⟨by decide, by decide, by simp, by simp,
              by intro r hr; simp at hr; omega,
              rfl, rfl, by simp, fun r hr => rfl, rfl⟩
            rfl
            (by rw [range_drop_one]; rfl)
            (by simpa using hpos)
          obtain ⟨hjoin, hcne, hrsne, hrel, hcurb, hfin, htext, hqa,
            hfut, hslen⟩ := hinvF
          refine ⟨rs2 ++ [cur2], ?_, ?_, ?_, ?_, ?_⟩
          · intro run hrun
            rcases List.mem_append.mp hrun with h | h
            · exact hrsne run h
            · have hrc : run = cur2 := by simpa using h
              rw [hrc]
              exact hcne
          · dsimp only
            rw [hjoin]
            congr 1
            omega
          · exact hfin
          · dsimp only
            rw [List.map_map]
            exact htext
          · dsimp only
            rw [List.map_map]
            exact hqa
